import Mathlib

/-!
Shallow embedding of knot126/KHashTable (src/hashtable.h).

The C code is a single-header open-addressing hash table mapping blobs
(byte buffers with a cached 32-bit DJB2 hash) to blobs, preserving
insertion order by storing pair indexes in a power-of-two probe table.

Modelling conventions, each justified against the source:
  - A byte is a `Nat`; `KH_CreateBlob` truncates with `% 256` (uint8 storage).
  - `kh_hash_t` and `KH_Slot` are `uint32_t`: every arithmetic step that the
    C program performs in 32 bits carries an explicit `% U32`.  In
    particular `KH_InsertSlot` receives its `index` as `uint32_t` (callers
    pass a `size_t`, so the value is truncated at the call), and its local
    `slot_index` is `uint32_t`, so the `slot_index + 1` in the probe loop
    wraps at 2^32 before the `& (nslots - 1)` mask is applied.  The lookup
    loop instead computes `slot_index + i` in `size_t` (the loop counter is
    `size_t`), so no wrap happens there.
  - `size_t` quantities (`data_count`, `data_alloced`, loop counters) are
    unbounded `Nat`.
  - A `KH_DictPair` whose key and value pointers are NULL (the state
    produced by `memset(new_pairs, 0, ...)`) is `none`; a live pair is
    `some (key, value)`.  A blob is represented by its byte data; the
    `length` and `hash` fields of `KH_Blob` are functions of the data
    because `KH_CreateBlob` is the only constructor and computes both.
  - `malloc` success is an explicit `allocOk : Bool` oracle parameter.
    The C functions never mutate the dictionary before returning on an
    allocation failure, so a failing result carries the unchanged input.
  - The unbounded `while (1)` probe loop of `KH_InsertSlot` is run with
    fuel `nslots`; because the probe position cycles with period at most
    `nslots`, exhausting the fuel (`none`) is equivalent to the C loop
    spinning forever.  `SetRes.hang` marks that divergence.
-/

namespace KHT

def U32 : Nat := 4294967296

/-- Slot marker EMPTY, enum value 0xffffffff in the source. -/
def KH_HASH_EMPTY : Nat := 4294967295

/-- Slot marker DELETED (tombstone), enum value 0xfffffffe in the source. -/
def KH_HASH_DELETED : Nat := 4294967294

/-- DJB2-XOR hash: seed 5381; per byte, hash = ((hash << 5) + hash) ^ byte,
computed in uint32. -/
def KH_Hash (buffer : List Nat) : Nat :=
  buffer.foldl (fun hash b => (((hash <<< 5) + hash) % U32) ^^^ b) 5381

/-- A blob, identified with its byte data; `length` and `hash` are the
cached fields, always computed by `KH_CreateBlob`. -/
structure KH_Blob where
  data : List Nat
deriving DecidableEq, Repr

def KH_Blob.hash (b : KH_Blob) : Nat := KH_Hash b.data

def KH_Blob.length (b : KH_Blob) : Nat := b.data.length

def KH_CreateBlob (buffer : List Nat) : KH_Blob := ⟨buffer.map (· % 256)⟩

/-- Blob equality: pointer check, then cached hash and length, then memcmp. -/
def KH_BlobEqual (b1 b2 : KH_Blob) : Bool :=
  if b1 = b2 then true
  else if b1.hash ≠ b2.hash ∨ b1.length ≠ b2.length then false
  else decide (b1.data = b2.data)

structure KH_Dict where
  slots : List Nat
  pairs : List (Option (KH_Blob × KH_Blob))
  data_count : Nat
  data_alloced : Nat
deriving DecidableEq, Repr

/-- hash & (size - 1); only correct for power-of-two sizes, per the source. -/
def KH_BlobStartingIndexForSize (hash size : Nat) : Nat := hash &&& (size - 1)

def isFreeSlot (s : Nat) : Bool := decide (s = KH_HASH_EMPTY ∨ s = KH_HASH_DELETED)

/-- Probe loop of KH_InsertSlot.  `slot_index` is a uint32 in the source, so
the increment wraps at 2^32 before the mask.  Fuel `nslots` covers the whole
probe cycle; `none` means the C loop never finds a free slot and spins. -/
def insertSlotAux (slots : List Nat) (nslots index : Nat) : Nat → Nat → Option (List Nat)
  | _, 0 => none
  | slot_index, fuel + 1 =>
    if isFreeSlot (slots.getD slot_index 0) then some (slots.set slot_index index)
    else insertSlotAux slots nslots index (((slot_index + 1) % U32) &&& (nslots - 1)) fuel

def KH_InsertSlot (slots : List Nat) (nslots hash index : Nat) : Option (List Nat) :=
  insertSlotAux slots nslots index (KH_BlobStartingIndexForSize hash nslots) nslots

/-- Resize trigger bound: (data_alloced >> 1) + (data_alloced >> 3). -/
def threshold (cap : Nat) : Nat := (cap >>> 1) + (cap >>> 3)

inductive RszRes
  | ok (d : KH_Dict)
  | fail
  | hang
deriving DecidableEq, Repr

/-- Slot-rebuild loop of KH_ResizeDict: insert each live pair's index `j`
into the fresh slot array.  `j` is a size_t truncated to uint32 at the
KH_InsertSlot call. -/
def rebuildSlots (nslots : Nat) : List Nat → Nat → List (KH_Blob × KH_Blob) → Option (List Nat)
  | slots, _, [] => some slots
  | slots, j, kv :: rest =>
    match KH_InsertSlot slots nslots kv.1.hash (j % U32) with
    | none => none
    | some slots2 => rebuildSlots nslots slots2 (j + 1) rest

/-- The pairs the resize loop copies: it scans `pairs[0 .. data_alloced)` and
breaks at the first entry with a NULL key or value. -/
def livePairs (d : KH_Dict) : List (KH_Blob × KH_Blob) :=
  ((d.pairs.take d.data_alloced).takeWhile (fun p => p.isSome)).filterMap id

def KH_ResizeDict (self : KH_Dict) (allocOk : Bool) : RszRes :=
  let new_size := if self.data_alloced ≠ 0 then 2 * self.data_alloced else 8
  if allocOk = false then .fail
  else
    let live := livePairs self
    match rebuildSlots new_size (List.replicate new_size KH_HASH_EMPTY) 0 live with
    | none => .hang
    | some new_slots =>
      .ok { slots := new_slots
            pairs := live.map some ++ List.replicate (new_size - live.length) none
            data_count := live.length
            data_alloced := new_size }

inductive SetRes
  | ok (d : KH_Dict)
  | fail (d : KH_Dict)
  | hang
deriving DecidableEq, Repr

/-- KH_DictInsert: resize when data_count >= 5/8 of data_alloced, append the
pair at position data_count, place its index by linear probing, bump the
count.  A failed resize leaves the dictionary untouched (`fail self`). -/
def KH_DictInsert (self : KH_Dict) (key value : KH_Blob) (allocOk : Bool) : SetRes :=
  match (if threshold self.data_alloced ≤ self.data_count
         then KH_ResizeDict self allocOk
         else .ok self) with
  | .fail => .fail self
  | .hang => .hang
  | .ok s =>
    match KH_InsertSlot s.slots s.data_alloced key.hash (s.data_count % U32) with
    | none => .hang
    | some slots2 =>
      .ok { slots := slots2
            pairs := s.pairs.set s.data_count (some (key, value))
            data_count := s.data_count + 1
            data_alloced := s.data_alloced }

/-- Lookup loop: scan at most data_alloced slots from the home bucket; EMPTY
stops the scan, DELETED is skipped, a pair index is compared by key.  The
positions are computed in size_t, no uint32 wrap.  The `none` pair branch is
unreachable for dictionaries satisfying the slot-range invariant (the C code
would dereference a NULL key there); it continues the scan. -/
def lookupAux (slots : List Nat) (pairs : List (Option (KH_Blob × KH_Blob)))
    (alloced : Nat) (key : KH_Blob) (slot_index : Nat) : Nat → Nat → Option Nat
  | _, 0 => none
  | i, fuel + 1 =>
    let slot := slots.getD ((slot_index + i) &&& (alloced - 1)) 0
    if slot = KH_HASH_EMPTY then none
    else if slot = KH_HASH_DELETED then lookupAux slots pairs alloced key slot_index (i + 1) fuel
    else
      match pairs.getD slot none with
      | some kv =>
        if KH_BlobEqual key kv.1 then some slot
        else lookupAux slots pairs alloced key slot_index (i + 1) fuel
      | none => lookupAux slots pairs alloced key slot_index (i + 1) fuel

def KH_DictLookupIndex (self : KH_Dict) (key : KH_Blob) : Option Nat :=
  lookupAux self.slots self.pairs self.data_alloced key
    (KH_BlobStartingIndexForSize key.hash self.data_alloced) 0 self.data_alloced

/-- KH_DictChange: replace the value stored at `index`, keeping the key.
The `none` arm is unreachable under the invariants (lookup only returns
live indexes). -/
def KH_DictChange (self : KH_Dict) (index : Nat) (value : KH_Blob) : KH_Dict :=
  match self.pairs.getD index none with
  | some kv => { self with pairs := self.pairs.set index (some (kv.1, value)) }
  | none => self

/-- KH_DictRemove: free the pair, shift pairs[index+1 .. count) down one
position (the stale copy of the last pair remains at position count-1, as in
the C array), decrement the count, then fix the slots: tombstone the deleted
index, decrement greater indexes, skip EMPTY and DELETED. -/
def KH_DictRemove (self : KH_Dict) (index : Nat) : KH_Dict :=
  { slots := self.slots.map (fun s =>
      if s = KH_HASH_DELETED ∨ s = KH_HASH_EMPTY then s
      else if index < s then s - 1
      else if s = index then KH_HASH_DELETED
      else s)
    pairs := self.pairs.mapIdx (fun i p =>
      if index ≤ i ∧ i + 1 < self.data_count then self.pairs.getD (i + 1) none else p)
    data_count := self.data_count - 1
    data_alloced := self.data_alloced }

def emptyD : KH_Dict := ⟨[], [], 0, 0⟩

inductive CreateRes
  | ok (d : KH_Dict)
  | nullDeref
deriving DecidableEq, Repr

/-- KH_CreateDict mallocs the control structure and memsets it to zero.  It
does NOT check the malloc result: on allocation failure it passes the NULL
pointer straight to memset (undefined behaviour), marked `nullDeref`. -/
def KH_CreateDict (allocOk : Bool) : CreateRes :=
  if allocOk then .ok emptyD else .nullDeref

def KH_DictSet (self : KH_Dict) (key value : KH_Blob) (allocOk : Bool) : SetRes :=
  match KH_DictLookupIndex self key with
  | none => KH_DictInsert self key value allocOk
  | some index => .ok (KH_DictChange self index value)

def KH_DictGet (self : KH_Dict) (key : KH_Blob) : Option KH_Blob :=
  match KH_DictLookupIndex self key with
  | none => none
  | some index => (self.pairs.getD index none).map Prod.snd

def KH_DictHas (self : KH_Dict) (key : KH_Blob) : Bool :=
  (KH_DictLookupIndex self key).isSome

def KH_DictDelete (self : KH_Dict) (key : KH_Blob) : Bool × KH_Dict :=
  match KH_DictLookupIndex self key with
  | none => (false, self)
  | some index => (true, KH_DictRemove self index)

def KH_DictKeyIter (self : KH_Dict) (index : Nat) : Option KH_Blob :=
  if index < self.data_count then (self.pairs.getD index none).map Prod.fst else none

def KH_DictValueIter (self : KH_Dict) (index : Nat) : Option KH_Blob :=
  if index < self.data_count then (self.pairs.getD index none).map Prod.snd else none

def KH_DictLen (self : KH_Dict) : Nat := self.data_count

/-- Run a list of KH_DictSet operations with the allocator succeeding;
`none` records that some probe loop failed to terminate. -/
def runSets (d : KH_Dict) : List (KH_Blob × KH_Blob) → Option KH_Dict
  | [] => some d
  | kv :: rest =>
    match KH_DictSet d kv.1 kv.2 true with
    | .ok d2 => runSets d2 rest
    | .fail _ => none
    | .hang => none

/-- Dictionary states reachable from a fresh dictionary by at most `n`
mutating operations (Set with either allocator outcome, Delete); Get and
Has do not change the state. -/
inductive ReachableIn : Nat → KH_Dict → Prop
  | empty : ReachableIn 0 emptyD
  | more {n d} : ReachableIn n d → ReachableIn (n + 1) d
  | set {n d d2} (k v : KH_Blob) (ao : Bool) :
      ReachableIn n d → KH_DictSet d k v ao = .ok d2 → ReachableIn (n + 1) d2
  | setFail {n d d2} (k v : KH_Blob) (ao : Bool) :
      ReachableIn n d → KH_DictSet d k v ao = .fail d2 → ReachableIn (n + 1) d2
  | del {n d} (k : KH_Blob) :
      ReachableIn n d → ReachableIn (n + 1) (KH_DictDelete d k).2

/-- The key stored at pair position j (default only for out-of-range). -/
def keyAt (d : KH_Dict) (j : Nat) : KH_Blob := ((d.pairs.getD j none).map Prod.fst).getD ⟨[]⟩

/-- The value stored at pair position j (default only for out-of-range). -/
def valAt (d : KH_Dict) (j : Nat) : KH_Blob := ((d.pairs.getD j none).map Prod.snd).getD ⟨[]⟩

/-- The slot positions a probe can reach: the whole table for capacities up
to 2^32; only the first 2^32 slots beyond that, because the probe cursor is
a uint32. -/
def region (cap : Nat) : Nat := min cap U32

/-! ### Basic arithmetic and blob lemmas -/

theorem U32_eq_pow : U32 = 2 ^ 32 := by norm_num [U32]

theorem isFreeSlot_iff {s : Nat} :
    isFreeSlot s = true ↔ s = KH_HASH_EMPTY ∨ s = KH_HASH_DELETED := by
  simp [isFreeSlot]

theorem KH_BlobEqual_iff {b1 b2 : KH_Blob} : KH_BlobEqual b1 b2 = true ↔ b1 = b2 := by
  constructor
  · intro h
    unfold KH_BlobEqual at h
    split at h
    · assumption
    · split at h
      · exact absurd h (by simp)
      · rcases b1 with ⟨d1⟩
        rcases b2 with ⟨d2⟩
        have hd : d1 = d2 := of_decide_eq_true h
        simp [hd]
  · intro h
    subst h
    simp [KH_BlobEqual]

theorem KH_BlobEqual_self (b : KH_Blob) : KH_BlobEqual b b = true := by
  simp [KH_BlobEqual]

theorem threshold_eq (cap : Nat) : threshold cap = cap / 2 + cap / 8 := by
  simp only [threshold, Nat.shiftRight_eq_div_pow]

theorem threshold_eight_mul (m : Nat) : threshold (8 * m) = 5 * m := by
  rw [threshold_eq]
  omega

theorem two_pow_eq_eight_mul {k : Nat} (h : 3 ≤ k) : 2 ^ k = 8 * 2 ^ (k - 3) := by
  have hk : k = 3 + (k - 3) := by omega
  rw [hk, pow_add]
  norm_num

theorem threshold_two_pow {k : Nat} (h : 3 ≤ k) : threshold (2 ^ k) = 5 * 2 ^ (k - 3) := by
  rw [two_pow_eq_eight_mul h, threshold_eight_mul]

theorem threshold_lt_cap {k : Nat} (h : 3 ≤ k) : threshold (2 ^ k) < 2 ^ k := by
  rw [threshold_two_pow h, two_pow_eq_eight_mul h]
  have : 0 < 2 ^ (k - 3) := Nat.pos_pow_of_pos _ (by norm_num)
  omega

theorem threshold_zero : threshold 0 = 0 := by rfl

/-! ### The probe position sequence of KH_InsertSlot

The probe cursor is a uint32: each step computes ((p + 1) mod 2^32) masked
by nslots - 1.  For a power-of-two nslots that is at most 2^33, starting
below `region nslots`, the sequence is (start + t) mod region. -/

def probeSeq (nslots start : Nat) : Nat → Nat
  | 0 => start
  | t + 1 => ((probeSeq nslots start t + 1) % U32) &&& (nslots - 1)

theorem probeSeq_succ_outer (nslots start t : Nat) :
    probeSeq nslots start (t + 1) =
      probeSeq nslots (((start + 1) % U32) &&& (nslots - 1)) t := by
  induction t with
  | zero => rfl
  | succ u ih => rw [probeSeq, ih, probeSeq]

theorem probe_step_eq {k p : Nat} (hk3 : 3 ≤ k) (hk : k ≤ 33) (hp : p < region (2 ^ k)) :
    ((p + 1) % U32) &&& (2 ^ k - 1) = (p + 1) % region (2 ^ k) := by
  rcases Nat.lt_or_ge k 33 with hlt | hge
  · -- capacity at most 2^32: region is the capacity itself
    have hcap : 2 ^ k ≤ U32 := by
      rw [U32_eq_pow]
      exact Nat.pow_le_pow_right (by norm_num) (by omega)
    have hreg : region (2 ^ k) = 2 ^ k := by
      simp [region, Nat.min_eq_left hcap]
    rw [hreg] at hp ⊢
    rcases Nat.lt_or_ge (p + 1) U32 with h1 | h1
    · rw [Nat.mod_eq_of_lt h1, Nat.and_pow_two_sub_one_eq_mod]
    · have hpv : p + 1 = U32 := by omega
      have hcap2 : (2:Nat) ^ k = U32 := by omega
      rw [hpv, hcap2, Nat.mod_self]
      simp
  · -- capacity 2^33: region is 2^32 and the mask is the identity here
    have hk33 : k = 33 := by omega
    subst hk33
    have hreg : region (2 ^ 33) = U32 := by
      simp only [region, U32_eq_pow]
      exact Nat.min_eq_right (by norm_num)
    rw [hreg] at hp ⊢
    have hq : (p + 1) % U32 < 2 ^ 33 := by
      have := Nat.mod_lt (p + 1) (show 0 < U32 by norm_num [U32])
      have : (p + 1) % U32 < U32 := this
      rw [U32_eq_pow] at this
      calc (p + 1) % U32 < 2 ^ 32 := this
        _ < 2 ^ 33 := by norm_num
    rw [Nat.and_pow_two_sub_one_eq_mod, Nat.mod_eq_of_lt hq]

theorem probeSeq_closed {k start : Nat} (hk3 : 3 ≤ k) (hk : k ≤ 33)
    (hs : start < region (2 ^ k)) (t : Nat) :
    probeSeq (2 ^ k) start t = (start + t) % region (2 ^ k) := by
  have hRpos : 0 < region (2 ^ k) := by
    have h1 : (0:Nat) < 2 ^ k := Nat.pos_pow_of_pos _ (by norm_num)
    have h2 : (0:Nat) < U32 := by norm_num [U32]
    exact lt_min h1 h2
  induction t with
  | zero => simpa [probeSeq] using (Nat.mod_eq_of_lt hs).symm
  | succ u ih =>
    rw [probeSeq, ih]
    have hlt : (start + u) % region (2 ^ k) < region (2 ^ k) := Nat.mod_lt _ hRpos
    rw [probe_step_eq hk3 hk hlt, Nat.mod_add_mod, ← Nat.add_assoc]

theorem region_le_cap (cap : Nat) : region cap ≤ cap := Nat.min_le_left _ _

theorem region_pos {k : Nat} : 0 < region (2 ^ k) :=
  lt_min (Nat.pos_pow_of_pos _ (by norm_num)) (by norm_num [U32])

theorem insertSlotAux_succ (slots : List Nat) (nslots index start f : Nat) :
    insertSlotAux slots nslots index start (f + 1) =
      if isFreeSlot (slots.getD start 0) = true then some (slots.set start index)
      else insertSlotAux slots nslots index (((start + 1) % U32) &&& (nslots - 1)) f := rfl

theorem insertSlotAux_found (slots : List Nat) (nslots index : Nat) :
    ∀ fuel start t, t < fuel →
      isFreeSlot (slots.getD (probeSeq nslots start t) 0) = true →
      (∀ u < t, isFreeSlot (slots.getD (probeSeq nslots start u) 0) = false) →
      insertSlotAux slots nslots index start fuel =
        some (slots.set (probeSeq nslots start t) index) := by
  intro fuel
  induction fuel with
  | zero => intro start t ht; omega
  | succ f ih =>
    intro start t ht hfree hpath
    rcases Nat.eq_zero_or_pos t with rfl | hpos
    · simp only [probeSeq] at hfree
      rw [insertSlotAux_succ, if_pos hfree]
      rfl
    · have hstart : isFreeSlot (slots.getD start 0) = false := by
        simpa [probeSeq] using hpath 0 hpos
      obtain ⟨u, rfl⟩ : ∃ u, t = u + 1 := ⟨t - 1, by omega⟩
      rw [insertSlotAux_succ, if_neg (by rw [hstart]; simp), probeSeq_succ_outer]
      exact ih _ u (by omega)
        (by rw [← probeSeq_succ_outer]; exact hfree)
        (fun w hw => by rw [← probeSeq_succ_outer]; exact hpath (w + 1) (by omega))

theorem insertSlotAux_none (slots : List Nat) (nslots index : Nat) :
    ∀ fuel start, (∀ t < fuel, isFreeSlot (slots.getD (probeSeq nslots start t) 0) = false) →
      insertSlotAux slots nslots index start fuel = none := by
  intro fuel
  induction fuel with
  | zero => intro start _; rfl
  | succ f ih =>
    intro start hall
    have hstart : isFreeSlot (slots.getD start 0) = false := by
      simpa [probeSeq] using hall 0 (by omega)
    rw [insertSlotAux_succ, if_neg (by rw [hstart]; simp)]
    exact ih _ (fun w hw => by
      rw [← probeSeq_succ_outer]
      exact hall (w + 1) (by omega))

/-- Bookkeeping for probe-loop liveness: the number of occupied slots among
the first R positions. -/
def nonfreeCount (S : List Nat) (R : Nat) : Nat :=
  (S.take R).countP (fun s => !(isFreeSlot s))

theorem exists_free_of_nonfreeCount {S : List Nat} {R m : Nat} (hR : R ≤ S.length)
    (hc : nonfreeCount S R ≤ m) (hm : m < R) :
    ∃ p, p < R ∧ isFreeSlot (S.getD p 0) = true := by
  by_contra hno
  push_neg at hno
  have hall : ∀ s ∈ S.take R, (!(isFreeSlot s)) = true := by
    intro s hs
    obtain ⟨p, hp, hval⟩ := List.mem_iff_getElem.mp hs
    have hpR : p < R := lt_of_lt_of_le hp (by simp [List.length_take])
    have hpS : p < S.length := lt_of_lt_of_le hpR hR
    have : S.getD p 0 = s := by
      rw [List.getD_eq_getElem S 0 hpS, ← hval, List.getElem_take]
    have hfree := hno p hpR
    rw [this] at hfree
    simp [hfree]
  have hcnt : nonfreeCount S R = R := by
    have := List.countP_eq_length.mpr hall
    simpa [nonfreeCount, List.length_take, Nat.min_eq_left hR] using this
  omega

theorem nonfreeCount_set {S : List Nat} {R p : Nat} (v : Nat) (hp : p < R) (hR : R ≤ S.length) :
    nonfreeCount (S.set p v) R =
      (nonfreeCount S R - if !(isFreeSlot (S.getD p 0)) then 1 else 0) +
        (if !(isFreeSlot v) then 1 else 0) := by
  have hpS : p < S.length := lt_of_lt_of_le hp hR
  have htake : (S.set p v).take R = (S.take R).set p v := List.set_take
  have hplen : p < (S.take R).length := by simp [List.length_take]; omega
  have hget : (S.take R)[p] = S.getD p 0 := by
    rw [List.getElem_take, List.getD_eq_getElem S 0 hpS]
  rw [nonfreeCount, htake, List.countP_set _ _ _ _ hplen, hget]
  rfl

theorem nonfreeCount_set_le {S : List Nat} {R p : Nat} (v : Nat) (hp : p < R) (hR : R ≤ S.length) :
    nonfreeCount (S.set p v) R ≤ nonfreeCount S R + 1 := by
  rw [nonfreeCount_set v hp hR]
  split <;> split <;> omega

/-- Placement behaviour of KH_InsertSlot on a power-of-two table with at
least one free slot in the reachable region: the stored index lands in the
first free slot of the probe sequence, and every earlier probe position is
occupied. -/
theorem KH_InsertSlot_spec {k : Nat} (hk3 : 3 ≤ k) (hk : k ≤ 33) {S : List Nat}
    (h v : Nat)
    (hhome : (h &&& (2 ^ k - 1)) < region (2 ^ k))
    (hfree : ∃ p, p < region (2 ^ k) ∧ isFreeSlot (S.getD p 0) = true) :
    ∃ off, off < region (2 ^ k) ∧
      (∀ t < off,
        isFreeSlot (S.getD (((h &&& (2 ^ k - 1)) + t) % region (2 ^ k)) 0) = false) ∧
      isFreeSlot (S.getD (((h &&& (2 ^ k - 1)) + off) % region (2 ^ k)) 0) = true ∧
      KH_InsertSlot S (2 ^ k) h v =
        some (S.set (((h &&& (2 ^ k - 1)) + off) % region (2 ^ k)) v) := by
  set home := h &&& (2 ^ k - 1) with hhome_def
  set R := region (2 ^ k) with hR_def
  have hRpos : 0 < R := region_pos
  obtain ⟨p, hpR, hpfree⟩ := hfree
  have hwit : ∃ t, isFreeSlot (S.getD ((home + t) % R) 0) = true := by
    refine ⟨(p + R - home) % R, ?_⟩
    have h1 : (home + (p + R - home) % R) % R = p := by
      rw [Nat.add_mod_mod]
      have h2 : home + (p + R - home) = p + R := by omega
      rw [h2, Nat.add_mod_right, Nat.mod_eq_of_lt hpR]
    rw [h1]
    exact hpfree
  have ht0free := Nat.find_spec hwit
  have ht0lt : Nat.find hwit < R :=
    lt_of_le_of_lt (Nat.find_min' hwit ((by
      have h1 : (home + (p + R - home) % R) % R = p := by
        rw [Nat.add_mod_mod]
        have h2 : home + (p + R - home) = p + R := by omega
        rw [h2, Nat.add_mod_right, Nat.mod_eq_of_lt hpR]
      rw [h1]
      exact hpfree))) (Nat.mod_lt _ hRpos)
  refine ⟨Nat.find hwit, ht0lt, ?_, ht0free, ?_⟩
  · intro t ht
    have := Nat.find_min hwit ht
    exact Bool.eq_false_iff.mpr this
  · have hmain := insertSlotAux_found S (2 ^ k) v (2 ^ k) home (Nat.find hwit)
      (lt_of_lt_of_le ht0lt (region_le_cap _))
      (by rw [probeSeq_closed hk3 hk hhome]; exact ht0free)
      (fun u hu => by
        rw [probeSeq_closed hk3 hk hhome]
        exact Bool.eq_false_iff.mpr (Nat.find_min hwit hu))
    rw [KH_InsertSlot, KH_BlobStartingIndexForSize, hmain, probeSeq_closed hk3 hk hhome]

/-- When no reachable slot is free, the KH_InsertSlot probe loop never
terminates (the fuelled model returns none). -/
theorem KH_InsertSlot_none {k : Nat} (hk3 : 3 ≤ k) (hk : k ≤ 33) {S : List Nat}
    (h v : Nat) (hhome : (h &&& (2 ^ k - 1)) < region (2 ^ k))
    (hall : ∀ p < region (2 ^ k), isFreeSlot (S.getD p 0) = false) :
    KH_InsertSlot S (2 ^ k) h v = none := by
  rw [KH_InsertSlot, KH_BlobStartingIndexForSize]
  apply insertSlotAux_none
  intro t ht
  rw [probeSeq_closed hk3 hk hhome]
  exact hall _ (Nat.mod_lt _ region_pos)

/-! ### The lookup loop -/

theorem lookupAux_succ (slots : List Nat) (pairs : List (Option (KH_Blob × KH_Blob)))
    (alloced : Nat) (key : KH_Blob) (base i f : Nat) :
    lookupAux slots pairs alloced key base i (f + 1) =
      if slots.getD ((base + i) &&& (alloced - 1)) 0 = KH_HASH_EMPTY then none
      else if slots.getD ((base + i) &&& (alloced - 1)) 0 = KH_HASH_DELETED then
        lookupAux slots pairs alloced key base (i + 1) f
      else
        match pairs.getD (slots.getD ((base + i) &&& (alloced - 1)) 0) none with
        | some kv =>
          if KH_BlobEqual key kv.1 then some (slots.getD ((base + i) &&& (alloced - 1)) 0)
          else lookupAux slots pairs alloced key base (i + 1) f
        | none => lookupAux slots pairs alloced key base (i + 1) f := rfl

theorem lookupAux_sound (slots : List Nat) (pairs : List (Option (KH_Blob × KH_Blob)))
    (alloced : Nat) (key : KH_Blob) (base : Nat) :
    ∀ fuel i s, lookupAux slots pairs alloced key base i fuel = some s →
      s ≠ KH_HASH_EMPTY ∧ s ≠ KH_HASH_DELETED ∧
      (∃ kv, pairs.getD s none = some kv ∧ KH_BlobEqual key kv.1 = true) ∧
      ∃ t, i ≤ t ∧ t < i + fuel ∧ slots.getD ((base + t) &&& (alloced - 1)) 0 = s := by
  intro fuel
  induction fuel with
  | zero => intro i s h; simp [lookupAux] at h
  | succ f ih =>
    intro i s h
    rw [lookupAux_succ] at h
    by_cases h1 : slots.getD ((base + i) &&& (alloced - 1)) 0 = KH_HASH_EMPTY
    · rw [if_pos h1] at h
      exact absurd h (by simp)
    · rw [if_neg h1] at h
      by_cases h2 : slots.getD ((base + i) &&& (alloced - 1)) 0 = KH_HASH_DELETED
      · rw [if_pos h2] at h
        obtain ⟨a, b, c, t, ht1, ht2, ht3⟩ := ih (i + 1) s h
        exact ⟨a, b, c, t, by omega, by omega, ht3⟩
      · rw [if_neg h2] at h
        rcases hp : pairs.getD (slots.getD ((base + i) &&& (alloced - 1)) 0) none with _ | kv
        · simp only [hp] at h
          obtain ⟨a, b, c, t, ht1, ht2, ht3⟩ := ih (i + 1) s h
          exact ⟨a, b, c, t, by omega, by omega, ht3⟩
        · simp only [hp] at h
          by_cases h3 : KH_BlobEqual key kv.1 = true
          · rw [if_pos h3] at h
            have hs : slots.getD ((base + i) &&& (alloced - 1)) 0 = s := by
              exact Option.some.inj h
            subst hs
            exact ⟨h1, h2, ⟨kv, hp, h3⟩, i, le_refl _, by omega, rfl⟩
          · rw [if_neg h3] at h
            obtain ⟨a, b, c, t, ht1, ht2, ht3⟩ := ih (i + 1) s h
            exact ⟨a, b, c, t, by omega, by omega, ht3⟩

theorem lookupAux_complete (slots : List Nat) (pairs : List (Option (KH_Blob × KH_Blob)))
    (alloced : Nat) (key : KH_Blob) (base : Nat) :
    ∀ fuel i t j kv, i ≤ t → t < i + fuel →
      slots.getD ((base + t) &&& (alloced - 1)) 0 = j →
      j ≠ KH_HASH_EMPTY → j ≠ KH_HASH_DELETED →
      pairs.getD j none = some kv → KH_BlobEqual key kv.1 = true →
      (∀ u, i ≤ u → u < t → slots.getD ((base + u) &&& (alloced - 1)) 0 ≠ KH_HASH_EMPTY) →
      (lookupAux slots pairs alloced key base i fuel).isSome = true := by
  intro fuel
  induction fuel with
  | zero => intro i t j kv h1 h2; omega
  | succ f ih =>
    intro i t j kv hit htf hslot hjE hjD hpair hmatch hpath
    rw [lookupAux_succ]
    rcases Nat.eq_or_lt_of_le hit with rfl | hlt
    · rw [hslot, if_neg hjE, if_neg hjD, hpair]
      simp [hmatch]
    · by_cases h1 : slots.getD ((base + i) &&& (alloced - 1)) 0 = KH_HASH_EMPTY
      · exact absurd h1 (hpath i (le_refl _) hlt)
      · rw [if_neg h1]
        by_cases h2 : slots.getD ((base + i) &&& (alloced - 1)) 0 = KH_HASH_DELETED
        · rw [if_pos h2]
          exact ih (i + 1) t j kv hlt (by omega) hslot hjE hjD hpair hmatch
            (fun u hu1 hu2 => hpath u (by omega) hu2)
        · rw [if_neg h2]
          rcases hp : pairs.getD (slots.getD ((base + i) &&& (alloced - 1)) 0) none with _ | kv2

          · exact ih (i + 1) t j kv hlt (by omega) hslot hjE hjD hpair hmatch
              (fun u hu1 hu2 => hpath u (by omega) hu2)
          · by_cases h3 : KH_BlobEqual key kv2.1 = true
            · simp [h3]
            · simp only [h3, if_false, Bool.false_eq_true]
              exact ih (i + 1) t j kv hlt (by omega) hslot hjE hjD hpair hmatch
                (fun u hu1 hu2 => hpath u (by omega) hu2)

/-! ### Invariants

UInv holds in every reachable state.  DInv additionally records the probe
chain structure; it is maintained as long as the table stays within the
32-bit probe range (capacity at most 2^32), which is the case for every
execution of fewer than threshold (2^32) = 5 * 2^29 operations. -/

structure UInv (d : KH_Dict) : Prop where
  slots_len : d.slots.length = d.data_alloced
  pairs_len : d.pairs.length = d.data_alloced
  cap_pow : d.data_alloced = 0 ∨ ∃ k, 3 ≤ k ∧ d.data_alloced = 2 ^ k
  count_le : d.data_count ≤ threshold d.data_alloced
  dense : ∀ i, i < d.data_count → (d.pairs.getD i none).isSome = true
  tail_none : ∀ i, threshold d.data_alloced ≤ i → d.pairs.getD i none = none
  slot_range : ∀ s ∈ d.slots, s = KH_HASH_EMPTY ∨ s = KH_HASH_DELETED ∨ s < d.data_count

/-- Home bucket of the key stored at pair position j. -/
def homeOf (d : KH_Dict) (j : Nat) : Nat := (keyAt d j).hash &&& (d.data_alloced - 1)

structure DInv (d : KH_Dict) extends UInv d : Prop where
  cap_le : d.data_alloced ≤ U32
  nonfree_le : nonfreeCount d.slots d.data_alloced ≤ d.data_count
  uniq : ∀ j, j < d.data_count → ∃ p, p < d.data_alloced ∧ d.slots.getD p 0 = j ∧
    ∀ q, q < d.data_alloced → d.slots.getD q 0 = j → q = p
  chain : ∀ j, j < d.data_count → ∃ off, off < d.data_alloced ∧
    d.slots.getD ((homeOf d j + off) % d.data_alloced) 0 = j ∧
    ∀ t, t < off → d.slots.getD ((homeOf d j + t) % d.data_alloced) 0 ≠ KH_HASH_EMPTY
  distinct : ∀ j1, j1 < d.data_count → ∀ j2, j2 < d.data_count → j1 ≠ j2 →
    keyAt d j1 ≠ keyAt d j2

theorem UInv.count_lt_cap {d : KH_Dict} (h : UInv d) (hc : d.data_alloced ≠ 0) :
    d.data_count < d.data_alloced := by
  rcases h.cap_pow with h0 | ⟨k, hk, hcap⟩
  · exact absurd h0 hc
  · have := h.count_le
    rw [hcap] at this ⊢
    exact lt_of_le_of_lt this (threshold_lt_cap hk)

theorem UInv.count_zero_of_cap_zero {d : KH_Dict} (h : UInv d) (hc : d.data_alloced = 0) :
    d.data_count = 0 := by
  have := h.count_le
  rw [hc, threshold_zero] at this
  omega

theorem DInv.count_lt_tomb {d : KH_Dict} (h : DInv d) : d.data_count < KH_HASH_DELETED := by
  rcases h.cap_pow with h0 | ⟨k, hk, hcap⟩
  · have := h.count_zero_of_cap_zero h0
    rw [this]
    norm_num [KH_HASH_DELETED]
  · have hk32 : k ≤ 32 := by
      by_contra hgt
      have : (2:Nat) ^ 33 ≤ 2 ^ k := Nat.pow_le_pow_right (by norm_num) (by omega)
      have hle := h.cap_le
      rw [hcap, U32_eq_pow] at hle
      have : (2:Nat) ^ 33 ≤ 2 ^ 32 := le_trans this hle
      norm_num at this
    have hth : threshold d.data_alloced ≤ 5 * 2 ^ 29 := by
      rw [hcap, threshold_two_pow hk]
      have : (2:Nat) ^ (k - 3) ≤ 2 ^ 29 := Nat.pow_le_pow_right (by norm_num) (by omega)
      omega
    have := h.count_le
    have : d.data_count ≤ 5 * 2 ^ 29 := le_trans this hth
    norm_num [KH_HASH_DELETED] at this ⊢
    omega

/-! ### Generic facts about the probe loop results -/

theorem insertSlotAux_mem {S : List Nat} {n v : Nat} :
    ∀ {fuel start S2}, insertSlotAux S n v start fuel = some S2 →
      ∃ p, isFreeSlot (S.getD p 0) = true ∧ S2 = S.set p v := by
  intro fuel
  induction fuel with
  | zero => intro start S2 h; simp [insertSlotAux] at h
  | succ f ih =>
    intro start S2 h
    rw [insertSlotAux_succ] at h
    by_cases hfree : isFreeSlot (S.getD start 0) = true
    · rw [if_pos hfree] at h
      exact ⟨start, hfree, (Option.some.inj h).symm⟩
    · rw [if_neg hfree] at h
      exact ih h

theorem KH_InsertSlot_mem {S : List Nat} {n h v : Nat} {S2 : List Nat}
    (hres : KH_InsertSlot S n h v = some S2) :
    ∃ p, isFreeSlot (S.getD p 0) = true ∧ S2 = S.set p v :=
  insertSlotAux_mem hres

theorem rebuildSlots_some_facts {n : Nat} :
    ∀ (live : List (KH_Blob × KH_Blob)) (j0 : Nat) (S S2 : List Nat),
      rebuildSlots n S j0 live = some S2 →
      (∀ s ∈ S, s = KH_HASH_EMPTY ∨ s < j0) →
      S2.length = S.length ∧ (∀ s ∈ S2, s = KH_HASH_EMPTY ∨ s < j0 + live.length) := by
  intro live
  induction live with
  | nil =>
    intro j0 S S2 h hr
    rw [rebuildSlots] at h
    cases h
    exact ⟨rfl, by simpa using hr⟩
  | cons kv rest ih =>
    intro j0 S S2 h hr
    rw [rebuildSlots] at h
    rcases hins : KH_InsertSlot S n kv.1.hash (j0 % U32) with _ | S1
    · rw [hins] at h; exact absurd h (by simp)
    · rw [hins] at h
      obtain ⟨p, hpfree, rfl⟩ := KH_InsertSlot_mem hins
      have hr1 : ∀ s ∈ S.set p (j0 % U32), s = KH_HASH_EMPTY ∨ s < j0 + 1 := by
        intro s hs
        rcases List.mem_or_eq_of_mem_set hs with hmem | rfl
        · rcases hr s hmem with h1 | h1
          · exact Or.inl h1
          · exact Or.inr (by omega)
        · exact Or.inr (lt_of_le_of_lt (Nat.mod_le _ _) (by omega))
      obtain ⟨hl, hv⟩ := ih (j0 + 1) _ S2 h hr1
      refine ⟨by rw [hl, List.length_set], ?_⟩
      intro s hs
      rcases hv s hs with h1 | h1
      · exact Or.inl h1
      · exact Or.inr (by simpa [Nat.add_assoc, Nat.add_comm 1] using h1)

/-! ### List helper lemmas -/

theorem takeWhile_isSome_eq_take {α : Type} :
    ∀ (l : List (Option α)) (n : Nat),
      (∀ i, i < n → (l.getD i none).isSome = true) → l.getD n none = none →
      l.takeWhile (fun p => p.isSome) = l.take n := by
  intro l
  induction l with
  | nil => intro n _ _; simp
  | cons a t ih =>
    intro n hd hn
    cases n with
    | zero =>
      have ha : a = none := by simpa [List.getD] using hn
      subst ha
      simp [List.takeWhile_cons]
    | succ m =>
      have ha : a.isSome = true := by simpa [List.getD] using hd 0 (by omega)
      rw [List.takeWhile_cons, if_pos ha, List.take]
      congr 1
      exact ih m (fun i hi => by simpa [List.getD] using hd (i + 1) (by omega))
        (by simpa [List.getD] using hn)

theorem filterMap_id_length {α : Type} :
    ∀ (l : List (Option α)), (∀ x ∈ l, x.isSome = true) →
      (l.filterMap id).length = l.length := by
  intro l
  induction l with
  | nil => intro; simp
  | cons a t ih =>
    intro h
    have ha : a.isSome = true := h a (by simp)
    rcases a with _ | x
    · simp at ha
    · simp only [List.filterMap_cons, id]
      rw [List.length_cons, List.length_cons, ih (fun x hx => h x (by simp [hx]))]

theorem filterMap_id_getElem? {α : Type} :
    ∀ (l : List (Option α)), (∀ x ∈ l, x.isSome = true) →
      ∀ (i : Nat) (x : Option α), l[i]? = some x → (l.filterMap id)[i]? = x := by
  intro l
  induction l with
  | nil => intro _ i x hx; simp at hx
  | cons a t ih =>
    intro h i x hx
    have ha : a.isSome = true := h a (by simp)
    rcases a with _ | y
    · simp at ha
    · simp only [List.filterMap_cons, id]
      cases i with
      | zero =>
        simp only [List.getElem?_cons_zero, Option.some.injEq] at hx
        subst hx
        simp
      | succ m =>
        simp only [List.getElem?_cons_succ] at hx
        simpa using ih (fun z hz => h z (by simp [hz])) m x hx

theorem countP_succ_le {α : Type} :
    ∀ (L : List α) (p q : α → Bool) (a : α),
      (∀ s ∈ L, p s = true → q s = true ∧ s ≠ a) → q a = true → a ∈ L →
      L.countP p + 1 ≤ L.countP q := by
  intro L
  induction L with
  | nil => intro p q a _ _ ha; simp at ha
  | cons s t ih =>
    intro p q a h hqa ha
    have hmono : t.countP p ≤ t.countP q :=
      List.countP_mono_left (fun x hx hpx => (h x (by simp [hx]) hpx).1)
    by_cases hsa : s = a
    · subst hsa
      have hps : p s = false := by
        by_contra hps
        have := (h s (by simp) (by simpa using hps)).2
        exact this rfl
      rw [List.countP_cons_of_neg p t (by simp [hps]), List.countP_cons_of_pos q t hqa]
      omega
    · have hat : a ∈ t := by
        rcases ha with _ | h2
        · exact absurd rfl hsa
        · assumption
      have hih := ih p q a (fun x hx hpx => h x (by simp [hx]) hpx) hqa hat
      by_cases hps : p s = true
      · have hqs := (h s (by simp) hps).1
        rw [List.countP_cons_of_pos p t hps, List.countP_cons_of_pos q t hqs]
        omega
      · rw [List.countP_cons_of_neg p t hps, List.countP_cons]
        split <;> omega

/-! ### Dictionary-level lookup lemmas -/

theorem cap_mask_mod {d : KH_Dict} (hU : UInv d) (hc : d.data_alloced ≠ 0) (x : Nat) :
    x &&& (d.data_alloced - 1) = x % d.data_alloced := by
  rcases hU.cap_pow with h0 | ⟨k, hk, hcap⟩
  · exact absurd h0 hc
  · rw [hcap]
    exact Nat.and_pow_two_sub_one_eq_mod x k

theorem keyAt_eq_of_getD {d : KH_Dict} {j : Nat} {kv : KH_Blob × KH_Blob}
    (h : d.pairs.getD j none = some kv) : keyAt d j = kv.1 := by
  unfold keyAt
  rw [h]
  rfl

theorem valAt_eq_of_getD {d : KH_Dict} {j : Nat} {kv : KH_Blob × KH_Blob}
    (h : d.pairs.getD j none = some kv) : valAt d j = kv.2 := by
  unfold valAt
  rw [h]
  rfl

theorem lookup_some_spec {d : KH_Dict} (hU : UInv d) {key : KH_Blob} {s : Nat}
    (h : KH_DictLookupIndex d key = some s) :
    s < d.data_count ∧ ∃ kv, d.pairs.getD s none = some kv ∧ kv.1 = key := by
  obtain ⟨hE, hD, ⟨kv, hkv, heq⟩, t, _, htf, hslot⟩ :=
    lookupAux_sound d.slots d.pairs d.data_alloced key
      (KH_BlobStartingIndexForSize key.hash d.data_alloced) d.data_alloced 0 s h
  have hcap : d.data_alloced ≠ 0 := by
    intro h0
    rw [KH_DictLookupIndex, h0] at h
    simp [lookupAux] at h
  have hP : (KH_BlobStartingIndexForSize key.hash d.data_alloced + t) &&& (d.data_alloced - 1)
      < d.slots.length := by
    rw [hU.slots_len, cap_mask_mod hU hcap]
    exact Nat.mod_lt _ (Nat.pos_of_ne_zero hcap)
  have hmem : s ∈ d.slots := by
    rw [← hslot, List.getD_eq_getElem d.slots 0 hP]
    exact List.getElem_mem hP
  rcases hU.slot_range s hmem with h1 | h1 | h1
  · exact absurd h1 hE
  · exact absurd h1 hD
  · exact ⟨h1, kv, hkv, (KH_BlobEqual_iff.mp heq).symm⟩

theorem lookup_none_of_absent {d : KH_Dict} (hU : UInv d) {key : KH_Blob}
    (habs : ∀ j, j < d.data_count → keyAt d j ≠ key) :
    KH_DictLookupIndex d key = none := by
  rcases hres : KH_DictLookupIndex d key with _ | s
  · rfl
  · obtain ⟨hs, kv, hkv, hkey⟩ := lookup_some_spec hU hres
    have : keyAt d s = key := by rw [keyAt_eq_of_getD hkv, hkey]
    exact absurd this (habs s hs)

theorem lookup_found {d : KH_Dict} (hD : DInv d) {j : Nat} (hj : j < d.data_count) :
    KH_DictLookupIndex d (keyAt d j) = some j := by
  have hU := hD.toUInv
  have hcap : d.data_alloced ≠ 0 := by
    intro h0
    have := hU.count_zero_of_cap_zero h0
    omega
  have hcappos : 0 < d.data_alloced := Nat.pos_of_ne_zero hcap
  obtain ⟨off, hoff, hval, hpath⟩ := hD.chain j hj
  obtain ⟨kv, hkv⟩ := Option.isSome_iff_exists.mp (hU.dense j hj)
  have hkey : kv.1 = keyAt d j := (keyAt_eq_of_getD hkv).symm
  have hjE : j ≠ KH_HASH_EMPTY := by
    have h1 := hD.count_lt_tomb
    norm_num [KH_HASH_EMPTY, KH_HASH_DELETED] at h1 ⊢
    omega
  have hjD : j ≠ KH_HASH_DELETED := by
    have h1 := hD.count_lt_tomb
    omega
  have hsome :=
    lookupAux_complete d.slots d.pairs d.data_alloced (keyAt d j)
      (KH_BlobStartingIndexForSize (keyAt d j).hash d.data_alloced)
      d.data_alloced 0 off j kv (by omega) (by omega)
      (by rw [cap_mask_mod hU hcap]; exact hval)
      hjE hjD hkv (by rw [hkey]; exact KH_BlobEqual_self _)
      (by
        intro u _ hu
        rw [cap_mask_mod hU hcap]
        exact hpath u hu)
  rcases hres : KH_DictLookupIndex d (keyAt d j) with _ | s
  · rw [KH_DictLookupIndex] at hres
    rw [hres] at hsome
    simp at hsome
  · obtain ⟨hs, kv2, hkv2, hkey2⟩ := lookup_some_spec hU hres
    have hsj : s = j := by
      by_contra hne
      have h1 : keyAt d s = keyAt d j := by rw [keyAt_eq_of_getD hkv2, hkey2]
      exact hD.distinct s hs j hj hne h1
    rw [hsj]

theorem livePairs_spec {d : KH_Dict} (hU : UInv d)
    (hcnt : threshold d.data_alloced ≤ d.data_count) :
    (livePairs d).length = d.data_count ∧
    ∀ i, i < d.data_count → (livePairs d)[i]? = d.pairs.getD i none := by
  have hcnt2 : d.data_count = threshold d.data_alloced := le_antisymm hU.count_le hcnt
  have hcle : d.data_count ≤ d.data_alloced := by
    rcases Nat.eq_zero_or_pos d.data_alloced with h0 | hpos
    · rw [hU.count_zero_of_cap_zero h0, h0]
    · exact le_of_lt (hU.count_lt_cap (by omega))
  have hlen_take : (d.pairs.take d.data_alloced).length = d.data_alloced := by
    rw [List.length_take, hU.pairs_len]
    omega
  have htw : (d.pairs.take d.data_alloced).takeWhile (fun p => p.isSome)
      = d.pairs.take d.data_count := by
    rw [takeWhile_isSome_eq_take (d.pairs.take d.data_alloced) d.data_count
      (fun i hi => by
        rw [List.getD_eq_getElem?_getD, List.getElem?_take_of_lt (by omega),
          ← List.getD_eq_getElem?_getD]
        exact hU.dense i hi)
      (by
        rcases Nat.lt_or_ge d.data_count d.data_alloced with hlt | hge
        · rw [List.getD_eq_getElem?_getD, List.getElem?_take_of_lt hlt,
            ← List.getD_eq_getElem?_getD]
          exact hU.tail_none _ (by omega)
        · exact List.getD_eq_default _ _ (by omega))]
    rw [List.take_take]
    congr 1
    omega
  have hall : ∀ x ∈ d.pairs.take d.data_count, x.isSome = true := by
    intro x hx
    obtain ⟨i, hi, hval⟩ := List.mem_iff_getElem.mp hx
    have hi2 : i < d.data_count := by
      have := List.length_take d.data_count d.pairs
      omega
    have : d.pairs.getD i none = x := by
      have hilen : i < d.pairs.length := by rw [hU.pairs_len]; omega
      rw [List.getD_eq_getElem _ _ hilen, ← hval, List.getElem_take]
    rw [← this]
    exact hU.dense i hi2
  have hlive : livePairs d = (d.pairs.take d.data_count).filterMap id := by
    rw [livePairs, htw]
  constructor
  · rw [hlive, filterMap_id_length _ hall, List.length_take, hU.pairs_len]
    omega
  · intro i hi
    have hilen : i < d.pairs.length := by
      rw [hU.pairs_len]
      omega
    have hgetsome : (d.pairs.take d.data_count)[i]? = some (d.pairs.getD i none) := by
      rw [List.getElem?_take_of_lt hi, List.getElem?_eq_getElem hilen,
        List.getD_eq_getElem _ _ hilen]
    rw [hlive]
    exact filterMap_id_getElem? _ hall i _ hgetsome

/-! ### Insert-only slot state

RbState describes a slot array built purely by placements (a rebuild, or an
insert-only run): no tombstones, indexes 0..m-1 each stored in exactly one
slot and findable from its home bucket.  The function η gives the home
bucket of each index. -/

structure RbState (nslots : Nat) (η : Nat → Nat) (m : Nat) (S : List Nat) : Prop where
  len : S.length = nslots
  range : ∀ s ∈ S, s = KH_HASH_EMPTY ∨ s < m
  nonfree : nonfreeCount S (region nslots) = m
  uniq : ∀ j, j < m → ∃ p, p < nslots ∧ S.getD p 0 = j ∧
    ∀ q, q < nslots → S.getD q 0 = j → q = p
  chain : ∀ j, j < m → ∃ off, off < region nslots ∧
    S.getD ((η j + off) % region nslots) 0 = j ∧
    ∀ t, t < off → S.getD ((η j + t) % region nslots) 0 ≠ KH_HASH_EMPTY
  highEmpty : ∀ p, region nslots ≤ p → p < nslots → S.getD p 0 = KH_HASH_EMPTY

theorem mod_add_inj {R a t off : Nat} (ht : t < R) (hoff : off < R)
    (h : (a + t) % R = (a + off) % R) : t = off := by
  have h2 : t % R = off % R := Nat.ModEq.add_left_cancel' a h
  rwa [Nat.mod_eq_of_lt ht, Nat.mod_eq_of_lt hoff] at h2

theorem tomb_lt_empty : KH_HASH_DELETED < KH_HASH_EMPTY := by
  norm_num [KH_HASH_DELETED, KH_HASH_EMPTY]

theorem isFreeSlot_false_of_lt {m : Nat} (h : m < KH_HASH_DELETED) :
    isFreeSlot m = false := by
  have h2 : m < KH_HASH_EMPTY := lt_trans h tomb_lt_empty
  simp [isFreeSlot]
  omega

/-- One placement into an insert-only slot array: index m goes to the first
free probe position for its home bucket, and the whole bundle advances. -/
theorem rb_step {k : Nat} (hk3 : 3 ≤ k) (hk : k ≤ 33) {η : Nat → Nat} {m : Nat}
    {S : List Nat} (hrb : RbState (2 ^ k) η m S) (hm : m < region (2 ^ k))
    (hmT : m < KH_HASH_DELETED) {hash : Nat}
    (hhome : hash &&& (2 ^ k - 1) = η m) (hηm : η m < region (2 ^ k)) :
    ∃ pos S2, KH_InsertSlot S (2 ^ k) hash (m % U32) = some S2 ∧
      pos < region (2 ^ k) ∧ isFreeSlot (S.getD pos 0) = true ∧
      S2 = S.set pos m ∧ RbState (2 ^ k) η (m + 1) S2 := by
  have hRle : region (2 ^ k) ≤ S.length := by
    rw [hrb.len]
    exact region_le_cap _
  have hmU : m % U32 = m := Nat.mod_eq_of_lt (by
    have : KH_HASH_DELETED < U32 := by norm_num [KH_HASH_DELETED, U32]
    omega)
  have hfree : ∃ p, p < region (2 ^ k) ∧ isFreeSlot (S.getD p 0) = true :=
    exists_free_of_nonfreeCount hRle (le_of_eq hrb.nonfree) hm
  obtain ⟨off, hoffR, hpath, hposfree, hres⟩ :=
    KH_InsertSlot_spec hk3 hk hash (m % U32) (by rw [hhome]; exact hηm) hfree
  rw [hhome] at hpath hposfree hres
  set pos := (η m + off) % region (2 ^ k) with hpos_def
  have hposR : pos < region (2 ^ k) := Nat.mod_lt _ region_pos
  have hposlen : pos < S.length := lt_of_lt_of_le hposR hRle
  have hmfree : isFreeSlot m = false := isFreeSlot_false_of_lt hmT
  have hmE : m ≠ KH_HASH_EMPTY := by
    have := tomb_lt_empty
    omega
  have hget_set_self : (S.set pos m).getD pos 0 = m := by
    rw [List.getD_eq_getElem?_getD, List.getElem?_set_self hposlen]
    rfl
  have hget_set_ne : ∀ q, q ≠ pos → (S.set pos m).getD q 0 = S.getD q 0 := by
    intro q hq
    rw [List.getD_eq_getElem?_getD, List.getElem?_set_ne (Ne.symm hq),
      ← List.getD_eq_getElem?_getD]
  refine ⟨pos, S.set pos m, ?_, hposR, hposfree, rfl, ?_⟩
  · rw [hres, hmU]
  constructor
  · rw [List.length_set, hrb.len]
  · intro s hs
    rcases List.mem_or_eq_of_mem_set hs with hmem | rfl
    · rcases hrb.range s hmem with h1 | h1
      · exact Or.inl h1
      · exact Or.inr (by omega)
    · exact Or.inr (by omega)
  · rw [nonfreeCount_set m hposR hRle, hposfree, hmfree, hrb.nonfree]
    rfl
  · intro j hj
    rcases Nat.lt_or_ge j m with hjm | hjm
    · obtain ⟨p, hplt, hpval, hpuniq⟩ := hrb.uniq j hjm
      have hjfree : isFreeSlot j = false := isFreeSlot_false_of_lt (by omega)
      have hppos : p ≠ pos := by
        intro heq
        rw [heq] at hpval
        rw [hpval, hjfree] at hposfree
        exact Bool.false_ne_true hposfree
      refine ⟨p, hplt, by rw [hget_set_ne p hppos]; exact hpval, ?_⟩
      intro q hq hqval
      by_cases hqpos : q = pos
      · rw [hqpos, hget_set_self] at hqval
        omega
      · rw [hget_set_ne q hqpos] at hqval
        exact hpuniq q hq hqval
    · have hjeq : j = m := by omega
      rw [hjeq]
      refine ⟨pos, lt_of_lt_of_le hposR (region_le_cap _), hget_set_self, ?_⟩
      intro q hq hqval
      by_cases hqpos : q = pos
      · exact hqpos
      · rw [hget_set_ne q hqpos] at hqval
        have hql : q < S.length := by rw [hrb.len]; exact hq
        have hmem : S.getD q 0 ∈ S := by
          rw [List.getD_eq_getElem _ _ hql]
          exact List.getElem_mem hql
        rw [hqval] at hmem
        rcases hrb.range m hmem with h1 | h1
        · exact absurd h1 hmE
        · omega
  · intro j hj
    rcases Nat.lt_or_ge j m with hjm | hjm
    · obtain ⟨offj, hoffjR, hoffval, hoffpath⟩ := hrb.chain j hjm
      have hjfree : isFreeSlot j = false := isFreeSlot_false_of_lt (by omega)
      have hvne : (η j + offj) % region (2 ^ k) ≠ pos := by
        intro heq
        rw [heq] at hoffval
        rw [hoffval, hjfree] at hposfree
        exact Bool.false_ne_true hposfree
      refine ⟨offj, hoffjR, by rw [hget_set_ne _ hvne]; exact hoffval, ?_⟩
      intro t htoff
      by_cases hpq : (η j + t) % region (2 ^ k) = pos
      · rw [hpq, hget_set_self]
        exact hmE
      · rw [hget_set_ne _ hpq]
        exact hoffpath t htoff
    · have hjeq : j = m := by omega
      rw [hjeq]
      refine ⟨off, hoffR, by rw [← hpos_def, hget_set_self], ?_⟩
      intro t htoff
      have hpq : (η m + t) % region (2 ^ k) ≠ pos := by
        rw [hpos_def]
        intro heq
        have := mod_add_inj (lt_trans htoff hoffR) hoffR heq
        omega
      rw [hget_set_ne _ hpq]
      have hfreeval := hpath t htoff
      intro he
      rw [he] at hfreeval
      simp [isFreeSlot] at hfreeval
  · intro p hp1 hp2
    have hppos : p ≠ pos := by omega
    rw [hget_set_ne p hppos]
    exact hrb.highEmpty p hp1 hp2

/-- The rebuild loop of KH_ResizeDict preserves the insert-only bundle,
advancing the placed-index counter over the whole live list. -/
theorem rebuildSlots_rb {k : Nat} (hk3 : 3 ≤ k) (hk : k ≤ 33) (η : Nat → Nat) :
    ∀ (live : List (KH_Blob × KH_Blob)) (j0 : Nat) (S : List Nat),
      RbState (2 ^ k) η j0 S →
      j0 + live.length ≤ region (2 ^ k) →
      j0 + live.length ≤ KH_HASH_DELETED →
      (∀ i (hi : i < live.length), live[i].1.hash &&& (2 ^ k - 1) = η (j0 + i)) →
      (∀ i, i < live.length → η (j0 + i) < region (2 ^ k)) →
      ∃ S2, rebuildSlots (2 ^ k) S j0 live = some S2 ∧
        RbState (2 ^ k) η (j0 + live.length) S2 := by
  intro live
  induction live with
  | nil =>
    intro j0 S hrb _ _ _ _
    exact ⟨S, rfl, by simpa using hrb⟩
  | cons kv rest ih =>
    intro j0 S hrb hreg htomb hhome hηlt
    have hm : j0 < region (2 ^ k) := by
      have := hreg
      simp only [List.length_cons] at this
      omega
    have hmT : j0 < KH_HASH_DELETED := by
      simp only [List.length_cons] at htomb
      omega
    have hhome0 : kv.1.hash &&& (2 ^ k - 1) = η j0 := by
      have := hhome 0 (by simp)
      simpa using this
    have hη0 : η j0 < region (2 ^ k) := by
      have := hηlt 0 (by simp)
      simpa using this
    obtain ⟨pos, S2, hins, _, _, _, hrb2⟩ := rb_step hk3 hk hrb hm hmT hhome0 hη0
    obtain ⟨S3, hres, hrb3⟩ := ih (j0 + 1) S2 hrb2
      (by simp only [List.length_cons] at hreg; omega)
      (by simp only [List.length_cons] at htomb; omega)
      (fun i hi => by
        have := hhome (i + 1) (by simp; omega)
        simpa [Nat.add_assoc, Nat.add_comm 1 i] using this)
      (fun i hi => by
        have := hηlt (i + 1) (by simp; omega)
        simpa [Nat.add_assoc, Nat.add_comm 1 i] using this)
    refine ⟨S3, ?_, by simpa [Nat.add_assoc, Nat.add_comm 1] using hrb3⟩
    rw [rebuildSlots, hins]
    exact hres

/-- Fresh slot arrays satisfy the insert-only bundle at zero. -/
theorem rbstate_replicate {k : Nat} (η : Nat → Nat) :
    RbState (2 ^ k) η 0 (List.replicate (2 ^ k) KH_HASH_EMPTY) := by
  constructor
  · simp
  · intro s hs
    exact Or.inl (List.eq_of_mem_replicate hs)
  · rw [nonfreeCount, List.take_replicate, List.countP_eq_length_filter]
    have : ∀ x ∈ List.replicate (min (region (2 ^ k)) (2 ^ k)) KH_HASH_EMPTY,
        ¬ ((!(isFreeSlot x)) = true) := by
      intro x hx
      rw [List.eq_of_mem_replicate hx]
      simp [isFreeSlot]
    rw [List.filter_eq_nil_iff.mpr this]
    rfl
  · intro j hj; omega
  · intro j hj; omega
  · intro p hp1 hp2
    rw [List.getD_eq_getElem _ _ (by simpa using hp2), List.getElem_replicate]

/-! ### Resize -/

theorem threshold_U32 : threshold U32 = 5 * 2 ^ 29 := by
  rw [U32_eq_pow, threshold_two_pow (by norm_num)]

theorem KH_ResizeDict_true_eq (d : KH_Dict) :
    KH_ResizeDict d true =
      match rebuildSlots (if d.data_alloced ≠ 0 then 2 * d.data_alloced else 8)
          (List.replicate (if d.data_alloced ≠ 0 then 2 * d.data_alloced else 8) KH_HASH_EMPTY)
          0 (livePairs d) with
      | none => .hang
      | some new_slots =>
        .ok { slots := new_slots
              pairs := (livePairs d).map some ++
                List.replicate ((if d.data_alloced ≠ 0 then 2 * d.data_alloced else 8) -
                  (livePairs d).length) none
              data_count := (livePairs d).length
              data_alloced := if d.data_alloced ≠ 0 then 2 * d.data_alloced else 8 } := rfl

theorem KH_ResizeDict_spec {d : KH_Dict} (hD : DInv d)
    (htrig : threshold d.data_alloced ≤ d.data_count)
    (hsmall : d.data_count < threshold U32) :
    ∃ d2, KH_ResizeDict d true = .ok d2 ∧ DInv d2 ∧
      d2.data_count = d.data_count ∧
      d2.data_alloced = (if d.data_alloced ≠ 0 then 2 * d.data_alloced else 8) ∧
      d2.data_count < threshold d2.data_alloced ∧
      (∀ i, i < d.data_count → d2.pairs.getD i none = d.pairs.getD i none) := by
  obtain ⟨hlive_len, hlive_get⟩ := livePairs_spec hD.toUInv htrig
  set live := livePairs d with hlive_def
  set ns := if d.data_alloced ≠ 0 then 2 * d.data_alloced else 8 with hns_def
  -- the new capacity is a power of two between 2^3 and 2^32
  obtain ⟨k2, hk23, hk232, hns⟩ : ∃ k2, 3 ≤ k2 ∧ k2 ≤ 32 ∧ ns = 2 ^ k2 := by
    rcases hD.cap_pow with h0 | ⟨k, hk, hcap⟩
    · exact ⟨3, by norm_num, by norm_num, by rw [hns_def, h0]; norm_num⟩
    · have hklt : k < 32 := by
        by_contra hge
        have h1 : threshold U32 ≤ threshold d.data_alloced := by
          rw [hcap, U32_eq_pow, threshold_two_pow (by norm_num), threshold_two_pow hk]
          have : (2:Nat) ^ 29 ≤ 2 ^ (k - 3) := Nat.pow_le_pow_right (by norm_num) (by omega)
          omega
        omega
      refine ⟨k + 1, by omega, by omega, ?_⟩
      rw [hns_def, hcap, if_pos (by positivity), pow_succ]
      ring
  have hcnt_eq : d.data_count = threshold d.data_alloced := le_antisymm hD.count_le htrig
  have hcnt_lt_ns : d.data_count < threshold ns := by
    rcases hD.cap_pow with h0 | ⟨k, hk, hcap⟩
    · rw [hD.count_zero_of_cap_zero h0, hns, threshold_two_pow hk23]
      positivity
    · have hns2 : ns = (2:Nat) ^ (k + 1) := by
        rw [hns_def, if_pos (by rw [hcap]; positivity), hcap, pow_succ]
        ring
      rw [hcnt_eq, hcap, hns2, threshold_two_pow hk, threshold_two_pow (by omega)]
      have h1 : k + 1 - 3 = (k - 3) + 1 := by omega
      rw [h1, pow_succ]
      have h2 : (0:Nat) < 2 ^ (k - 3) := by positivity
      omega
  have hcnt_tomb : d.data_count ≤ KH_HASH_DELETED := by
    have h1 : threshold U32 < KH_HASH_DELETED := by
      rw [threshold_U32]
      norm_num [KH_HASH_DELETED]
    omega
  have hns_le_U32 : ns ≤ U32 := by
    rw [hns, U32_eq_pow]
    exact Nat.pow_le_pow_right (by norm_num) hk232
  have hregion : region (2 ^ k2) = ns := by
    rw [region, ← hns]
    exact Nat.min_eq_left hns_le_U32
  have hth_lt_ns : threshold ns < ns := by
    rw [hns]
    exact threshold_lt_cap hk23
  have hlivelt : ∀ {i : Nat}, i < d.data_count → i < live.length := by
    intro i hi
    rw [hlive_len]
    exact hi
  set η := fun j => (live.getD j (⟨[]⟩, ⟨[]⟩)).1.hash &&& (ns - 1) with hη_def
  obtain ⟨S2, hrebuild, hrb2⟩ :=
    rebuildSlots_rb hk23 (by omega) η live 0 (List.replicate (2 ^ k2) KH_HASH_EMPTY)
      (rbstate_replicate η)
      (by rw [hregion, hlive_len]; omega)
      (by rw [hlive_len]; omega)
      (by
        intro i hi
        simp only [hη_def, Nat.zero_add]
        rw [List.getD_eq_getElem _ _ hi, hns])
      (by
        intro i hi
        rw [hregion]
        simp only [hη_def]
        have h1 : (live.getD (0 + i) (⟨[]⟩, ⟨[]⟩)).1.hash &&& (ns - 1) ≤ ns - 1 :=
          Nat.and_le_right
        have h2 : 0 < ns := by rw [hns]; positivity
        omega)
  set P2 := live.map some ++ List.replicate (ns - live.length) none with hP2_def
  have hcnt_le_ns : live.length ≤ ns := by
    rw [hlive_len]
    omega
  have hpget_lt : ∀ i, i < live.length →
      P2.getD i none = some (live.getD i (⟨[]⟩, ⟨[]⟩)) := by
    intro i hi
    rw [hP2_def, List.getD_eq_getElem?_getD,
      List.getElem?_append_left (by rw [List.length_map]; exact hi),
      List.getElem?_map, List.getElem?_eq_getElem hi, List.getD_eq_getElem _ _ hi]
    rfl
  have hpget_ge : ∀ i, live.length ≤ i → P2.getD i none = none := by
    intro i hi
    rcases Nat.lt_or_ge i ns with hlt | hge
    · rw [hP2_def, List.getD_eq_getElem?_getD,
        List.getElem?_append_right (by rw [List.length_map]; exact hi), List.length_map,
        List.getElem?_eq_getElem (by rw [List.length_replicate]; omega),
        List.getElem_replicate]
      rfl
    · apply List.getD_eq_default
      rw [hP2_def, List.length_append, List.length_map, List.length_replicate]
      omega
  have hpfx : ∀ i, i < d.data_count → P2.getD i none = d.pairs.getD i none := by
    intro i hi
    rw [hpget_lt i (hlivelt hi)]
    obtain ⟨kv, hkv⟩ := Option.isSome_iff_exists.mp (hD.dense i hi)
    have h2 : live[i]? = some kv := by rw [hlive_get i hi, hkv]
    rw [List.getElem?_eq_getElem (hlivelt hi)] at h2
    rw [List.getD_eq_getElem _ _ (hlivelt hi), Option.some.inj h2, hkv]
  set d2 : KH_Dict := ⟨S2, P2, live.length, ns⟩ with hd2_def
  have hkeyAt2 : ∀ j, j < live.length → keyAt d2 j = (live.getD j (⟨[]⟩, ⟨[]⟩)).1 := by
    intro j hj
    exact keyAt_eq_of_getD (hpget_lt j hj)
  have hkeyAt_old : ∀ j, j < d.data_count → keyAt d2 j = keyAt d j := by
    intro j hj
    unfold keyAt
    show ((P2.getD j none).map Prod.fst).getD ⟨[]⟩ = _
    rw [hpfx j hj]
  have hUInv2 : UInv d2 := by
    constructor
    · show S2.length = ns
      rw [hrb2.len, hns]
    · show P2.length = ns
      rw [hP2_def, List.length_append, List.length_map, List.length_replicate]
      omega
    · exact Or.inr ⟨k2, hk23, hns⟩
    · show live.length ≤ threshold ns
      rw [hlive_len]
      omega
    · intro i hi
      rw [show d2.pairs = P2 from rfl] at *
      rw [hpget_lt i hi]
      rfl
    · intro i hi
      show P2.getD i none = none
      apply hpget_ge
      rw [show d2.data_alloced = ns from rfl] at hi
      have h3 : live.length < threshold ns := by rw [hlive_len]; exact hcnt_lt_ns
      omega
    · intro s hs
      rcases hrb2.range s hs with h1 | h1
      · exact Or.inl h1
      · exact Or.inr (Or.inr (by simpa using h1))
  have hDInv2 : DInv d2 := by
    refine ⟨hUInv2, hns_le_U32, ?_, ?_, ?_, ?_⟩
    · show nonfreeCount S2 ns ≤ live.length
      have := hrb2.nonfree
      rw [hregion] at this
      omega
    · intro j hj
      have h1 := hrb2.uniq j (by simpa using hj)
      show ∃ p, p < ns ∧ S2.getD p 0 = j ∧ ∀ q, q < ns → S2.getD q 0 = j → q = p
      rw [hns]
      exact h1
    · intro j hj
      obtain ⟨off, hoffR, hoffval, hoffpath⟩ := hrb2.chain j (by simpa using hj)
      rw [hregion] at hoffR hoffval hoffpath
      have hhome2 : homeOf d2 j = η j := by
        rw [homeOf, hkeyAt2 j hj]
      refine ⟨off, by rw [show d2.data_alloced = ns from rfl]; omega, ?_, ?_⟩
      · rw [show d2.slots = S2 from rfl, show d2.data_alloced = ns from rfl, hhome2]
        exact hoffval
      · intro t ht
        rw [show d2.slots = S2 from rfl, show d2.data_alloced = ns from rfl, hhome2]
        exact hoffpath t ht
    · intro j1 hj1 j2 hj2 hne
      have hc1 : j1 < d.data_count := by rw [← hlive_len]; exact hj1
      have hc2 : j2 < d.data_count := by rw [← hlive_len]; exact hj2
      rw [hkeyAt_old j1 hc1, hkeyAt_old j2 hc2]
      exact hD.distinct j1 hc1 j2 hc2 hne
  refine ⟨d2, ?_, hDInv2, hlive_len, rfl, ?_, hpfx⟩
  · rw [KH_ResizeDict_true_eq]
    rw [← hns_def, ← hlive_def, ← hP2_def]
    rw [← hns] at hrebuild
    rw [hrebuild]
  · show live.length < threshold ns
    rw [hlive_len]
    exact hcnt_lt_ns

/-! ### Insert -/

theorem insert_core {d : KH_Dict} (hD : DInv d) (key value : KH_Blob)
    (habs : ∀ j, j < d.data_count → keyAt d j ≠ key)
    (hroom : d.data_count < threshold d.data_alloced) :
    ∃ slots2, KH_InsertSlot d.slots d.data_alloced key.hash (d.data_count % U32) = some slots2 ∧
      DInv ⟨slots2, d.pairs.set d.data_count (some (key, value)),
        d.data_count + 1, d.data_alloced⟩ := by
  have hcap : d.data_alloced ≠ 0 := by
    intro h0
    rw [h0, threshold_zero] at hroom
    omega
  obtain ⟨k, hk3, hcapk⟩ : ∃ k, 3 ≤ k ∧ d.data_alloced = 2 ^ k := by
    rcases hD.cap_pow with h0 | h1
    · exact absurd h0 hcap
    · exact h1
  have hk32 : k ≤ 32 := by
    by_contra hgt
    have h1 : (2:Nat) ^ 33 ≤ 2 ^ k := Nat.pow_le_pow_right (by norm_num) (by omega)
    have h2 := hD.cap_le
    rw [hcapk, U32_eq_pow] at h2
    have : (2:Nat) ^ 33 ≤ 2 ^ 32 := le_trans h1 h2
    norm_num at this
  have hreg : region d.data_alloced = d.data_alloced := by
    rw [region]
    exact Nat.min_eq_left hD.cap_le
  have hcnt_tomb : d.data_count < KH_HASH_DELETED := hD.count_lt_tomb
  have hcnt_U : d.data_count % U32 = d.data_count := Nat.mod_eq_of_lt (by
    have : KH_HASH_DELETED < U32 := by norm_num [KH_HASH_DELETED, U32]
    omega)
  have hth_lt : threshold d.data_alloced < d.data_alloced := by
    rw [hcapk]
    exact threshold_lt_cap hk3
  have hRle : region d.data_alloced ≤ d.slots.length := by
    rw [hreg, hD.slots_len]
  have hfree : ∃ p, p < region d.data_alloced ∧ isFreeSlot (d.slots.getD p 0) = true :=
    exists_free_of_nonfreeCount (m := d.data_count) hRle
      (by rw [hreg]; exact hD.nonfree_le) (by rw [hreg]; omega)
  have hhome_lt : key.hash &&& (d.data_alloced - 1) < region d.data_alloced := by
    rw [hreg]
    have h1 : key.hash &&& (d.data_alloced - 1) ≤ d.data_alloced - 1 := Nat.and_le_right
    omega
  have hhome_lt2 : key.hash &&& (2 ^ k - 1) < region (2 ^ k) := by
    rw [← hcapk]
    exact hhome_lt
  have hfree2 : ∃ p, p < region (2 ^ k) ∧ isFreeSlot (d.slots.getD p 0) = true := by
    rw [← hcapk]
    exact hfree
  obtain ⟨off, hoffR, hpath, hposfree, hres⟩ :=
    KH_InsertSlot_spec hk3 (by omega) key.hash (d.data_count % U32) hhome_lt2 hfree2
  rw [← hcapk] at hoffR hpath hposfree hres
  set home := key.hash &&& (d.data_alloced - 1) with hhome_def
  set pos := (home + off) % region d.data_alloced with hpos_def
  have hposR : pos < region d.data_alloced := Nat.mod_lt _ (by rw [hreg]; omega)
  have hposlen : pos < d.slots.length := lt_of_lt_of_le hposR hRle
  have hcntfree : isFreeSlot d.data_count = false := isFreeSlot_false_of_lt hcnt_tomb
  have hcntE : d.data_count ≠ KH_HASH_EMPTY := by
    have := tomb_lt_empty
    omega
  have hget_set_self : (d.slots.set pos d.data_count).getD pos 0 = d.data_count := by
    rw [List.getD_eq_getElem?_getD, List.getElem?_set_self hposlen]
    rfl
  have hget_set_ne : ∀ q, q ≠ pos →
      (d.slots.set pos d.data_count).getD q 0 = d.slots.getD q 0 := by
    intro q hq
    rw [List.getD_eq_getElem?_getD, List.getElem?_set_ne (Ne.symm hq),
      ← List.getD_eq_getElem?_getD]
  have hcnt_plen : d.data_count < d.pairs.length := by
    rw [hD.pairs_len]
    omega
  have hpget_self : (d.pairs.set d.data_count (some (key, value))).getD d.data_count none
      = some (key, value) := by
    rw [List.getD_eq_getElem?_getD, List.getElem?_set_self hcnt_plen]
    rfl
  have hpget_ne : ∀ j, j ≠ d.data_count →
      (d.pairs.set d.data_count (some (key, value))).getD j none = d.pairs.getD j none := by
    intro j hj
    rw [List.getD_eq_getElem?_getD, List.getElem?_set_ne (Ne.symm hj),
      ← List.getD_eq_getElem?_getD]
  refine ⟨d.slots.set pos d.data_count, by rw [hres, hcnt_U], ?_⟩
  set d2 : KH_Dict := ⟨d.slots.set pos d.data_count,
    d.pairs.set d.data_count (some (key, value)), d.data_count + 1, d.data_alloced⟩
    with hd2_def
  have hkeyAt_old : ∀ j, j ≠ d.data_count → keyAt d2 j = keyAt d j := by
    intro j hj
    unfold keyAt
    show ((d.pairs.set d.data_count (some (key, value)) |>.getD j none).map
      Prod.fst).getD ⟨[]⟩ = _
    rw [hpget_ne j hj]
  have hkeyAt_new : keyAt d2 d.data_count = key := keyAt_eq_of_getD hpget_self
  constructor
  constructor
  · show (d.slots.set pos d.data_count).length = d.data_alloced
    rw [List.length_set, hD.slots_len]
  · show (d.pairs.set d.data_count (some (key, value))).length = d.data_alloced
    rw [List.length_set, hD.pairs_len]
  · exact Or.inr ⟨k, hk3, hcapk⟩
  · show d.data_count + 1 ≤ threshold d.data_alloced
    omega
  · intro i hi
    have hi2 : i < d.data_count + 1 := hi
    show ((d.pairs.set d.data_count (some (key, value))).getD i none).isSome = true
    rcases Nat.lt_or_ge i d.data_count with hlt | hge
    · rw [hpget_ne i (by omega)]
      exact hD.dense i hlt
    · have : i = d.data_count := by omega
      rw [this, hpget_self]
      rfl
  · intro i hi
    have hi2 : threshold d.data_alloced ≤ i := hi
    show (d.pairs.set d.data_count (some (key, value))).getD i none = none
    rw [hpget_ne i (by omega)]
    exact hD.tail_none i hi2
  · show ∀ s ∈ d.slots.set pos d.data_count,
      s = KH_HASH_EMPTY ∨ s = KH_HASH_DELETED ∨ s < d.data_count + 1
    intro s hs
    rcases List.mem_or_eq_of_mem_set hs with hmem | rfl
    · rcases hD.slot_range s hmem with h1 | h1 | h1
      · exact Or.inl h1
      · exact Or.inr (Or.inl h1)
      · exact Or.inr (Or.inr (by omega))
    · exact Or.inr (Or.inr (by omega))
  · exact hD.cap_le
  · show nonfreeCount (d.slots.set pos d.data_count) d.data_alloced ≤ d.data_count + 1
    have h1 := nonfreeCount_set_le (S := d.slots) (R := d.data_alloced) (p := pos)
      d.data_count (by rw [← hreg]; exact hposR) (by rw [hD.slots_len])
    have h2 := hD.nonfree_le
    omega
  · show ∀ j, j < d.data_count + 1 → ∃ p, p < d.data_alloced ∧
      (d.slots.set pos d.data_count).getD p 0 = j ∧
      ∀ q, q < d.data_alloced → (d.slots.set pos d.data_count).getD q 0 = j → q = p
    intro j hj
    rcases Nat.lt_or_ge j d.data_count with hjm | hjm
    · obtain ⟨p, hplt, hpval, hpuniq⟩ := hD.uniq j hjm
      have hjfree : isFreeSlot j = false := isFreeSlot_false_of_lt (by omega)
      have hppos : p ≠ pos := by
        intro heq
        rw [heq] at hpval
        rw [hpval, hjfree] at hposfree
        exact Bool.false_ne_true hposfree
      refine ⟨p, hplt, by rw [hget_set_ne p hppos]; exact hpval, ?_⟩
      intro q hq hqval
      by_cases hqpos : q = pos
      · rw [hqpos, hget_set_self] at hqval
        omega
      · rw [hget_set_ne q hqpos] at hqval
        exact hpuniq q hq hqval
    · have hjeq : j = d.data_count := by omega
      rw [hjeq]
      refine ⟨pos, by rw [← hreg] at hth_lt ⊢; omega, hget_set_self, ?_⟩
      intro q hq hqval
      by_cases hqpos : q = pos
      · exact hqpos
      · rw [hget_set_ne q hqpos] at hqval
        have hql : q < d.slots.length := by rw [hD.slots_len]; exact hq
        have hmem : d.slots.getD q 0 ∈ d.slots := by
          rw [List.getD_eq_getElem _ _ hql]
          exact List.getElem_mem hql
        rw [hqval] at hmem
        rcases hD.slot_range _ hmem with h1 | h1 | h1
        · exact absurd h1 hcntE
        · omega
        · omega
  · intro j hj
    have hj2 : j < d.data_count + 1 := hj
    rcases Nat.lt_or_ge j d.data_count with hjm | hjm
    · obtain ⟨offj, hoffjR, hoffval, hoffpath⟩ := hD.chain j hjm
      have hjfree : isFreeSlot j = false := isFreeSlot_false_of_lt (by omega)
      have hhomej : homeOf d2 j = homeOf d j := by
        rw [homeOf, homeOf, hkeyAt_old j (by omega)]
      have hvne : (homeOf d j + offj) % d.data_alloced ≠ pos := by
        intro heq
        rw [heq] at hoffval
        rw [hoffval, hjfree] at hposfree
        exact Bool.false_ne_true hposfree
      refine ⟨offj, hoffjR, ?_, ?_⟩
      · show (d.slots.set pos d.data_count).getD
          ((homeOf d2 j + offj) % d.data_alloced) 0 = j
        rw [hhomej, hget_set_ne _ hvne]
        exact hoffval
      · intro t ht
        show (d.slots.set pos d.data_count).getD
          ((homeOf d2 j + t) % d.data_alloced) 0 ≠ KH_HASH_EMPTY
        rw [hhomej]
        by_cases hpq : (homeOf d j + t) % d.data_alloced = pos
        · rw [hpq, hget_set_self]
          exact hcntE
        · rw [hget_set_ne _ hpq]
          exact hoffpath t ht
    · have hjeq : j = d.data_count := by omega
      rw [hjeq]
      have hhomen : homeOf d2 d.data_count = home := by
        rw [homeOf, hkeyAt_new]
      refine ⟨off, by rw [← hreg]; exact hoffR, ?_, ?_⟩
      · show (d.slots.set pos d.data_count).getD
          ((homeOf d2 d.data_count + off) % d.data_alloced) 0 = d.data_count
        rw [hhomen, ← hreg, ← hpos_def, hget_set_self]
      · intro t ht
        show (d.slots.set pos d.data_count).getD
          ((homeOf d2 d.data_count + t) % d.data_alloced) 0 ≠ KH_HASH_EMPTY
        rw [hhomen]
        have hpos2 : pos = (home + off) % d.data_alloced := by rw [hpos_def, hreg]
        have hoffR2 : off < d.data_alloced := by rw [← hreg]; exact hoffR
        have hpq : (home + t) % d.data_alloced ≠ pos := by
          rw [hpos2]
          intro heq
          have := mod_add_inj (lt_trans ht hoffR2) hoffR2 heq
          omega
        rw [hget_set_ne _ hpq]
        have hfreeval := hpath t ht
        rw [hreg] at hfreeval
        intro he
        rw [he] at hfreeval
        simp [isFreeSlot] at hfreeval
  · intro j1 hj1 j2 hj2 hne
    have hj1b : j1 < d.data_count + 1 := hj1
    have hj2b : j2 < d.data_count + 1 := hj2
    rcases Nat.lt_or_ge j1 d.data_count with h1 | h1 <;>
      rcases Nat.lt_or_ge j2 d.data_count with h2 | h2
    · rw [hkeyAt_old j1 (by omega), hkeyAt_old j2 (by omega)]
      exact hD.distinct j1 h1 j2 h2 hne
    · have hj2e : j2 = d.data_count := by omega
      rw [hkeyAt_old j1 (by omega), hj2e, hkeyAt_new]
      exact habs j1 h1
    · have hj1e : j1 = d.data_count := by omega
      rw [hkeyAt_old j2 (by omega), hj1e, hkeyAt_new]
      intro heq
      exact habs j2 h2 heq.symm
    · omega

theorem KH_DictInsert_spec {d : KH_Dict} (hD : DInv d) (key value : KH_Blob)
    (habs : ∀ j, j < d.data_count → keyAt d j ≠ key)
    (hsmall : d.data_count < threshold U32) :
    ∃ d2, KH_DictInsert d key value true = .ok d2 ∧ DInv d2 ∧
      d2.data_count = d.data_count + 1 ∧
      (∀ j, j < d.data_count → d2.pairs.getD j none = d.pairs.getD j none) ∧
      d2.pairs.getD d.data_count none = some (key, value) := by
  by_cases htrig : threshold d.data_alloced ≤ d.data_count
  · obtain ⟨dr, hrez, hDr, hcnt_r, hcap_r, hroom_r, hpre_r⟩ :=
      KH_ResizeDict_spec hD htrig hsmall
    have habs_r : ∀ j, j < dr.data_count → keyAt dr j ≠ key := by
      intro j hj
      rw [hcnt_r] at hj
      have hk : keyAt dr j = keyAt d j := by
        unfold keyAt
        rw [hpre_r j hj]
      rw [hk]
      exact habs j hj
    obtain ⟨slots2, hins, hD2⟩ := insert_core hDr key value habs_r hroom_r
    have hcnt_plen : dr.data_count < dr.pairs.length := by
      rw [hDr.pairs_len]
      rcases Nat.eq_zero_or_pos dr.data_alloced with h0 | hpos
    -- capacity after a resize is never zero
      · rw [h0, threshold_zero] at hroom_r
        omega
      · exact hDr.count_lt_cap (by omega)
    have hstep1 : KH_DictInsert d key value true =
        match KH_InsertSlot dr.slots dr.data_alloced key.hash (dr.data_count % U32) with
        | none => SetRes.hang
        | some sl => SetRes.ok ⟨sl, dr.pairs.set dr.data_count (some (key, value)),
            dr.data_count + 1, dr.data_alloced⟩ := by
      rw [KH_DictInsert, if_pos htrig, hrez]
    refine ⟨⟨slots2, dr.pairs.set dr.data_count (some (key, value)),
      dr.data_count + 1, dr.data_alloced⟩, ?_, hD2, by simp [hcnt_r], ?_, ?_⟩
    · rw [hstep1, hins]
    · intro i hi
      show (dr.pairs.set dr.data_count (some (key, value))).getD i none = d.pairs.getD i none
      rw [List.getD_eq_getElem?_getD, List.getElem?_set_ne (by omega),
        ← List.getD_eq_getElem?_getD]
      exact hpre_r i hi
    · show (dr.pairs.set dr.data_count (some (key, value))).getD d.data_count none
        = some (key, value)
      rw [← hcnt_r, List.getD_eq_getElem?_getD, List.getElem?_set_self hcnt_plen]
      rfl
  · push_neg at htrig
    obtain ⟨slots2, hins, hD2⟩ := insert_core hD key value habs htrig
    have hcnt_plen : d.data_count < d.pairs.length := by
      rw [hD.pairs_len]
      rcases Nat.eq_zero_or_pos d.data_alloced with h0 | hpos
      · rw [h0, threshold_zero] at htrig
        omega
      · exact hD.count_lt_cap (by omega)
    have hstep1 : KH_DictInsert d key value true =
        match KH_InsertSlot d.slots d.data_alloced key.hash (d.data_count % U32) with
        | none => SetRes.hang
        | some sl => SetRes.ok ⟨sl, d.pairs.set d.data_count (some (key, value)),
            d.data_count + 1, d.data_alloced⟩ := by
      rw [KH_DictInsert, if_neg (by omega)]
    refine ⟨⟨slots2, d.pairs.set d.data_count (some (key, value)),
      d.data_count + 1, d.data_alloced⟩, ?_, hD2, rfl, ?_, ?_⟩
    · rw [hstep1, hins]
    · intro i hi
      show (d.pairs.set d.data_count (some (key, value))).getD i none = d.pairs.getD i none
      rw [List.getD_eq_getElem?_getD, List.getElem?_set_ne (by omega),
        ← List.getD_eq_getElem?_getD]
    · show (d.pairs.set d.data_count (some (key, value))).getD d.data_count none
        = some (key, value)
      rw [List.getD_eq_getElem?_getD, List.getElem?_set_self hcnt_plen]
      rfl

theorem KH_DictSet_insert_spec {d : KH_Dict} (hD : DInv d) (key value : KH_Blob)
    (habs : ∀ j, j < d.data_count → keyAt d j ≠ key)
    (hsmall : d.data_count < threshold U32) :
    ∃ d2, KH_DictSet d key value true = .ok d2 ∧ DInv d2 ∧
      d2.data_count = d.data_count + 1 ∧
      (∀ j, j < d.data_count → d2.pairs.getD j none = d.pairs.getD j none) ∧
      d2.pairs.getD d.data_count none = some (key, value) := by
  obtain ⟨d2, hok, h1, h2, h3, h4⟩ := KH_DictInsert_spec hD key value habs hsmall
  refine ⟨d2, ?_, h1, h2, h3, h4⟩
  rw [KH_DictSet, lookup_none_of_absent hD.toUInv habs]
  exact hok

theorem KH_DictSet_update_spec {d : KH_Dict} (hD : DInv d) {j : Nat}
    (hj : j < d.data_count) (value : KH_Blob) (ao : Bool) :
    ∃ d2, KH_DictSet d (keyAt d j) value ao = .ok d2 ∧ DInv d2 ∧
      d2.data_count = d.data_count ∧ d2.data_alloced = d.data_alloced ∧
      d2.slots = d.slots ∧
      d2.pairs.getD j none = some (keyAt d j, value) ∧
      (∀ i, i ≠ j → d2.pairs.getD i none = d.pairs.getD i none) := by
  obtain ⟨kv, hkv⟩ := Option.isSome_iff_exists.mp (hD.dense j hj)
  have hjlen : j < d.pairs.length := by
    rw [hD.pairs_len]
    rcases Nat.eq_zero_or_pos d.data_alloced with h0 | hpos
    · have := hD.count_zero_of_cap_zero h0
      omega
    · have := hD.count_lt_cap (by omega)
      omega
  have hkey : kv.1 = keyAt d j := (keyAt_eq_of_getD hkv).symm
  set P2 := d.pairs.set j (some (kv.1, value)) with hP2_def
  have hpget_self : P2.getD j none = some (kv.1, value) := by
    rw [hP2_def, List.getD_eq_getElem?_getD, List.getElem?_set_self hjlen]
    rfl
  have hpget_ne : ∀ i, i ≠ j → P2.getD i none = d.pairs.getD i none := by
    intro i hi
    rw [hP2_def, List.getD_eq_getElem?_getD, List.getElem?_set_ne (Ne.symm hi),
      ← List.getD_eq_getElem?_getD]
  set d2 : KH_Dict := ⟨d.slots, P2, d.data_count, d.data_alloced⟩ with hd2_def
  have hkeyAt_all : ∀ i, keyAt d2 i = keyAt d i := by
    intro i
    by_cases hij : i = j
    · rw [hij]
      show ((P2.getD j none).map Prod.fst).getD ⟨[]⟩ = _
      rw [hpget_self]
      show kv.1 = keyAt d j
      exact hkey
    · show ((P2.getD i none).map Prod.fst).getD ⟨[]⟩ = _
      rw [hpget_ne i hij]
      rfl
  have hchg : KH_DictChange d j value = d2 := by
    show (match d.pairs.getD j none with
      | some kv => { d with pairs := d.pairs.set j (some (kv.1, value)) }
      | none => d) = d2
    rw [hkv]
  have hD2 : DInv d2 := by
    constructor
    constructor
    · exact hD.slots_len
    · show P2.length = d.data_alloced
      rw [hP2_def, List.length_set, hD.pairs_len]
    · exact hD.cap_pow
    · exact hD.count_le
    · intro i hi
      by_cases hij : i = j
      · rw [hij]
        show (P2.getD j none).isSome = true
        rw [hpget_self]
        rfl
      · show (P2.getD i none).isSome = true
        rw [hpget_ne i hij]
        exact hD.dense i hi
    · intro i hi
      have hi2 : threshold d.data_alloced ≤ i := hi
      show P2.getD i none = none
      have hij : i ≠ j := by
        have : j < threshold d.data_alloced := lt_of_lt_of_le hj hD.count_le
        omega
      rw [hpget_ne i hij]
      exact hD.tail_none i hi
    · exact hD.slot_range
    · exact hD.cap_le
    · exact hD.nonfree_le
    · exact hD.uniq
    · intro i hi
      obtain ⟨off, h1, h2, h3⟩ := hD.chain i hi
      have hhome : homeOf d2 i = homeOf d i := by
        rw [homeOf, homeOf, hkeyAt_all i]
      exact ⟨off, h1, by rw [hhome]; exact h2, by rw [hhome]; exact h3⟩
    · intro j1 hj1 j2 hj2 hne
      rw [hkeyAt_all j1, hkeyAt_all j2]
      exact hD.distinct j1 hj1 j2 hj2 hne
  refine ⟨d2, ?_, hD2, rfl, rfl, rfl, by rw [show d2.pairs = P2 from rfl, hpget_self, hkey],
    fun i hi => by rw [show d2.pairs = P2 from rfl, hpget_ne i hi]⟩
  rw [KH_DictSet, lookup_found hD hj]
  show SetRes.ok (KH_DictChange d j value) = SetRes.ok d2
  rw [hchg]

/-! ### Delete -/

theorem getD_map_lt {f : Nat → Nat} {S : List Nat} {p : Nat} (hp : p < S.length) :
    (S.map f).getD p 0 = f (S.getD p 0) := by
  rw [List.getD_eq_getElem _ _ (by rw [List.length_map]; exact hp),
    List.getD_eq_getElem _ _ hp, List.getElem_map]

theorem getD_mapIdx_lt {α : Type} {g : Nat → Option α → Option α}
    {L : List (Option α)} {i : Nat} (hi : i < L.length) :
    (L.mapIdx g).getD i none = g i (L.getD i none) := by
  rw [List.getD_eq_getElem _ _ (by rw [List.length_mapIdx]; exact hi),
    List.getD_eq_getElem _ _ hi, List.getElem_mapIdx]

theorem KH_DictRemove_spec {d : KH_Dict} (hD : DInv d) {j : Nat} (hj : j < d.data_count) :
    DInv (KH_DictRemove d j) ∧
      (∀ i, i < j → (KH_DictRemove d j).pairs.getD i none = d.pairs.getD i none) ∧
      (∀ i, j ≤ i → i + 1 < d.data_count →
        (KH_DictRemove d j).pairs.getD i none = d.pairs.getD (i + 1) none) := by
  have hcT : d.data_count < KH_HASH_DELETED := hD.count_lt_tomb
  have hTE : KH_HASH_DELETED < KH_HASH_EMPTY := tomb_lt_empty
  have hcap : d.data_alloced ≠ 0 := by
    intro h0
    have := hD.count_zero_of_cap_zero h0
    omega
  have hcnt_cap : d.data_count < d.data_alloced := hD.count_lt_cap hcap
  have hplen : d.pairs.length = d.data_alloced := hD.pairs_len
  have hslen : d.slots.length = d.data_alloced := hD.slots_len
  set F : Nat → Nat := fun s =>
    if s = KH_HASH_DELETED ∨ s = KH_HASH_EMPTY then s
    else if j < s then s - 1
    else if s = j then KH_HASH_DELETED
    else s with hF_def
  set G : Nat → Option (KH_Blob × KH_Blob) → Option (KH_Blob × KH_Blob) := fun i p =>
    if j ≤ i ∧ i + 1 < d.data_count then d.pairs.getD (i + 1) none else p with hG_def
  have hslots2 : (KH_DictRemove d j).slots = d.slots.map F := rfl
  have hpairs2 : (KH_DictRemove d j).pairs = d.pairs.mapIdx G := rfl
  have hcount2 : (KH_DictRemove d j).data_count = d.data_count - 1 := rfl
  have hcap2 : (KH_DictRemove d j).data_alloced = d.data_alloced := rfl
  -- behaviour of the slot fixup on each kind of value
  have hF_tomb : F KH_HASH_DELETED = KH_HASH_DELETED := by
    simp [hF_def]
  have hF_empty : F KH_HASH_EMPTY = KH_HASH_EMPTY := by
    simp [hF_def]
  have hF_gt : ∀ s, s < d.data_count → j < s → F s = s - 1 := by
    intro s hs hjs
    simp only [hF_def]
    rw [if_neg (by omega), if_pos hjs]
  have hF_eq : F j = KH_HASH_DELETED := by
    simp only [hF_def]
    rw [if_neg (by omega), if_neg (by omega)]
    simp
  have hF_lt : ∀ s, s < j → F s = s := by
    intro s hs
    simp only [hF_def]
    rw [if_neg (by omega), if_neg (by omega), if_neg (by omega)]
  -- getD characterizations
  have hs2get : ∀ p, p < d.data_alloced →
      (KH_DictRemove d j).slots.getD p 0 = F (d.slots.getD p 0) := by
    intro p hp
    rw [hslots2, getD_map_lt (by omega)]
  have hp_lt : ∀ i, i < j → (KH_DictRemove d j).pairs.getD i none = d.pairs.getD i none := by
    intro i hi
    rw [hpairs2, getD_mapIdx_lt (by omega)]
    simp only [hG_def]
    rw [if_neg (by omega)]
  have hp_shift : ∀ i, j ≤ i → i + 1 < d.data_count →
      (KH_DictRemove d j).pairs.getD i none = d.pairs.getD (i + 1) none := by
    intro i hi1 hi2
    rw [hpairs2, getD_mapIdx_lt (by omega)]
    simp only [hG_def]
    rw [if_pos ⟨hi1, hi2⟩]
  have hp_ge : ∀ i, d.data_count - 1 ≤ i →
      (KH_DictRemove d j).pairs.getD i none = d.pairs.getD i none := by
    intro i hi
    rcases Nat.lt_or_ge i d.data_alloced with hlt | hge
    · rw [hpairs2, getD_mapIdx_lt (by omega)]
      simp only [hG_def]
      rw [if_neg (by omega)]
    · rw [hpairs2, List.getD_eq_default _ _ (by rw [List.length_mapIdx]; omega),
        List.getD_eq_default _ _ (by omega)]
  -- the index shift between old and new pair positions
  have hσlt : ∀ i, i < d.data_count - 1 → (if i < j then i else i + 1) < d.data_count := by
    intro i hi
    split <;> omega
  have hkeyAt2 : ∀ i, i < d.data_count - 1 →
      keyAt (KH_DictRemove d j) i = keyAt d (if i < j then i else i + 1) := by
    intro i hi
    by_cases hij : i < j
    · rw [if_pos hij]
      unfold keyAt
      rw [hp_lt i hij]
    · rw [if_neg hij]
      unfold keyAt
      rw [hp_shift i (by omega) (by omega)]
  constructor
  constructor
  constructor
  · rw [hslots2, List.length_map, hslen, hcap2]
  · rw [hpairs2, List.length_mapIdx, hplen, hcap2]
  · rw [hcap2]
    exact hD.cap_pow
  · rw [hcount2, hcap2]
    have := hD.count_le
    omega
  · intro i hi
    rw [hcount2] at hi
    by_cases hij : i < j
    · rw [hp_lt i hij]
      exact hD.dense i (by omega)
    · rw [hp_shift i (by omega) (by omega)]
      exact hD.dense (i + 1) (by omega)
  · intro i hi
    rw [hcap2] at hi
    have hji : d.data_count - 1 ≤ i := by
      have := hD.count_le
      omega
    rw [hp_ge i hji]
    exact hD.tail_none i hi
  · intro s hs
    rw [hslots2] at hs
    obtain ⟨w, hw, rfl⟩ := List.mem_map.mp hs
    rw [hcount2]
    rcases hD.slot_range w hw with h1 | h1 | h1
    · rw [h1, hF_empty]
      exact Or.inl rfl
    · rw [h1, hF_tomb]
      exact Or.inr (Or.inl rfl)
    · rcases Nat.lt_trichotomy j w with h2 | h2 | h2
      · rw [hF_gt w h1 h2]
        exact Or.inr (Or.inr (by omega))
      · rw [← h2, hF_eq]
        exact Or.inr (Or.inl rfl)
      · rw [hF_lt w h2]
        exact Or.inr (Or.inr (by omega))
  · rw [hcap2]
    exact hD.cap_le
  · rw [hcount2, hcap2, hslots2]
    have htake1 : (d.slots.map F).take d.data_alloced = d.slots.map F := by
      apply List.take_of_length_le
      rw [List.length_map, hslen]
    have htake2 : d.slots.take d.data_alloced = d.slots := by
      apply List.take_of_length_le
      rw [hslen]
    have hjmem : j ∈ d.slots := by
      obtain ⟨p, hplt, hpval, _⟩ := hD.uniq j hj
      rw [← hpval, List.getD_eq_getElem _ _ (by omega)]
      exact List.getElem_mem _
    have hcle := countP_succ_le d.slots (fun s => !(isFreeSlot (F s)))
      (fun s => !(isFreeSlot s)) j ?hprem ?hqj hjmem
    case hqj =>
      show (!(isFreeSlot j)) = true
      rw [isFreeSlot_false_of_lt (by omega)]
      rfl
    case hprem =>
      intro s hs hps
      replace hps : (!(isFreeSlot (F s))) = true := hps
      have hFs : isFreeSlot (F s) = false := by simpa using hps
      constructor
      · show (!(isFreeSlot s)) = true
        rcases hD.slot_range s hs with h1 | h1 | h1
        · rw [h1, hF_empty] at hFs
          simp [isFreeSlot] at hFs
        · rw [h1, hF_tomb] at hFs
          simp [isFreeSlot] at hFs
        · rw [isFreeSlot_false_of_lt (by omega)]
          rfl
      · intro hsj
        rw [hsj, hF_eq] at hFs
        simp [isFreeSlot] at hFs
    have hq_eq : nonfreeCount d.slots d.data_alloced
        = d.slots.countP (fun s => !(isFreeSlot s)) := by
      rw [nonfreeCount, htake2]
    have hnf := hD.nonfree_le
    rw [nonfreeCount, htake1, List.countP_map]
    have hcomp : ((fun s => !(isFreeSlot s)) ∘ F) = fun s => !(isFreeSlot (F s)) := rfl
    rw [hcomp]
    omega
  · intro j2 hj2
    rw [hcount2] at hj2
    rw [hcap2, hslots2]
    set v := if j2 < j then j2 else j2 + 1 with hv_def
    have hvlt : v < d.data_count := hσlt j2 hj2
    have hFv : F v = j2 := by
      by_cases h2 : j2 < j
      · rw [hv_def, if_pos h2, hF_lt j2 h2]
      · rw [hv_def, if_neg h2, hF_gt (j2 + 1) (by omega) (by omega)]
        omega
    obtain ⟨pv, hpvlt, hpvval, hpvuniq⟩ := hD.uniq v hvlt
    refine ⟨pv, hpvlt, ?_, ?_⟩
    · rw [getD_map_lt (by omega), hpvval, hFv]
    · intro q hq hqval
      rw [getD_map_lt (by omega)] at hqval
      have hwmem : d.slots.getD q 0 ∈ d.slots := by
        rw [List.getD_eq_getElem _ _ (by omega)]
        exact List.getElem_mem _
      have hwv : d.slots.getD q 0 = v := by
        rcases hD.slot_range _ hwmem with h1 | h1 | h1
        · rw [h1, hF_empty] at hqval
          omega
        · rw [h1, hF_tomb] at hqval
          omega
        · rcases Nat.lt_trichotomy j (d.slots.getD q 0) with h2 | h2 | h2
          · rw [hF_gt _ h1 h2] at hqval
            rw [hv_def]
            rw [if_neg (by omega)]
            omega
          · rw [← h2, hF_eq] at hqval
            omega
          · rw [hF_lt _ h2] at hqval
            rw [hv_def, if_pos (by omega)]
            omega
      exact hpvuniq q hq (by rw [← hwv])
  · intro j2 hj2
    rw [hcount2] at hj2
    set v := if j2 < j then j2 else j2 + 1 with hv_def
    have hvlt : v < d.data_count := hσlt j2 hj2
    obtain ⟨off, hoffR, hoffval, hoffpath⟩ := hD.chain v hvlt
    have hhome2 : homeOf (KH_DictRemove d j) j2 = homeOf d v := by
      rw [homeOf, homeOf, hcap2, hkeyAt2 j2 hj2, ← hv_def]
    have hFv : F v = j2 := by
      by_cases h2 : j2 < j
      · rw [hv_def, if_pos h2, hF_lt j2 h2]
      · rw [hv_def, if_neg h2, hF_gt (j2 + 1) (by omega) (by omega)]
        omega
    refine ⟨off, by rw [hcap2]; exact hoffR, ?_, ?_⟩
    · rw [hhome2, hcap2, hslots2, getD_map_lt (by rw [hslen]; exact Nat.mod_lt _ (by omega)),
        hoffval, hFv]
    · intro t ht
      rw [hhome2, hcap2, hslots2, getD_map_lt (by rw [hslen]; exact Nat.mod_lt _ (by omega))]
      have hold := hoffpath t ht
      set w := d.slots.getD ((homeOf d v + t) % d.data_alloced) 0 with hw_def
      have hwmem : w ∈ d.slots := by
        rw [hw_def, List.getD_eq_getElem _ _ (by rw [hslen]; exact Nat.mod_lt _ (by omega))]
        exact List.getElem_mem _
      rcases hD.slot_range w hwmem with h1 | h1 | h1
      · exact absurd h1 hold
      · rw [h1, hF_tomb]
        omega
      · rcases Nat.lt_trichotomy j w with h2 | h2 | h2
        · rw [hF_gt w h1 h2]
          omega
        · rw [← h2, hF_eq]
          omega
        · rw [hF_lt w h2]
          omega
  · intro j1 hj1 j2 hj2 hne
    rw [hcount2] at hj1 hj2
    rw [hkeyAt2 j1 hj1, hkeyAt2 j2 hj2]
    apply hD.distinct _ (hσlt j1 hj1) _ (hσlt j2 hj2)
    split <;> split <;> omega
  · exact ⟨hp_lt, hp_shift⟩

theorem KH_DictDelete_found {d : KH_Dict} (hD : DInv d) {j : Nat} (hj : j < d.data_count) :
    KH_DictDelete d (keyAt d j) = (true, KH_DictRemove d j) := by
  rw [KH_DictDelete, lookup_found hD hj]

/-! ### Universal preservation of UInv

These lemmas hold for every reachable state, with no bound on the number of
operations: they track only lengths, the resize policy arithmetic, density
of the pair prefix and the range of slot values. -/

theorem KH_DictRemove_UInv {d : KH_Dict} (hU : UInv d) {j : Nat} (hj : j < d.data_count) :
    UInv (KH_DictRemove d j) := by
  have hcap : d.data_alloced ≠ 0 := by
    intro h0
    have := hU.count_zero_of_cap_zero h0
    omega
  have hcnt_cap : d.data_count < d.data_alloced := hU.count_lt_cap hcap
  have hplen : d.pairs.length = d.data_alloced := hU.pairs_len
  have hslen : d.slots.length = d.data_alloced := hU.slots_len
  set F : Nat → Nat := fun s =>
    if s = KH_HASH_DELETED ∨ s = KH_HASH_EMPTY then s
    else if j < s then s - 1
    else if s = j then KH_HASH_DELETED
    else s with hF_def
  set G : Nat → Option (KH_Blob × KH_Blob) → Option (KH_Blob × KH_Blob) := fun i p =>
    if j ≤ i ∧ i + 1 < d.data_count then d.pairs.getD (i + 1) none else p with hG_def
  have hslots2 : (KH_DictRemove d j).slots = d.slots.map F := rfl
  have hpairs2 : (KH_DictRemove d j).pairs = d.pairs.mapIdx G := rfl
  have hcount2 : (KH_DictRemove d j).data_count = d.data_count - 1 := rfl
  have hcap2 : (KH_DictRemove d j).data_alloced = d.data_alloced := rfl
  have hp_lt : ∀ i, i < j → (KH_DictRemove d j).pairs.getD i none = d.pairs.getD i none := by
    intro i hi
    rw [hpairs2, getD_mapIdx_lt (by omega)]
    simp only [hG_def]
    rw [if_neg (by omega)]
  have hp_shift : ∀ i, j ≤ i → i + 1 < d.data_count →
      (KH_DictRemove d j).pairs.getD i none = d.pairs.getD (i + 1) none := by
    intro i hi1 hi2
    rw [hpairs2, getD_mapIdx_lt (by omega)]
    simp only [hG_def]
    rw [if_pos ⟨hi1, hi2⟩]
  have hp_ge : ∀ i, d.data_count - 1 ≤ i →
      (KH_DictRemove d j).pairs.getD i none = d.pairs.getD i none := by
    intro i hi
    rcases Nat.lt_or_ge i d.data_alloced with hlt | hge
    · rw [hpairs2, getD_mapIdx_lt (by omega)]
      simp only [hG_def]
      rw [if_neg (by omega)]
    · rw [hpairs2, List.getD_eq_default _ _ (by rw [List.length_mapIdx]; omega),
        List.getD_eq_default _ _ (by omega)]
  constructor
  · rw [hslots2, List.length_map, hslen, hcap2]
  · rw [hpairs2, List.length_mapIdx, hplen, hcap2]
  · rw [hcap2]
    exact hU.cap_pow
  · rw [hcount2, hcap2]
    have := hU.count_le
    omega
  · intro i hi
    rw [hcount2] at hi
    by_cases hij : i < j
    · rw [hp_lt i hij]
      exact hU.dense i (by omega)
    · rw [hp_shift i (by omega) (by omega)]
      exact hU.dense (i + 1) (by omega)
  · intro i hi
    rw [hcap2] at hi
    have hji : d.data_count - 1 ≤ i := by
      have := hU.count_le
      omega
    rw [hp_ge i hji]
    exact hU.tail_none i hi
  · intro s hs
    rw [hslots2] at hs
    obtain ⟨w, hw, rfl⟩ := List.mem_map.mp hs
    rw [hcount2]
    by_cases hw1 : w = KH_HASH_DELETED ∨ w = KH_HASH_EMPTY
    · have hFw : F w = w := by
        simp only [hF_def]
        rw [if_pos hw1]
      rw [hFw]
      rcases hw1 with h1 | h1
      · exact Or.inr (Or.inl h1)
      · exact Or.inl h1
    · have hwlt : w < d.data_count := by
        rcases hU.slot_range w hw with h1 | h1 | h1
        · exact absurd (Or.inr h1) hw1
        · exact absurd (Or.inl h1) hw1
        · exact h1
      by_cases hw2 : j < w
      · have hFw : F w = w - 1 := by
          simp only [hF_def]
          rw [if_neg hw1, if_pos hw2]
        rw [hFw]
        exact Or.inr (Or.inr (by omega))
      · by_cases hw3 : w = j
        · have hFw : F w = KH_HASH_DELETED := by
            simp only [hF_def]
            rw [if_neg hw1, if_neg hw2, if_pos hw3]
          rw [hFw]
          exact Or.inr (Or.inl rfl)
        · have hFw : F w = w := by
            simp only [hF_def]
            rw [if_neg hw1, if_neg hw2, if_neg hw3]
          rw [hFw]
          exact Or.inr (Or.inr (by omega))

theorem KH_DictChange_UInv {d : KH_Dict} (hU : UInv d) {idx : Nat}
    {kv : KH_Blob × KH_Blob} (hkv : d.pairs.getD idx none = some kv)
    (hidx : idx < d.data_count) (v : KH_Blob) :
    UInv (KH_DictChange d idx v) := by
  have hcap : d.data_alloced ≠ 0 := by
    intro h0
    have := hU.count_zero_of_cap_zero h0
    omega
  have hchg : KH_DictChange d idx v = { d with pairs := d.pairs.set idx (some (kv.1, v)) } := by
    show (match d.pairs.getD idx none with
      | some kv => { d with pairs := d.pairs.set idx (some (kv.1, v)) }
      | none => d) = _
    rw [hkv]
  rw [hchg]
  have hidxlen : idx < d.pairs.length := by
    rw [hU.pairs_len]
    have := hU.count_lt_cap hcap
    omega
  constructor
  · exact hU.slots_len
  · rw [show ({ d with pairs := d.pairs.set idx (some (kv.1, v)) } : KH_Dict).pairs
      = d.pairs.set idx (some (kv.1, v)) from rfl, List.length_set]
    exact hU.pairs_len
  · exact hU.cap_pow
  · exact hU.count_le
  · intro i hi
    show ((d.pairs.set idx (some (kv.1, v))).getD i none).isSome = true
    by_cases hij : i = idx
    · rw [hij, List.getD_eq_getElem?_getD, List.getElem?_set_self hidxlen]
      rfl
    · rw [List.getD_eq_getElem?_getD, List.getElem?_set_ne (Ne.symm hij),
        ← List.getD_eq_getElem?_getD]
      exact hU.dense i hi
  · intro i hi
    have hi2 : threshold d.data_alloced ≤ i := hi
    show (d.pairs.set idx (some (kv.1, v))).getD i none = none
    have hij : i ≠ idx := by
      have := hU.count_le
      omega
    rw [List.getD_eq_getElem?_getD, List.getElem?_set_ne (Ne.symm hij),
      ← List.getD_eq_getElem?_getD]
    exact hU.tail_none i hi
  · exact hU.slot_range

theorem KH_ResizeDict_UInv {d : KH_Dict} (hU : UInv d)
    (htrig : threshold d.data_alloced ≤ d.data_count) :
    KH_ResizeDict d true = .hang ∨
    ∃ d2, KH_ResizeDict d true = .ok d2 ∧ UInv d2 ∧
      d2.data_count = d.data_count ∧ d2.data_count < threshold d2.data_alloced := by
  obtain ⟨hlive_len, hlive_get⟩ := livePairs_spec hU htrig
  set live := livePairs d with hlive_def
  set ns := if d.data_alloced ≠ 0 then 2 * d.data_alloced else 8 with hns_def
  obtain ⟨k2, hk23, hns⟩ : ∃ k2, 3 ≤ k2 ∧ ns = 2 ^ k2 := by
    rcases hU.cap_pow with h0 | ⟨k, hk, hcap⟩
    · exact ⟨3, by norm_num, by rw [hns_def, h0]; norm_num⟩
    · refine ⟨k + 1, by omega, ?_⟩
      rw [hns_def, hcap, if_pos (by positivity), pow_succ]
      ring
  have hcnt_eq : d.data_count = threshold d.data_alloced := le_antisymm hU.count_le htrig
  have hcnt_lt_ns : d.data_count < threshold ns := by
    rcases hU.cap_pow with h0 | ⟨k, hk, hcap⟩
    · rw [hU.count_zero_of_cap_zero h0, hns, threshold_two_pow hk23]
      positivity
    · have hns2 : ns = (2:Nat) ^ (k + 1) := by
        rw [hns_def, if_pos (by rw [hcap]; positivity), hcap, pow_succ]
        ring
      rw [hcnt_eq, hcap, hns2, threshold_two_pow hk, threshold_two_pow (by omega)]
      have h1 : k + 1 - 3 = (k - 3) + 1 := by omega
      rw [h1, pow_succ]
      have h2 : (0:Nat) < 2 ^ (k - 3) := by positivity
      omega
  have hth_lt_ns : threshold ns < ns := by
    rw [hns]
    exact threshold_lt_cap hk23
  rcases hreb : rebuildSlots ns (List.replicate ns KH_HASH_EMPTY) 0 live with _ | S2
  · left
    rw [KH_ResizeDict_true_eq, ← hns_def, ← hlive_def, hreb]
  · right
    obtain ⟨hS2len, hS2rng⟩ := rebuildSlots_some_facts live 0 _ S2 hreb
      (fun s hs => Or.inl (List.eq_of_mem_replicate hs))
    set P2 := live.map some ++ List.replicate (ns - live.length) none with hP2_def
    have hcnt_le_ns : live.length ≤ ns := by
      rw [hlive_len]
      omega
    have hpget_lt : ∀ i, i < live.length →
        P2.getD i none = some (live.getD i (⟨[]⟩, ⟨[]⟩)) := by
      intro i hi
      rw [hP2_def, List.getD_eq_getElem?_getD,
        List.getElem?_append_left (by rw [List.length_map]; exact hi),
        List.getElem?_map, List.getElem?_eq_getElem hi, List.getD_eq_getElem _ _ hi]
      rfl
    have hpget_ge : ∀ i, live.length ≤ i → P2.getD i none = none := by
      intro i hi
      rcases Nat.lt_or_ge i ns with hlt | hge
      · rw [hP2_def, List.getD_eq_getElem?_getD,
          List.getElem?_append_right (by rw [List.length_map]; exact hi), List.length_map,
          List.getElem?_eq_getElem (by rw [List.length_replicate]; omega),
          List.getElem_replicate]
        rfl
      · apply List.getD_eq_default
        rw [hP2_def, List.length_append, List.length_map, List.length_replicate]
        omega
    refine ⟨⟨S2, P2, live.length, ns⟩, ?_, ?_, hlive_len, ?_⟩
    · rw [KH_ResizeDict_true_eq, ← hns_def, ← hlive_def, hreb]
    · constructor
      · show S2.length = ns
        rw [hS2len, List.length_replicate]
      · show P2.length = ns
        rw [hP2_def, List.length_append, List.length_map, List.length_replicate]
        omega
      · exact Or.inr ⟨k2, hk23, hns⟩
      · show live.length ≤ threshold ns
        rw [hlive_len]
        omega
      · intro i hi
        show (P2.getD i none).isSome = true
        rw [hpget_lt i hi]
        rfl
      · intro i hi
        have hi2 : threshold ns ≤ i := hi
        show P2.getD i none = none
        apply hpget_ge
        have h3 : live.length < threshold ns := by rw [hlive_len]; exact hcnt_lt_ns
        omega
      · intro s hs
        rcases hS2rng s hs with h1 | h1
        · exact Or.inl h1
        · exact Or.inr (Or.inr (by simpa using h1))
    · show live.length < threshold ns
      rw [hlive_len]
      exact hcnt_lt_ns

theorem insert_record_UInv {d : KH_Dict} (hU : UInv d)
    (hroom : d.data_count < threshold d.data_alloced) (key value : KH_Blob) (p : Nat) :
    UInv ⟨d.slots.set p (d.data_count % U32),
      d.pairs.set d.data_count (some (key, value)), d.data_count + 1, d.data_alloced⟩ := by
  have hcap : d.data_alloced ≠ 0 := by
    intro h0
    rw [h0, threshold_zero] at hroom
    omega
  have hcnt_plen : d.data_count < d.pairs.length := by
    rw [hU.pairs_len]
    have := hU.count_lt_cap hcap
    omega
  constructor
  · show (d.slots.set p (d.data_count % U32)).length = d.data_alloced
    rw [List.length_set]
    exact hU.slots_len
  · show (d.pairs.set d.data_count (some (key, value))).length = d.data_alloced
    rw [List.length_set]
    exact hU.pairs_len
  · exact hU.cap_pow
  · show d.data_count + 1 ≤ threshold d.data_alloced
    omega
  · intro i hi
    have hi2 : i < d.data_count + 1 := hi
    show ((d.pairs.set d.data_count (some (key, value))).getD i none).isSome = true
    rcases Nat.lt_or_ge i d.data_count with hlt | hge
    · rw [List.getD_eq_getElem?_getD, List.getElem?_set_ne (by omega),
        ← List.getD_eq_getElem?_getD]
      exact hU.dense i hlt
    · have hieq : i = d.data_count := by omega
      rw [hieq, List.getD_eq_getElem?_getD, List.getElem?_set_self hcnt_plen]
      rfl
  · intro i hi
    have hi2 : threshold d.data_alloced ≤ i := hi
    show (d.pairs.set d.data_count (some (key, value))).getD i none = none
    rw [List.getD_eq_getElem?_getD, List.getElem?_set_ne (by omega),
      ← List.getD_eq_getElem?_getD]
    exact hU.tail_none i hi2
  · intro s hs
    show s = KH_HASH_EMPTY ∨ s = KH_HASH_DELETED ∨ s < d.data_count + 1
    rcases List.mem_or_eq_of_mem_set hs with hmem | rfl
    · rcases hU.slot_range s hmem with h1 | h1 | h1
      · exact Or.inl h1
      · exact Or.inr (Or.inl h1)
      · exact Or.inr (Or.inr (by omega))
    · exact Or.inr (Or.inr (lt_of_le_of_lt (Nat.mod_le _ _) (by omega)))

theorem KH_DictInsert_ok_UInv {d d2 : KH_Dict} (hU : UInv d) {k v : KH_Blob} {ao : Bool}
    (h : KH_DictInsert d k v ao = .ok d2) :
    UInv d2 ∧ d2.data_count ≤ d.data_count + 1 := by
  by_cases htrig : threshold d.data_alloced ≤ d.data_count
  · cases ao
    · rw [KH_DictInsert, if_pos htrig, show KH_ResizeDict d false = .fail from rfl] at h
      exact absurd h (by simp)
    · rcases KH_ResizeDict_UInv hU htrig with hres | ⟨dr, hres, hUr, hcnt_r, hroom_r⟩
      · rw [KH_DictInsert, if_pos htrig, hres] at h
        exact absurd h (by simp)
      · rw [KH_DictInsert, if_pos htrig, hres] at h
        have h2 : (match KH_InsertSlot dr.slots dr.data_alloced k.hash (dr.data_count % U32)
            with
          | none => SetRes.hang
          | some slots2 =>
            SetRes.ok ⟨slots2, dr.pairs.set dr.data_count (some (k, v)),
              dr.data_count + 1, dr.data_alloced⟩) = SetRes.ok d2 := h
        rcases hins : KH_InsertSlot dr.slots dr.data_alloced k.hash (dr.data_count % U32)
          with _ | slots2
        · rw [hins] at h2
          exact absurd h2 (by simp)
        · rw [hins] at h2
          obtain ⟨p, hpfree, rfl⟩ := KH_InsertSlot_mem hins
          have hU2 := insert_record_UInv hUr hroom_r k v p
          have hd2 : d2 = ⟨dr.slots.set p (dr.data_count % U32),
              dr.pairs.set dr.data_count (some (k, v)), dr.data_count + 1,
              dr.data_alloced⟩ := (SetRes.ok.inj h2).symm
          rw [hd2]
          refine ⟨hU2, ?_⟩
          show dr.data_count + 1 ≤ d.data_count + 1
          omega
  · rw [KH_DictInsert, if_neg htrig] at h
    have h2 : (match KH_InsertSlot d.slots d.data_alloced k.hash (d.data_count % U32) with
      | none => SetRes.hang
      | some slots2 =>
        SetRes.ok ⟨slots2, d.pairs.set d.data_count (some (k, v)),
          d.data_count + 1, d.data_alloced⟩) = SetRes.ok d2 := h
    rcases hins : KH_InsertSlot d.slots d.data_alloced k.hash (d.data_count % U32)
      with _ | slots2
    · rw [hins] at h2
      exact absurd h2 (by simp)
    · rw [hins] at h2
      obtain ⟨p, hpfree, rfl⟩ := KH_InsertSlot_mem hins
      have hU2 := insert_record_UInv hU (by omega) k v p
      have hd2 : d2 = ⟨d.slots.set p (d.data_count % U32),
          d.pairs.set d.data_count (some (k, v)), d.data_count + 1, d.data_alloced⟩ :=
        (SetRes.ok.inj h2).symm
      rw [hd2]
      exact ⟨hU2, le_refl _⟩

theorem KH_DictSet_ok_UInv {d d2 : KH_Dict} (hU : UInv d) {k v : KH_Blob} {ao : Bool}
    (h : KH_DictSet d k v ao = .ok d2) :
    UInv d2 ∧ d2.data_count ≤ d.data_count + 1 := by
  rcases hlk : KH_DictLookupIndex d k with _ | idx
  · rw [KH_DictSet, hlk] at h
    exact KH_DictInsert_ok_UInv hU h
  · rw [KH_DictSet, hlk] at h
    obtain ⟨hidx, kv, hkv, hkey⟩ := lookup_some_spec hU hlk
    have hU2 := KH_DictChange_UInv hU hkv hidx v
    have h2 : SetRes.ok (KH_DictChange d idx v) = SetRes.ok d2 := h
    have hd2 : d2 = KH_DictChange d idx v := (SetRes.ok.inj h2).symm
    rw [hd2]
    refine ⟨hU2, ?_⟩
    have hchg : KH_DictChange d idx v
        = { d with pairs := d.pairs.set idx (some (kv.1, v)) } := by
      show (match d.pairs.getD idx none with
        | some kv => { d with pairs := d.pairs.set idx (some (kv.1, v)) }
        | none => d) = _
      rw [hkv]
    rw [hchg]
    show d.data_count ≤ d.data_count + 1
    omega

theorem KH_DictSet_fail_eq {d d2 : KH_Dict} {k v : KH_Blob} {ao : Bool}
    (h : KH_DictSet d k v ao = .fail d2) : d2 = d := by
  rcases hlk : KH_DictLookupIndex d k with _ | idx
  · rw [KH_DictSet, hlk] at h
    have h2 : KH_DictInsert d k v ao = .fail d2 := h
    by_cases htrig : threshold d.data_alloced ≤ d.data_count
    · rw [KH_DictInsert, if_pos htrig] at h2
      rcases hres : KH_ResizeDict d ao with dr | _ | _
      · rw [hres] at h2
        have h3 : (match KH_InsertSlot dr.slots dr.data_alloced k.hash (dr.data_count % U32)
            with
          | none => SetRes.hang
          | some slots2 =>
            SetRes.ok ⟨slots2, dr.pairs.set dr.data_count (some (k, v)),
              dr.data_count + 1, dr.data_alloced⟩) = SetRes.fail d2 := h2
        rcases hins : KH_InsertSlot dr.slots dr.data_alloced k.hash (dr.data_count % U32)
          with _ | slots2
        · rw [hins] at h3
          exact absurd h3 (by simp)
        · rw [hins] at h3
          exact absurd h3 (by simp)
      · rw [hres] at h2
        exact (SetRes.fail.inj h2).symm
      · rw [hres] at h2
        exact absurd h2 (by simp)
    · rw [KH_DictInsert, if_neg htrig] at h2
      have h3 : (match KH_InsertSlot d.slots d.data_alloced k.hash (d.data_count % U32) with
        | none => SetRes.hang
        | some slots2 =>
          SetRes.ok ⟨slots2, d.pairs.set d.data_count (some (k, v)),
            d.data_count + 1, d.data_alloced⟩) = SetRes.fail d2 := h2
      rcases hins : KH_InsertSlot d.slots d.data_alloced k.hash (d.data_count % U32)
        with _ | slots2
      · rw [hins] at h3
        exact absurd h3 (by simp)
      · rw [hins] at h3
        exact absurd h3 (by simp)
  · rw [KH_DictSet, hlk] at h
    have h2 : SetRes.ok (KH_DictChange d idx v) = SetRes.fail d2 := h
    exact absurd h2 (by simp)

theorem KH_DictDelete_UInv {d : KH_Dict} (hU : UInv d) (k : KH_Blob) :
    UInv (KH_DictDelete d k).2 ∧ (KH_DictDelete d k).2.data_count ≤ d.data_count := by
  rw [KH_DictDelete]
  rcases hlk : KH_DictLookupIndex d k with _ | idx
  · exact ⟨hU, le_refl _⟩
  · obtain ⟨hidx, _, _, _⟩ := lookup_some_spec hU hlk
    refine ⟨KH_DictRemove_UInv hU hidx, ?_⟩
    show d.data_count - 1 ≤ d.data_count
    omega

theorem reachableIn_UInv {n : Nat} {d : KH_Dict} (h : ReachableIn n d) :
    UInv d ∧ d.data_count ≤ n := by
  induction h with
  | empty =>
    refine ⟨⟨rfl, rfl, Or.inl rfl, Nat.zero_le _, ?_, ?_, ?_⟩, le_refl _⟩
    · intro i hi
      simp [emptyD] at hi
    · intro i hi
      simp [emptyD, List.getD]
    · intro s hs
      simp [emptyD] at hs
  | more _ ih => exact ⟨ih.1, le_trans ih.2 (Nat.le_succ _)⟩
  | set k v ao _ hset ih =>
    obtain ⟨hU1, hc1⟩ := ih
    obtain ⟨hU2, hle⟩ := KH_DictSet_ok_UInv hU1 hset
    exact ⟨hU2, by omega⟩
  | setFail k v ao _ hset ih =>
    obtain ⟨hU1, hc1⟩ := ih
    rw [KH_DictSet_fail_eq hset]
    exact ⟨hU1, by omega⟩
  | del k _ ih =>
    obtain ⟨hU1, hc1⟩ := ih
    obtain ⟨hU2, hle⟩ := KH_DictDelete_UInv hU1 k
    exact ⟨hU2, by omega⟩

/-! ### DInv along bounded runs -/

theorem insert_ao_irrel {d : KH_Dict} (k v : KH_Blob) (ao : Bool)
    (h : ¬ threshold d.data_alloced ≤ d.data_count) :
    KH_DictInsert d k v ao = KH_DictInsert d k v true := by
  rw [KH_DictInsert, KH_DictInsert, if_neg h, if_neg h]

theorem KH_DictSet_ok_DInv {d d2 : KH_Dict} (hD : DInv d)
    (hsmall : d.data_count < threshold U32) {k v : KH_Blob} {ao : Bool}
    (h : KH_DictSet d k v ao = .ok d2) : DInv d2 := by
  rcases hlk : KH_DictLookupIndex d k with _ | idx
  · have habs : ∀ j, j < d.data_count → keyAt d j ≠ k := by
      intro j hj heq
      have hfound := lookup_found hD hj
      rw [heq, hlk] at hfound
      exact absurd hfound (by simp)
    rw [KH_DictSet, hlk] at h
    have h2 : KH_DictInsert d k v ao = .ok d2 := h
    by_cases htrig : threshold d.data_alloced ≤ d.data_count
    · cases ao
      · rw [KH_DictInsert, if_pos htrig, show KH_ResizeDict d false = .fail from rfl] at h2
        exact absurd h2 (by simp)
      · obtain ⟨d2x, hok, hD2, h3, h4, h5⟩ := KH_DictInsert_spec hD k v habs hsmall
        rw [hok] at h2
        obtain rfl := SetRes.ok.inj h2
        exact hD2
    · rw [insert_ao_irrel k v ao htrig] at h2
      obtain ⟨d2x, hok, hD2, h3, h4, h5⟩ := KH_DictInsert_spec hD k v habs hsmall
      rw [hok] at h2
      obtain rfl := SetRes.ok.inj h2
      exact hD2
  · obtain ⟨hidx, kv, hkv, hkey⟩ := lookup_some_spec hD.toUInv hlk
    have hkeq : keyAt d idx = k := by rw [keyAt_eq_of_getD hkv, hkey]
    obtain ⟨d2x, hok, hD2, h3, h4, h5, h6, h7⟩ := KH_DictSet_update_spec hD hidx v ao
    rw [hkeq, h] at hok
    obtain rfl := SetRes.ok.inj hok
    exact hD2

theorem KH_DictDelete_DInv {d : KH_Dict} (hD : DInv d) (k : KH_Blob) :
    DInv (KH_DictDelete d k).2 := by
  rw [KH_DictDelete]
  rcases hlk : KH_DictLookupIndex d k with _ | idx
  · exact hD
  · obtain ⟨hidx, kv, hkv, hkey⟩ := lookup_some_spec hD.toUInv hlk
    exact (KH_DictRemove_spec hD hidx).1

theorem DInv_emptyD : DInv emptyD := by
  refine ⟨⟨rfl, rfl, Or.inl rfl, Nat.zero_le _, ?_, ?_, ?_⟩, Nat.zero_le _, le_refl 0,
    ?_, ?_, ?_⟩
  · intro i hi
    simp [emptyD] at hi
  · intro i hi
    simp [emptyD, List.getD]
  · intro s hs
    simp [emptyD] at hs
  · intro j hj
    simp [emptyD] at hj
  · intro j hj
    simp [emptyD] at hj
  · intro j hj
    simp [emptyD] at hj

theorem reachableIn_DInv {n : Nat} {d : KH_Dict} (h : ReachableIn n d)
    (hn : n ≤ 5 * 2 ^ 29) : DInv d := by
  induction h with
  | empty => exact DInv_emptyD
  | more _ ih => exact ih (by omega)
  | set k v ao hr hset ih =>
    have hD := ih (by omega)
    have hcnt := (reachableIn_UInv hr).2
    exact KH_DictSet_ok_DInv hD (by rw [threshold_U32]; omega) hset
  | setFail k v ao hr hset ih =>
    rw [KH_DictSet_fail_eq hset]
    exact ih (by omega)
  | del k hr ih =>
    exact KH_DictDelete_DInv (ih (by omega)) k

/-! ### Utilities for the long-run (overflow) analysis -/

/-- The `i`-th key of the long insertion runs: five base-256 digits, so the
first 2^40 keys are pairwise distinct. -/
def natKey (i : Nat) : KH_Blob :=
  KH_CreateBlob [i % 256, i / 256 % 256, i / 65536 % 256, i / 16777216 % 256,
    i / 4294967296 % 256]

/-- The long insertion run: Set (natKey 0, natKey 0), (natKey 1, natKey 1), …. -/
def bigOps (N : Nat) : List (KH_Blob × KH_Blob) :=
  (List.range N).map (fun i => (natKey i, natKey i))

/-- Number of pair indexes below `n` whose uint32 image is a sentinel
(0xfffffffe or 0xffffffff): such an index stored into a slot leaves the slot
looking free. -/
def ghostFree (n : Nat) : Nat :=
  (if 4294967294 < n then 1 else 0) + (if 4294967295 < n then 1 else 0)

theorem natKey_inj {i j : Nat} (hi : i < 1099511627776) (hj : j < 1099511627776)
    (h : natKey i = natKey j) : i = j := by
  simp only [natKey, KH_CreateBlob, List.map, KH_Blob.mk.injEq, List.cons.injEq,
    and_true] at h
  omega

theorem KH_Hash_aux_lt {f : Nat → Nat → Nat}
    (hf : ∀ a b, a < U32 → b < U32 → f a b < U32) :
    ∀ (l : List Nat) (acc : Nat), acc < U32 → (∀ b ∈ l, b < U32) →
      l.foldl f acc < U32 := by
  intro l
  induction l with
  | nil => intro acc hacc _; exact hacc
  | cons b rest ih =>
    intro acc hacc hl
    rw [List.foldl_cons]
    exact ih _ (hf acc b hacc (hl b (List.mem_cons_self b rest)))
      (fun x hx => hl x (by simp [hx]))

theorem KH_Hash_lt {l : List Nat} (hl : ∀ b ∈ l, b < U32) : KH_Hash l < U32 := by
  rw [KH_Hash]
  refine KH_Hash_aux_lt ?_ l 5381 (by norm_num [U32]) hl
  intro a b ha hb
  rw [U32_eq_pow] at hb ⊢
  exact Nat.xor_lt_two_pow (by rw [← U32_eq_pow]; exact Nat.mod_lt _ (by norm_num [U32])) hb

theorem createBlob_hash_lt (l : List Nat) : (KH_CreateBlob l).hash < U32 := by
  apply KH_Hash_lt
  intro b hb
  simp only [KH_CreateBlob] at hb
  obtain ⟨x, _, rfl⟩ := List.mem_map.mp hb
  have h1 : x % 256 < 256 := Nat.mod_lt _ (by norm_num)
  have h2 : U32 = 4294967296 := rfl
  omega

theorem natKey_hash_lt (i : Nat) : (natKey i).hash < U32 := createBlob_hash_lt _

theorem runSets_append (a b : List (KH_Blob × KH_Blob)) :
    ∀ d, runSets d (a ++ b) =
      match runSets d a with
      | none => none
      | some d2 => runSets d2 b := by
  induction a with
  | nil => intro d; rfl
  | cons kv rest ih =>
    intro d
    rw [List.cons_append, runSets, runSets]
    rcases KH_DictSet d kv.1 kv.2 true with d2 | d2 | _
    · exact ih d2
    · rfl
    · rfl

theorem nonfree_all {S : List Nat} {R : Nat} (hR : R ≤ S.length)
    (h : nonfreeCount S R = R) :
    ∀ p, p < R → isFreeSlot (S.getD p 0) = false := by
  have hlen : (S.take R).length = R := by rw [List.length_take]; omega
  have hall := List.countP_eq_length.mp (by rw [← nonfreeCount, h, hlen])
  intro p hp
  have hp2 : p < (S.take R).length := by rw [hlen]; exact hp
  have hmem : (S.take R)[p] ∈ S.take R := List.getElem_mem _
  have heq : (S.take R)[p] = S.getD p 0 := by
    rw [List.getElem_take, List.getD_eq_getElem S 0 (by omega)]
  have h3 := hall _ hmem
  rw [heq] at h3
  simpa using h3

theorem getD_set_ne {S : List Nat} {p q : Nat} (v : Nat) (h : p ≠ q) :
    (S.set q v).getD p 0 = S.getD p 0 := by
  rw [List.getD_eq_getElem?_getD, List.getElem?_set_ne (Ne.symm h),
    ← List.getD_eq_getElem?_getD]

theorem insertSlotAux_none_of_nofree {S : List Nat} {n v : Nat} (hn : 0 < n)
    (hall : ∀ p, p < region n → isFreeSlot (S.getD p 0) = false) :
    ∀ fuel start, start < region n → insertSlotAux S n v start fuel = none := by
  intro fuel
  induction fuel with
  | zero => intro start _; rfl
  | succ f ih =>
    intro start hstart
    rw [insertSlotAux_succ, if_neg (by rw [hall start hstart]; simp)]
    apply ih
    have h1 : (start + 1) % U32 < U32 := Nat.mod_lt _ (by norm_num [U32])
    have h2 : ((start + 1) % U32) &&& (n - 1) ≤ (start + 1) % U32 := Nat.and_le_left
    have h3 : ((start + 1) % U32) &&& (n - 1) ≤ n - 1 := Nat.and_le_right
    have h4 : ((start + 1) % U32) &&& (n - 1) < n := by omega
    rw [region]
    omega

theorem KH_InsertSlot_none_of_nofree {S : List Nat} {n h v : Nat} (hn : 0 < n)
    (hh : h < U32)
    (hall : ∀ p, p < region n → isFreeSlot (S.getD p 0) = false) :
    KH_InsertSlot S n h v = none := by
  apply insertSlotAux_none_of_nofree hn hall
  have h2 : h &&& (n - 1) ≤ h := Nat.and_le_left
  have h3 : h &&& (n - 1) ≤ n - 1 := Nat.and_le_right
  rw [region]
  show h &&& (n - 1) < min n U32
  omega

theorem rebuildSlots_preserves_nonfree {n : Nat} :
    ∀ (live : List (KH_Blob × KH_Blob)) (j0 : Nat) (S S2 : List Nat),
      rebuildSlots n S j0 live = some S2 →
      ∀ p, isFreeSlot (S.getD p 0) = false → S2.getD p 0 = S.getD p 0 := by
  intro live
  induction live with
  | nil =>
    intro j0 S S2 h p _
    rw [rebuildSlots] at h
    cases h
    rfl
  | cons kv rest ih =>
    intro j0 S S2 h p hp
    rw [rebuildSlots] at h
    rcases hins : KH_InsertSlot S n kv.1.hash (j0 % U32) with _ | S1
    · rw [hins] at h
      exact absurd h (by simp)
    · rw [hins] at h
      obtain ⟨q, hqfree, rfl⟩ := KH_InsertSlot_mem hins
      have hpq : p ≠ q := by
        intro he
        rw [he, hqfree] at hp
        exact absurd hp (by simp)
      have hkeep : (S.set q (j0 % U32)).getD p 0 = S.getD p 0 := getD_set_ne _ hpq
      rw [ih _ _ _ h p (by rw [hkeep]; exact hp), hkeep]

theorem KH_DictRemove_pairs_shift {d : KH_Dict} {j i : Nat} (hji : j ≤ i)
    (hi : i + 1 < d.data_count) (hlen : i < d.pairs.length) :
    (KH_DictRemove d j).pairs.getD i none = d.pairs.getD (i + 1) none := by
  show (d.pairs.mapIdx _).getD i none = _
  rw [getD_mapIdx_lt hlen]
  rw [if_pos ⟨hji, hi⟩]

theorem lookupAux_hit {slots : List Nat} {pairs : List (Option (KH_Blob × KH_Blob))}
    {alloced : Nat} {key : KH_Blob} {base f s : Nat} {kv : KH_Blob × KH_Blob}
    (hf : 0 < f)
    (hslot : slots.getD ((base + 0) &&& (alloced - 1)) 0 = s)
    (hsE : s ≠ KH_HASH_EMPTY) (hsD : s ≠ KH_HASH_DELETED)
    (hkv : pairs.getD s none = some kv) (hkey : kv.1 = key) :
    lookupAux slots pairs alloced key base 0 f = some s := by
  obtain ⟨g, rfl⟩ : ∃ g, f = g + 1 := ⟨f - 1, by omega⟩
  rw [lookupAux_succ, hslot, if_neg hsE, if_neg hsD, hkv]
  show (if KH_BlobEqual key kv.1 = true then some s
    else lookupAux slots pairs alloced key base (0 + 1) g) = some s
  rw [hkey, if_pos (KH_BlobEqual_self key)]

theorem lookup_hit {d : KH_Dict} {key : KH_Blob} {s : Nat} {kv : KH_Blob × KH_Blob}
    (hcap : d.data_alloced ≠ 0)
    (hslot : d.slots.getD (KH_BlobStartingIndexForSize key.hash d.data_alloced) 0 = s)
    (hsE : s ≠ KH_HASH_EMPTY) (hsD : s ≠ KH_HASH_DELETED)
    (hkv : d.pairs.getD s none = some kv) (hkey : kv.1 = key) :
    KH_DictLookupIndex d key = some s := by
  rw [KH_DictLookupIndex]
  have hslot2 : d.slots.getD
      ((KH_BlobStartingIndexForSize key.hash d.data_alloced + 0) &&& (d.data_alloced - 1)) 0
      = s := by
    rw [Nat.add_zero, KH_BlobStartingIndexForSize, Nat.and_assoc, Nat.and_self]
    rw [KH_BlobStartingIndexForSize] at hslot
    exact hslot
  exact lookupAux_hit (by omega) hslot2 hsE hsD hkv hkey

/-! ### Invariant for the long insertion runs

Beyond threshold(2^32) = 5·2^29 operations the bounded invariant `DInv` no
longer applies (the capacity grows to 2^33 and the uint32 probe cursor of
KH_InsertSlot stops agreeing with the size_t arithmetic of the lookup).  For
the runs that insert natKey 0, natKey 1, … in order, this weaker invariant
still holds and is enough to decide every operation. -/

structure BigState (n : Nat) (d : KH_Dict) : Prop where
  uinv : UInv d
  count : d.data_count = n
  capk : d.data_alloced = 0 ∨ ∃ k, 3 ≤ k ∧ k ≤ 33 ∧ d.data_alloced = 2 ^ k
  pairs : ∀ j, j < n → d.pairs.getD j none = some (natKey j, natKey j)
  nonfree : nonfreeCount d.slots (region d.data_alloced) + ghostFree n = n
  home0 : 1 ≤ n →
    d.slots.getD (KH_BlobStartingIndexForSize (natKey 0).hash d.data_alloced) 0 = 0

theorem bigResize {d : KH_Dict} (hU : UInv d)
    (hpairs : ∀ j, j < d.data_count → d.pairs.getD j none = some (natKey j, natKey j))
    (hcapk : d.data_alloced = 0 ∨ ∃ k, 3 ≤ k ∧ k ≤ 32 ∧ d.data_alloced = 2 ^ k)
    (htrig : threshold d.data_alloced ≤ d.data_count) :
    ∃ d2, KH_ResizeDict d true = .ok d2 ∧ UInv d2 ∧
      d2.data_count = d.data_count ∧
      (∃ k2, 3 ≤ k2 ∧ k2 ≤ 33 ∧ d2.data_alloced = 2 ^ k2) ∧
      d2.data_count < threshold d2.data_alloced ∧
      (∀ i, i < d.data_count → d2.pairs.getD i none = d.pairs.getD i none) ∧
      nonfreeCount d2.slots (region d2.data_alloced) = d.data_count ∧
      (1 ≤ d.data_count →
        d2.slots.getD (KH_BlobStartingIndexForSize (natKey 0).hash d2.data_alloced) 0
          = 0) := by
  obtain ⟨hlive_len, hlive_get⟩ := livePairs_spec hU htrig
  set live := livePairs d with hlive_def
  set ns := if d.data_alloced ≠ 0 then 2 * d.data_alloced else 8 with hns_def
  obtain ⟨k2, hk23, hk233, hns⟩ : ∃ k2, 3 ≤ k2 ∧ k2 ≤ 33 ∧ ns = 2 ^ k2 := by
    rcases hcapk with h0 | ⟨k, hk3, hk32, hcap⟩
    · exact ⟨3, by norm_num, by norm_num, by rw [hns_def, h0]; norm_num⟩
    · refine ⟨k + 1, by omega, by omega, ?_⟩
      rw [hns_def, hcap, if_pos (by positivity), pow_succ]
      ring
  have hcnt_eq : d.data_count = threshold d.data_alloced := le_antisymm hU.count_le htrig
  have hcnt_U32 : d.data_count < 5 * 2 ^ 29 + 1 := by
    rcases hcapk with h0 | ⟨k, hk3, hk32, hcap⟩
    · rw [hcnt_eq, h0, threshold_zero]
      omega
    · rw [hcnt_eq, hcap, threshold_two_pow hk3]
      have h1 : (2:Nat) ^ (k - 3) ≤ 2 ^ 29 := Nat.pow_le_pow_right (by norm_num) (by omega)
      omega
  have hcnt_lt_ns : d.data_count < threshold ns := by
    rcases hcapk with h0 | ⟨k, hk3, hk32, hcap⟩
    · rw [hcnt_eq, h0, threshold_zero, hns, threshold_two_pow hk23]
      positivity
    · have hns2 : ns = (2:Nat) ^ (k + 1) := by
        rw [hns_def, if_pos (by rw [hcap]; positivity), hcap, pow_succ]
        ring
      rw [hcnt_eq, hcap, hns2, threshold_two_pow hk3, threshold_two_pow (by omega)]
      have h1 : k + 1 - 3 = (k - 3) + 1 := by omega
      rw [h1, pow_succ]
      have h2 : (0:Nat) < 2 ^ (k - 3) := by positivity
      omega
  have hcnt_tomb : d.data_count ≤ KH_HASH_DELETED := by
    have h1 : (5 * 2 ^ 29 + 1 : Nat) < KH_HASH_DELETED := by norm_num [KH_HASH_DELETED]
    omega
  have hregionU : region (2 ^ k2) = min (2 ^ k2) U32 := rfl
  have hregion_pos : 0 < region (2 ^ k2) := region_pos
  have hcnt_region : live.length ≤ region (2 ^ k2) := by
    rw [hlive_len, hregionU]
    have h1 : d.data_count < 2 ^ k2 := by
      have ha := hcnt_lt_ns
      rw [hns] at ha
      have hb := threshold_lt_cap hk23
      omega
    have h2 : d.data_count < U32 := by
      have : (5 * 2 ^ 29 + 1 : Nat) ≤ U32 := by norm_num [U32]
      omega
    omega
  have hlivelt : ∀ {i : Nat}, i < d.data_count → i < live.length := by
    intro i hi
    rw [hlive_len]
    exact hi
  have hlive_natKey : ∀ i, i < live.length →
      live.getD i (⟨[]⟩, ⟨[]⟩) = (natKey i, natKey i) := by
    intro i hi
    have hi2 : i < d.data_count := by rw [← hlive_len]; exact hi
    have h2 : live[i]? = some (natKey i, natKey i) := by
      rw [hlive_get i hi2, hpairs i hi2]
    rw [List.getElem?_eq_getElem hi] at h2
    rw [List.getD_eq_getElem _ _ hi, Option.some.inj h2]
  set η := fun j => (live.getD j (⟨[]⟩, ⟨[]⟩)).1.hash &&& (ns - 1) with hη_def
  obtain ⟨S2, hrebuild, hrb2⟩ :=
    rebuildSlots_rb hk23 hk233 η live 0 (List.replicate (2 ^ k2) KH_HASH_EMPTY)
      (rbstate_replicate η)
      (by simpa using hcnt_region)
      (by simp only [Nat.zero_add]; rw [hlive_len]; omega)
      (by
        intro i hi
        simp only [hη_def, Nat.zero_add]
        rw [List.getD_eq_getElem _ _ hi, hns])
      (by
        intro i hi
        simp only [hη_def, Nat.zero_add]
        rw [hregionU]
        have h1 : (live.getD i (⟨[]⟩, ⟨[]⟩)).1.hash &&& (ns - 1) ≤ ns - 1 :=
          Nat.and_le_right
        have h2 : 0 < ns := by rw [hns]; positivity
        have h3 : (live.getD i (⟨[]⟩, ⟨[]⟩)).1.hash < U32 := by
          rw [hlive_natKey i hi]
          exact natKey_hash_lt i
        have h4 : (live.getD i (⟨[]⟩, ⟨[]⟩)).1.hash &&& (ns - 1)
            ≤ (live.getD i (⟨[]⟩, ⟨[]⟩)).1.hash := Nat.and_le_left
        rw [← hns]
        omega)
  set P2 := live.map some ++ List.replicate (ns - live.length) none with hP2_def
  have hcnt_le_ns : live.length ≤ ns := by
    rw [hlive_len]
    omega
  have hpget_lt : ∀ i, i < live.length →
      P2.getD i none = some (live.getD i (⟨[]⟩, ⟨[]⟩)) := by
    intro i hi
    rw [hP2_def, List.getD_eq_getElem?_getD,
      List.getElem?_append_left (by rw [List.length_map]; exact hi),
      List.getElem?_map, List.getElem?_eq_getElem hi, List.getD_eq_getElem _ _ hi]
    rfl
  have hpget_ge : ∀ i, live.length ≤ i → P2.getD i none = none := by
    intro i hi
    rcases Nat.lt_or_ge i ns with hlt | hge
    · rw [hP2_def, List.getD_eq_getElem?_getD,
        List.getElem?_append_right (by rw [List.length_map]; exact hi), List.length_map,
        List.getElem?_eq_getElem (by rw [List.length_replicate]; omega),
        List.getElem_replicate]
      rfl
    · apply List.getD_eq_default
      rw [hP2_def, List.length_append, List.length_map, List.length_replicate]
      omega
  have hpfx : ∀ i, i < d.data_count → P2.getD i none = d.pairs.getD i none := by
    intro i hi
    rw [hpget_lt i (hlivelt hi), hlive_natKey i (hlivelt hi), hpairs i hi]
  set d2 : KH_Dict := ⟨S2, P2, live.length, ns⟩ with hd2_def
  have hUInv2 : UInv d2 := by
    constructor
    · show S2.length = ns
      rw [hrb2.len, hns]
    · show P2.length = ns
      rw [hP2_def, List.length_append, List.length_map, List.length_replicate]
      omega
    · exact Or.inr ⟨k2, hk23, hns⟩
    · show live.length ≤ threshold ns
      rw [hlive_len]
      omega
    · intro i hi
      show (P2.getD i none).isSome = true
      rw [hpget_lt i hi]
      rfl
    · intro i hi
      show P2.getD i none = none
      apply hpget_ge
      rw [show d2.data_alloced = ns from rfl] at hi
      have h3 : live.length < threshold ns := by rw [hlive_len]; exact hcnt_lt_ns
      omega
    · intro s hs
      rcases hrb2.range s hs with h1 | h1
      · exact Or.inl h1
      · exact Or.inr (Or.inr (by simpa using h1))
  have hok : KH_ResizeDict d true = .ok d2 := by
    rw [KH_ResizeDict_true_eq]
    rw [← hns_def, ← hlive_def, ← hP2_def]
    rw [← hns] at hrebuild
    rw [hrebuild]
  have hnonfree2 : nonfreeCount d2.slots (region d2.data_alloced) = d.data_count := by
    show nonfreeCount S2 (region ns) = d.data_count
    rw [hns]
    have := hrb2.nonfree
    rw [hlive_len] at this
    simpa using this
  have hhome0 : 1 ≤ d.data_count →
      d2.slots.getD (KH_BlobStartingIndexForSize (natKey 0).hash d2.data_alloced) 0
        = 0 := by
    intro hn1
    have hlive_pos : 0 < live.length := by rw [hlive_len]; omega
    obtain ⟨l0, rest, hlr⟩ := List.exists_cons_of_ne_nil
      (List.ne_nil_of_length_pos hlive_pos)
    have hl0 : l0 = (natKey 0, natKey 0) := by
      have h1 := hlive_natKey 0 hlive_pos
      rw [hlr] at h1
      exact h1
    have hreb2 : rebuildSlots (2 ^ k2) (List.replicate (2 ^ k2) KH_HASH_EMPTY) 0
        (l0 :: rest) = some S2 := by
      rw [← hlr]
      exact hrebuild
    rw [rebuildSlots] at hreb2
    have hhome_lt : l0.1.hash &&& (2 ^ k2 - 1) < region (2 ^ k2) := by
      have h1 : l0.1.hash &&& (2 ^ k2 - 1) ≤ 2 ^ k2 - 1 := Nat.and_le_right
      have h2 : l0.1.hash &&& (2 ^ k2 - 1) ≤ l0.1.hash := Nat.and_le_left
      have h3 : l0.1.hash < U32 := by rw [hl0]; exact natKey_hash_lt 0
      have h4 : 0 < (2:Nat) ^ k2 := by positivity
      rw [hregionU]
      omega
    have hhome_len : l0.1.hash &&& (2 ^ k2 - 1)
        < (List.replicate (2 ^ k2) KH_HASH_EMPTY).length := by
      rw [List.length_replicate]
      rw [hregionU] at hhome_lt
      omega
    have hgetE : (List.replicate (2 ^ k2) KH_HASH_EMPTY).getD (l0.1.hash &&& (2 ^ k2 - 1)) 0
        = KH_HASH_EMPTY := by
      rw [List.getD_eq_getElem _ _ hhome_len, List.getElem_replicate]
    obtain ⟨off, hoffR, hoffpath, hofffree, hins⟩ :=
      KH_InsertSlot_spec (S := List.replicate (2 ^ k2) KH_HASH_EMPTY) hk23 hk233
        l0.1.hash (0 % U32) hhome_lt
        ⟨l0.1.hash &&& (2 ^ k2 - 1), hhome_lt, by rw [hgetE]; rfl⟩
    have hoff0 : off = 0 := by
      by_contra hne
      have h1 := hoffpath 0 (by omega)
      rw [Nat.add_zero, Nat.mod_eq_of_lt hhome_lt, hgetE] at h1
      exact absurd h1 (by simp [isFreeSlot])
    rw [hoff0, Nat.add_zero, Nat.mod_eq_of_lt hhome_lt] at hins
    rw [hins] at hreb2
    have hreb3 : rebuildSlots (2 ^ k2)
        ((List.replicate (2 ^ k2) KH_HASH_EMPTY).set (l0.1.hash &&& (2 ^ k2 - 1)) (0 % U32))
        (0 + 1) rest = some S2 := hreb2
    have hS1get : ((List.replicate (2 ^ k2) KH_HASH_EMPTY).set
        (l0.1.hash &&& (2 ^ k2 - 1)) (0 % U32)).getD (l0.1.hash &&& (2 ^ k2 - 1)) 0
        = 0 := by
      rw [List.getD_eq_getElem?_getD, List.getElem?_set_self (by
        rw [List.length_replicate]
        rw [hregionU] at hhome_lt
        omega)]
      rfl
    have hkeep := rebuildSlots_preserves_nonfree rest (0 + 1) _ S2 hreb3
      (l0.1.hash &&& (2 ^ k2 - 1)) (by rw [hS1get]; rfl)
    have hl0h : l0.1.hash = (natKey 0).hash := by rw [hl0]
    show S2.getD (KH_BlobStartingIndexForSize (natKey 0).hash ns) 0 = 0
    rw [KH_BlobStartingIndexForSize, hns, ← hl0h]
    rw [hkeep, hS1get]
  exact ⟨d2, hok, hUInv2, hlive_len, ⟨k2, hk23, hk233, hns⟩, by
      show live.length < threshold ns
      rw [hlive_len]
      exact hcnt_lt_ns,
    hpfx, hnonfree2, hhome0⟩

theorem isFreeSlot_false_of {x : Nat} (h1 : x ≠ KH_HASH_EMPTY) (h2 : x ≠ KH_HASH_DELETED) :
    isFreeSlot x = false := by
  simp [isFreeSlot, h1, h2]

theorem ghostFree_succ (m : Nat) :
    ghostFree (m + 1)
      = ghostFree m + (if m = 4294967294 ∨ m = 4294967295 then 1 else 0) := by
  simp only [ghostFree]
  split_ifs <;> omega

theorem ghostFree_zero_of {m : Nat} (h : m ≤ 4294967294) : ghostFree m = 0 := by
  simp only [ghostFree]
  split_ifs <;> omega

theorem free_all_of_nonfreeCount_zero {S : List Nat} {R : Nat} (hR : R ≤ S.length)
    (h : nonfreeCount S R = 0) : ∀ p, p < R → isFreeSlot (S.getD p 0) = true := by
  rw [nonfreeCount] at h
  intro p hp
  have hp2 : p < (S.take R).length := by rw [List.length_take]; omega
  have hmem : (S.take R)[p] ∈ S.take R := List.getElem_mem _
  have heq : (S.take R)[p] = S.getD p 0 := by
    rw [List.getElem_take, List.getD_eq_getElem S 0 (by omega)]
  have h3 := List.countP_eq_zero.mp h _ hmem
  rw [heq] at h3
  simpa using h3

theorem big_insert_core {m : Nat} {dr : KH_Dict} (hU : UInv dr) (_hm : dr.data_count = m)
    {k : Nat} (hk3 : 3 ≤ k) (hk33 : k ≤ 33) (hcap : dr.data_alloced = 2 ^ k)
    (hroom : m < threshold dr.data_alloced)
    (hnonfree : nonfreeCount dr.slots (region dr.data_alloced) + ghostFree m = m)
    (hm_bound : m ≤ 4294967297)
    (kk : KH_Blob) (hk32 : kk.hash < U32) :
    ∃ p, p < region dr.data_alloced ∧ isFreeSlot (dr.slots.getD p 0) = true ∧
      KH_InsertSlot dr.slots dr.data_alloced kk.hash (dr.data_count % U32)
        = some (dr.slots.set p (dr.data_count % U32)) ∧
      (m = 0 → p = KH_BlobStartingIndexForSize kk.hash dr.data_alloced) := by
  have hU32 : U32 = 4294967296 := rfl
  have hE : KH_HASH_EMPTY = 4294967295 := rfl
  have hT : KH_HASH_DELETED = 4294967294 := rfl
  have hth_lt : threshold (2 ^ k) < 2 ^ k := threshold_lt_cap hk3
  have hregion_eq : region dr.data_alloced = min (2 ^ k) U32 := by rw [hcap]; rfl
  have hslen : dr.slots.length = dr.data_alloced := hU.slots_len
  have hnf_lt : nonfreeCount dr.slots (region dr.data_alloced) < region dr.data_alloced := by
    have hg : ghostFree m = (if 4294967294 < m then 1 else 0)
        + (if 4294967295 < m then 1 else 0) := rfl
    rcases Nat.lt_or_ge k 33 with hklt | hkge
    · have h2k : (2:Nat) ^ k ≤ 2 ^ 32 := Nat.pow_le_pow_right (by norm_num) (by omega)
      have hmin : min ((2:Nat) ^ k) U32 = 2 ^ k := by
        rw [hU32, show (4294967296:Nat) = 2 ^ 32 by norm_num]
        omega
      rw [hregion_eq, hmin] at hnonfree ⊢
      rw [hg] at hnonfree
      rw [hcap] at hroom
      split_ifs at hnonfree <;> omega
    · have hke : k = 33 := by omega
      have hmin : min ((2:Nat) ^ k) U32 = U32 := by
        rw [hke, hU32]
        norm_num
      rw [hregion_eq, hmin] at hnonfree ⊢
      rw [hg] at hnonfree
      rw [hU32] at hnonfree ⊢
      split_ifs at hnonfree <;> omega
  obtain ⟨q, hq, hqfree⟩ := exists_free_of_nonfreeCount (S := dr.slots)
    (R := region dr.data_alloced) (m := nonfreeCount dr.slots (region dr.data_alloced))
    (by rw [hslen, hregion_eq, hcap]; omega) (le_refl _) hnf_lt
  have hhome_lt : kk.hash &&& (2 ^ k - 1) < region (2 ^ k) := by
    have h1 : kk.hash &&& (2 ^ k - 1) ≤ 2 ^ k - 1 := Nat.and_le_right
    have h2 : kk.hash &&& (2 ^ k - 1) ≤ kk.hash := Nat.and_le_left
    have h3 : 0 < (2:Nat) ^ k := by positivity
    show kk.hash &&& (2 ^ k - 1) < min (2 ^ k) U32
    omega
  have hfree2 : ∃ p, p < region (2 ^ k) ∧ isFreeSlot (dr.slots.getD p 0) = true := by
    refine ⟨q, ?_, hqfree⟩
    rw [hregion_eq] at hq
    exact hq
  obtain ⟨off, hoffR, hoffpath, hofffree, hins⟩ :=
    KH_InsertSlot_spec hk3 hk33 kk.hash (dr.data_count % U32) hhome_lt hfree2
  set pos := ((kk.hash &&& (2 ^ k - 1)) + off) % region (2 ^ k) with hpos_def
  refine ⟨pos, ?_, hofffree, ?_, ?_⟩
  · rw [hregion_eq]
    show ((kk.hash &&& (2 ^ k - 1)) + off) % region (2 ^ k) < region (2 ^ k)
    exact Nat.mod_lt _ region_pos
  · rw [hcap]
    exact hins
  · intro hm0
    have h0 : nonfreeCount dr.slots (region dr.data_alloced) = 0 := by
      have hg0 : ghostFree m = 0 := ghostFree_zero_of (by omega)
      omega
    have hfree_all := free_all_of_nonfreeCount_zero
      (by rw [hslen, hregion_eq, hcap]; omega) h0
    have hoff0 : off = 0 := by
      by_contra hne
      have h1 := hoffpath 0 (by omega)
      rw [Nat.add_zero, Nat.mod_eq_of_lt hhome_lt] at h1
      have h2 := hfree_all (kk.hash &&& (2 ^ k - 1)) (by rw [hregion_eq]; exact hhome_lt)
      rw [h1] at h2
      exact absurd h2 (by simp)
    rw [hpos_def, hoff0, Nat.add_zero, Nat.mod_eq_of_lt hhome_lt]
    rw [KH_BlobStartingIndexForSize, hcap]

theorem getD_set_ne2 {α : Type} {S : List α} {p q : Nat} (v w : α) (h : p ≠ q) :
    (S.set q v).getD p w = S.getD p w := by
  rw [List.getD_eq_getElem?_getD, List.getElem?_set_ne (Ne.symm h),
    ← List.getD_eq_getElem?_getD]

theorem big_record_facts {n : Nat} {dr d2 : KH_Dict} (hUr : UInv dr)
    (hmn : dr.data_count = n)
    {k2 : Nat} (hk23 : 3 ≤ k2) (hk233 : k2 ≤ 33) (hcap_r : dr.data_alloced = 2 ^ k2)
    (hroom : dr.data_count < threshold dr.data_alloced)
    (hnf : nonfreeCount dr.slots (region dr.data_alloced) + ghostFree n = n)
    (hn : n ≤ 4294967297)
    (hh0 : 1 ≤ n →
      dr.slots.getD (KH_BlobStartingIndexForSize (natKey 0).hash dr.data_alloced) 0 = 0)
    (kk vv : KH_Blob)
    {p : Nat} (hpreg : p < region dr.data_alloced)
    (hpfree : isFreeSlot (dr.slots.getD p 0) = true)
    (hp0 : n = 0 → p = KH_BlobStartingIndexForSize kk.hash dr.data_alloced)
    (hd2 : d2 = ⟨dr.slots.set p (dr.data_count % U32),
      dr.pairs.set dr.data_count (some (kk, vv)), dr.data_count + 1, dr.data_alloced⟩) :
    d2.data_count = n + 1 ∧
      (∃ k, 3 ≤ k ∧ k ≤ 33 ∧ d2.data_alloced = 2 ^ k) ∧
      UInv d2 ∧
      (∀ j, j < n → d2.pairs.getD j none = dr.pairs.getD j none) ∧
      d2.pairs.getD n none = some (kk, vv) ∧
      nonfreeCount d2.slots (region d2.data_alloced) + ghostFree (n + 1) = n + 1 ∧
      (1 ≤ n → d2.slots.getD
        (KH_BlobStartingIndexForSize (natKey 0).hash d2.data_alloced) 0 = 0) ∧
      (n = 0 → d2.slots.getD
        (KH_BlobStartingIndexForSize kk.hash d2.data_alloced) 0 = 0) := by
  subst hd2
  have hU32 : U32 = 4294967296 := rfl
  have hth_lt : threshold (2 ^ k2) < 2 ^ k2 := threshold_lt_cap hk23
  have hroom2 : dr.data_count < threshold (2 ^ k2) := by rw [← hcap_r]; exact hroom
  have hcnt_plen : dr.data_count < dr.pairs.length := by
    rw [hUr.pairs_len, hcap_r]
    omega
  have hRle : region dr.data_alloced ≤ dr.slots.length := by
    rw [hUr.slots_len, hcap_r]
    show min (2 ^ k2) U32 ≤ 2 ^ k2
    omega
  have hplen : p < dr.slots.length := by omega
  refine ⟨?_, ⟨k2, hk23, hk233, hcap_r⟩, insert_record_UInv hUr hroom kk vv p,
    ?_, ?_, ?_, ?_, ?_⟩
  · show dr.data_count + 1 = n + 1
    omega
  · intro j hj
    show (dr.pairs.set dr.data_count (some (kk, vv))).getD j none = dr.pairs.getD j none
    exact getD_set_ne2 _ _ (by omega)
  · show (dr.pairs.set dr.data_count (some (kk, vv))).getD n none = some (kk, vv)
    rw [← hmn, List.getD_eq_getElem?_getD, List.getElem?_set_self hcnt_plen]
    rfl
  · show nonfreeCount (dr.slots.set p (dr.data_count % U32)) (region dr.data_alloced)
      + ghostFree (n + 1) = n + 1
    rw [nonfreeCount_set _ hpreg hRle]
    by_cases hsent : n = 4294967294 ∨ n = 4294967295
    · have hv : isFreeSlot (dr.data_count % U32) = true := by
        rw [hmn]
        rcases hsent with h | h <;> subst h <;> rfl
      have hg := ghostFree_succ n
      rw [if_pos hsent] at hg
      simp only [hpfree, hv, Bool.not_true, Bool.false_eq_true, if_false]
      omega
    · have hv : isFreeSlot (dr.data_count % U32) = false := by
        rw [hmn]
        apply isFreeSlot_false_of
        · show n % U32 ≠ 4294967295
          rw [hU32]
          omega
        · show n % U32 ≠ 4294967294
          rw [hU32]
          omega
      have hg := ghostFree_succ n
      rw [if_neg hsent] at hg
      simp only [hpfree, hv, Bool.not_true, Bool.not_false, Bool.false_eq_true, if_false,
        if_true]
      omega
  · intro hn1
    have h0 := hh0 hn1
    show (dr.slots.set p (dr.data_count % U32)).getD
      (KH_BlobStartingIndexForSize (natKey 0).hash dr.data_alloced) 0 = 0
    have hpne : KH_BlobStartingIndexForSize (natKey 0).hash dr.data_alloced ≠ p := by
      intro he
      rw [← he, h0] at hpfree
      exact absurd hpfree (by decide)
    rw [getD_set_ne2 _ _ hpne]
    exact h0
  · intro hn0
    have hp' := hp0 hn0
    show (dr.slots.set p (dr.data_count % U32)).getD
      (KH_BlobStartingIndexForSize kk.hash dr.data_alloced) 0 = 0
    rw [← hp', List.getD_eq_getElem?_getD, List.getElem?_set_self hplen]
    show dr.data_count % U32 = 0
    rw [hmn, hn0]
    exact Nat.zero_mod _

theorem big_insert {n : Nat} {d : KH_Dict} (hB : BigState n d) (hn : n ≤ 4294967297)
    (kk vv : KH_Blob) (hk32 : kk.hash < U32)
    (hlk : KH_DictLookupIndex d kk = none) :
    ∃ d2, KH_DictSet d kk vv true = .ok d2 ∧
      d2.data_count = n + 1 ∧
      (∃ k, 3 ≤ k ∧ k ≤ 33 ∧ d2.data_alloced = 2 ^ k) ∧
      UInv d2 ∧
      (∀ j, j < n → d2.pairs.getD j none = d.pairs.getD j none) ∧
      d2.pairs.getD n none = some (kk, vv) ∧
      nonfreeCount d2.slots (region d2.data_alloced) + ghostFree (n + 1) = n + 1 ∧
      (1 ≤ n → d2.slots.getD
        (KH_BlobStartingIndexForSize (natKey 0).hash d2.data_alloced) 0 = 0) ∧
      (n = 0 → d2.slots.getD
        (KH_BlobStartingIndexForSize kk.hash d2.data_alloced) 0 = 0) := by
  by_cases htrig : threshold d.data_alloced ≤ d.data_count
  · have hcapk32 : d.data_alloced = 0 ∨ ∃ k, 3 ≤ k ∧ k ≤ 32 ∧ d.data_alloced = 2 ^ k := by
      rcases hB.capk with h0 | ⟨k, hk3, hk33, hcap⟩
      · exact Or.inl h0
      · refine Or.inr ⟨k, hk3, ?_, hcap⟩
        by_contra hcon
        have hke : k = 33 := by omega
        rw [hcap, hke, threshold_two_pow (by norm_num), hB.count] at htrig
        norm_num at htrig
        omega
    obtain ⟨dr, hres, hUr, hcnt_r, ⟨k2, hk23, hk233, hcap_r⟩, hroom_r, hpre_r, hnf_r,
      hh0_r⟩ := bigResize hB.uinv (by rw [hB.count]; exact hB.pairs) hcapk32 htrig
    have hmn : dr.data_count = n := hcnt_r.trans hB.count
    have hcnt_eq : d.data_count = threshold d.data_alloced :=
      le_antisymm hB.uinv.count_le htrig
    have hn_small : n ≤ 5 * 2 ^ 29 := by
      rcases hcapk32 with h0 | ⟨k, hk3, hk32c, hcap⟩
      · rw [← hB.count, hcnt_eq, h0, threshold_zero]
        omega
      · rw [← hB.count, hcnt_eq, hcap, threshold_two_pow hk3]
        have h1 : (2:Nat) ^ (k - 3) ≤ 2 ^ 29 := Nat.pow_le_pow_right (by norm_num) (by omega)
        omega
    have hg0 : ghostFree n = 0 := ghostFree_zero_of (by
      have h2 : (5 * 2 ^ 29 : Nat) ≤ 4294967294 := by norm_num
      omega)
    obtain ⟨p, hpreg, hpfree, hins, hp0⟩ := big_insert_core hUr hmn hk23 hk233 hcap_r
      (by rw [← hmn]; exact hroom_r) (by rw [hnf_r, hB.count, hg0]; omega) (by omega) kk hk32
    obtain ⟨hc1, hc2, hc3, hc4, hc5, hc6, hc7, hc8⟩ := big_record_facts hUr hmn hk23 hk233
      hcap_r hroom_r (by rw [hnf_r, hB.count, hg0]; omega) hn
      (fun h1 => hh0_r (by rw [hB.count]; omega)) kk vv hpreg hpfree hp0 rfl
    refine ⟨⟨dr.slots.set p (dr.data_count % U32),
      dr.pairs.set dr.data_count (some (kk, vv)), dr.data_count + 1, dr.data_alloced⟩,
      ?_, hc1, hc2, hc3, ?_, hc5, hc6, hc7, hc8⟩
    · rw [KH_DictSet, hlk]
      show KH_DictInsert d kk vv true = _
      rw [KH_DictInsert, if_pos htrig, hres]
      show (match KH_InsertSlot dr.slots dr.data_alloced kk.hash (dr.data_count % U32) with
        | none => SetRes.hang
        | some slots2 =>
          SetRes.ok ⟨slots2, dr.pairs.set dr.data_count (some (kk, vv)),
            dr.data_count + 1, dr.data_alloced⟩) = _
      rw [hins]
    · intro j hj
      rw [hc4 j hj]
      exact hpre_r j (by rw [hB.count]; exact hj)
  · push_neg at htrig
    obtain ⟨k2, hk23, hk233, hcap⟩ : ∃ k, 3 ≤ k ∧ k ≤ 33 ∧ d.data_alloced = 2 ^ k := by
      rcases hB.capk with h0 | hk
      · rw [h0, threshold_zero] at htrig
        omega
      · exact hk
    obtain ⟨p, hpreg, hpfree, hins, hp0⟩ := big_insert_core hB.uinv hB.count hk23 hk233
      hcap (by rw [← hB.count]; exact htrig) hB.nonfree hn kk hk32
    obtain ⟨hc1, hc2, hc3, hc4, hc5, hc6, hc7, hc8⟩ := big_record_facts hB.uinv hB.count
      hk23 hk233 hcap htrig hB.nonfree hn hB.home0 kk vv hpreg
      hpfree hp0 rfl
    refine ⟨⟨d.slots.set p (d.data_count % U32),
      d.pairs.set d.data_count (some (kk, vv)), d.data_count + 1, d.data_alloced⟩,
      ?_, hc1, hc2, hc3, hc4, hc5, hc6, hc7, hc8⟩
    rw [KH_DictSet, hlk]
    show KH_DictInsert d kk vv true = _
    rw [KH_DictInsert, if_neg (by omega)]
    show (match KH_InsertSlot d.slots d.data_alloced kk.hash (d.data_count % U32) with
      | none => SetRes.hang
      | some slots2 =>
        SetRes.ok ⟨slots2, d.pairs.set d.data_count (some (kk, vv)),
          d.data_count + 1, d.data_alloced⟩) = _
    rw [hins]

theorem bigStep {n : Nat} {d : KH_Dict} (hB : BigState n d) (hn : n ≤ 4294967297) :
    ∃ d2, KH_DictSet d (natKey n) (natKey n) true = .ok d2 ∧ BigState (n + 1) d2 := by
  have hfresh : ∀ j, j < n → natKey j ≠ natKey n := by
    intro j hj he
    have := natKey_inj (by omega) (by omega) he
    omega
  have hlk : KH_DictLookupIndex d (natKey n) = none := by
    rcases hres : KH_DictLookupIndex d (natKey n) with _ | s
    · rfl
    · obtain ⟨hs, kv, hkv, hkey⟩ := lookup_some_spec hB.uinv hres
      rw [hB.count] at hs
      have h2 := hB.pairs s hs
      rw [h2] at hkv
      obtain rfl := Option.some.inj hkv
      exact absurd hkey (by simpa using hfresh s hs)
  obtain ⟨d2, hok, hc1, ⟨k, hk3, hk33, hcap⟩, hU2, hpres, hnew, hnf2, hh0a, hh0b⟩ :=
    big_insert hB hn (natKey n) (natKey n) (natKey_hash_lt n) hlk
  refine ⟨d2, hok, hU2, hc1, Or.inr ⟨k, hk3, hk33, hcap⟩, ?_, hnf2, ?_⟩
  · intro j hj
    rcases Nat.lt_or_ge j n with hlt | hge
    · rw [hpres j hlt]
      exact hB.pairs j hlt
    · have hje : j = n := by omega
      rw [hje]
      exact hnew
  · intro h1
    rcases Nat.eq_zero_or_pos n with h0 | hpos
    · subst h0
      exact hh0b rfl
    · exact hh0a hpos

theorem bigState_empty : BigState 0 emptyD := by
  refine ⟨(reachableIn_UInv ReachableIn.empty).1, rfl, Or.inl rfl, ?_, rfl, ?_⟩
  · intro j hj
    omega
  · intro h
    omega

theorem bigRun_from : ∀ (m : Nat) {n : Nat} {d : KH_Dict}, BigState n d →
    n + m ≤ 4294967298 →
    ∃ dF, runSets d ((List.range' n m).map (fun i => (natKey i, natKey i))) = some dF ∧
      BigState (n + m) dF := by
  intro m
  induction m with
  | zero =>
    intro n d hB h
    exact ⟨d, rfl, hB⟩
  | succ m ih =>
    intro n d hB h
    obtain ⟨d2, hok, hB2⟩ := bigStep hB (by omega)
    rw [List.range'_succ, List.map_cons, runSets, hok]
    obtain ⟨dF, hrun, hBF⟩ := ih hB2 (by omega)
    refine ⟨dF, ?_, by rwa [show n + 1 + m = n + (m + 1) by omega] at hBF⟩
    show runSets d2 ((List.range' (n + 1) m).map (fun i => (natKey i, natKey i))) = some dF
    exact hrun

theorem bigRun (N : Nat) (hN : N ≤ 4294967298) :
    ∃ dF, runSets emptyD (bigOps N) = some dF ∧ BigState N dF := by
  have h := bigRun_from N bigState_empty (by omega)
  rw [bigOps, List.range_eq_range']
  simpa using h

/-! ### Consequences of the long runs -/

theorem bigState_lookup_fresh {n : Nat} {d : KH_Dict} (hB : BigState n d) {kk : KH_Blob}
    (hfresh : ∀ j, j < n → natKey j ≠ kk) : KH_DictLookupIndex d kk = none := by
  rcases hres : KH_DictLookupIndex d kk with _ | s
  · rfl
  · obtain ⟨hs, kv, hkv, hkey⟩ := lookup_some_spec hB.uinv hres
    rw [hB.count] at hs
    have h2 := hB.pairs s hs
    rw [h2] at hkv
    obtain rfl := Option.some.inj hkv
    exact absurd hkey (by simpa using hfresh s hs)

/-- After any long run, the key whose pair index is 0xfffffffe cannot be found:
the slot that stores that index reads as a TOMBSTONE. -/
theorem bigState_lookup_tomb {n : Nat} {d : KH_Dict} (hB : BigState n d)
    (hn : n ≤ 4294967298) :
    KH_DictLookupIndex d (natKey 4294967294) = none := by
  rcases hres : KH_DictLookupIndex d (natKey 4294967294) with _ | s
  · rfl
  · obtain ⟨hs, kv, hkv, hkey⟩ := lookup_some_spec hB.uinv hres
    rw [hB.count] at hs
    have h2 := hB.pairs s hs
    rw [h2] at hkv
    obtain rfl := Option.some.inj hkv
    have hseq : natKey s = natKey 4294967294 := hkey
    have hs2 : s = 4294967294 := natKey_inj (by omega) (by norm_num) hseq
    have hsound := lookupAux_sound d.slots d.pairs d.data_alloced (natKey 4294967294)
      (KH_BlobStartingIndexForSize (natKey 4294967294).hash d.data_alloced)
      d.data_alloced 0 s hres
    exact absurd (by rw [hs2]; rfl) hsound.2.1

theorem bigState_lookup_zero {n : Nat} {d : KH_Dict} (hB : BigState n d) (h1 : 1 ≤ n) :
    KH_DictLookupIndex d (natKey 0) = some 0 := by
  have hcap : d.data_alloced ≠ 0 := by
    intro h0
    have := hB.uinv.count_zero_of_cap_zero h0
    rw [hB.count] at this
    omega
  exact lookup_hit hcap (hB.home0 h1) (by decide) (by decide)
    (hB.pairs 0 (by omega)) rfl

theorem bigState_delete_zero {n : Nat} {d : KH_Dict} (hB : BigState n d) (h1 : 1 ≤ n) :
    KH_DictDelete d (natKey 0) = (true, KH_DictRemove d 0) := by
  rw [KH_DictDelete, bigState_lookup_zero hB h1]

/-- Deleting pair 0 from the state after 2^32-1 inserts: the pair that held
index 0xfffffffe moves down to index 0xfffffffd, but its slot — read as a
TOMBSTONE — is not renumbered, so no slot holds 0xfffffffd and the key is
lost. -/
theorem big_delete_get_none {d : KH_Dict} (hB : BigState 4294967295 d) :
    KH_DictGet (KH_DictRemove d 0) (natKey 4294967294) = none := by
  have hcap : d.data_alloced ≠ 0 := by
    intro h0
    have := hB.uinv.count_zero_of_cap_zero h0
    rw [hB.count] at this
    omega
  have hcnt_cap : d.data_count < d.data_alloced := hB.uinv.count_lt_cap hcap
  have hU' : UInv (KH_DictRemove d 0) :=
    KH_DictRemove_UInv hB.uinv (by rw [hB.count]; norm_num)
  have hcount' : (KH_DictRemove d 0).data_count = 4294967294 := by
    show d.data_count - 1 = 4294967294
    rw [hB.count]
  have hshift : ∀ i, i + 1 < 4294967295 →
      (KH_DictRemove d 0).pairs.getD i none = d.pairs.getD (i + 1) none := by
    intro i hi
    refine KH_DictRemove_pairs_shift (by omega) (by rw [hB.count]; exact hi) ?_
    rw [hB.uinv.pairs_len]
    rw [hB.count] at hcnt_cap
    omega
  have hno : ∀ t, (KH_DictRemove d 0).slots.getD t 0 ≠ 4294967293 := by
    intro t
    show (d.slots.map _).getD t 0 ≠ 4294967293
    rcases Nat.lt_or_ge t d.slots.length with hlt | hge
    · rw [getD_map_lt hlt]
      have hmem : d.slots.getD t 0 ∈ d.slots := by
        rw [List.getD_eq_getElem _ _ hlt]
        exact List.getElem_mem _
      set w := d.slots.getD t 0 with hw_def
      by_cases hwsent : w = KH_HASH_DELETED ∨ w = KH_HASH_EMPTY
      · rw [if_pos hwsent]
        rcases hwsent with h | h <;> rw [h] <;> decide
      · rw [if_neg hwsent]
        have hwlt : w < d.data_count := by
          rcases hB.uinv.slot_range w hmem with h | h | h
          · exact absurd (Or.inr h) hwsent
          · exact absurd (Or.inl h) hwsent
          · exact h
        rw [hB.count] at hwlt
        have hwT : w ≠ 4294967294 := by
          intro he
          exact hwsent (Or.inl he)
        by_cases hw0 : 0 < w
        · rw [if_pos hw0]
          omega
        · rw [if_neg hw0, if_pos (by omega)]
          decide
    · rw [List.getD_eq_default _ _ (by rw [List.length_map]; omega)]
      decide
  have hlk : KH_DictLookupIndex (KH_DictRemove d 0) (natKey 4294967294) = none := by
    rcases hres : KH_DictLookupIndex (KH_DictRemove d 0) (natKey 4294967294) with _ | s
    · rfl
    · obtain ⟨hs, kv, hkv, hkey⟩ := lookup_some_spec hU' hres
      rw [hcount'] at hs
      rw [hshift s (by omega)] at hkv
      have h2 := hB.pairs (s + 1) (by omega)
      rw [h2] at hkv
      obtain rfl := Option.some.inj hkv
      have hseq : natKey (s + 1) = natKey 4294967294 := hkey
      have hs2 : s + 1 = 4294967294 := natKey_inj (by omega) (by norm_num) hseq
      obtain ⟨_, _, _, t, _, _, hslot⟩ := lookupAux_sound (KH_DictRemove d 0).slots
        (KH_DictRemove d 0).pairs (KH_DictRemove d 0).data_alloced (natKey 4294967294)
        (KH_BlobStartingIndexForSize (natKey 4294967294).hash
          (KH_DictRemove d 0).data_alloced)
        (KH_DictRemove d 0).data_alloced 0 s hres
      rw [show s = 4294967293 by omega] at hslot
      exact (hno _ hslot).elim
  rw [KH_DictGet, hlk]

/-- At 2^32+2 pairs the uint32-reachable region of the 2^33-slot table is
completely non-free, so the next insertion's probe loop never finds a free
slot: the C loop spins forever (`.hang`). -/
theorem big_final_hang {d : KH_Dict} (hB : BigState 4294967298 d) :
    KH_DictSet d (natKey 4294967298) (natKey 4294967298) true = .hang := by
  have hlk : KH_DictLookupIndex d (natKey 4294967298) = none := by
    apply bigState_lookup_fresh hB
    intro j hj he
    have := natKey_inj (by omega) (by norm_num) he
    omega
  have hcap : d.data_alloced = 2 ^ 33 := by
    rcases hB.capk with h0 | ⟨k, hk3, hk33, hcap⟩
    · have := hB.uinv.count_zero_of_cap_zero h0
      rw [hB.count] at this
      omega
    · have hcle := hB.uinv.count_le
      rw [hB.count, hcap] at hcle
      have hk : k = 33 := by
        by_contra hne
        rw [threshold_two_pow hk3] at hcle
        have h1 : (2:Nat) ^ (k - 3) ≤ 2 ^ 29 :=
          Nat.pow_le_pow_right (by norm_num) (by omega)
        have h2 : (2:Nat) ^ 29 = 536870912 := by norm_num
        omega
      rw [hcap, hk]
  have hnotrig : ¬(threshold d.data_alloced ≤ d.data_count) := by
    rw [hcap, hB.count, threshold_two_pow (by norm_num)]
    norm_num
  have hregion : region d.data_alloced = 4294967296 := by
    rw [hcap]
    show min (2 ^ 33) U32 = 4294967296
    norm_num [U32]
  have hnf : nonfreeCount d.slots (region d.data_alloced) = 4294967296 := by
    have h1 := hB.nonfree
    have h2 : ghostFree 4294967298 = 2 := rfl
    rw [h2] at h1
    omega
  rw [hregion] at hnf
  have hall : ∀ p, p < region d.data_alloced → isFreeSlot (d.slots.getD p 0) = false := by
    have h3 := nonfree_all (S := d.slots) (R := 4294967296)
      (by rw [hB.uinv.slots_len, hcap]; norm_num) hnf
    intro p hp
    rw [hregion] at hp
    exact h3 p hp
  have hins : KH_InsertSlot d.slots d.data_alloced (natKey 4294967298).hash
      (d.data_count % U32) = none :=
    KH_InsertSlot_none_of_nofree (by rw [hcap]; positivity) (natKey_hash_lt _) hall
  rw [KH_DictSet, hlk]
  show KH_DictInsert d (natKey 4294967298) (natKey 4294967298) true = .hang
  rw [KH_DictInsert, if_neg hnotrig]
  show (match KH_InsertSlot d.slots d.data_alloced (natKey 4294967298).hash
      (d.data_count % U32) with
    | none => SetRes.hang
    | some slots2 =>
      SetRes.ok ⟨slots2, d.pairs.set d.data_count (some (natKey 4294967298,
        natKey 4294967298)), d.data_count + 1, d.data_alloced⟩) = .hang
  rw [hins]

theorem runSets_bigOps_hang : runSets emptyD (bigOps 4294967299) = none := by
  obtain ⟨dF, hrun, hB⟩ := bigRun 4294967298 (by norm_num)
  have hsplit : bigOps 4294967299
      = bigOps 4294967298 ++ [(natKey 4294967298, natKey 4294967298)] := by
    rw [bigOps, bigOps, show (4294967299:Nat) = 4294967298 + 1 by norm_num,
      List.range_succ, List.map_append]
    rfl
  rw [hsplit, runSets_append, hrun]
  show runSets dF [(natKey 4294967298, natKey 4294967298)] = none
  rw [runSets, big_final_hang hB]

/-! ### Bounded runs with distinct keys -/

theorem runSets_distinct_from :
    ∀ (ops : List (KH_Blob × KH_Blob)) (d : KH_Dict), DInv d →
      ops.Pairwise (fun a b => a.1 ≠ b.1) →
      (∀ kv ∈ ops, ∀ j, j < d.data_count → keyAt d j ≠ kv.1) →
      d.data_count + ops.length ≤ 5 * 2 ^ 29 →
      ∃ dF, runSets d ops = some dF ∧ DInv dF ∧
        dF.data_count = d.data_count + ops.length ∧
        (∀ j, j < d.data_count → dF.pairs.getD j none = d.pairs.getD j none) ∧
        (∀ i, i < ops.length → dF.pairs.getD (d.data_count + i) none = ops[i]?) := by
  intro ops
  induction ops with
  | nil =>
    intro d hD _ _ _
    exact ⟨d, rfl, hD, by simp, fun j _ => rfl, fun i hi => absurd hi (by simp)⟩
  | cons kv rest ih =>
    intro d hD hpw hnew hlen
    rw [List.length_cons] at hlen
    have hsmall : d.data_count < threshold U32 := by rw [threshold_U32]; omega
    obtain ⟨d2, hok, hD2, hcnt2, hpres2, hnew2⟩ := KH_DictSet_insert_spec hD kv.1 kv.2
      (fun j hj => hnew kv (by simp) j hj) hsmall
    have hkeyAt_new : keyAt d2 d.data_count = kv.1 := keyAt_eq_of_getD hnew2
    have hkeyAt_old : ∀ j, j < d.data_count → keyAt d2 j = keyAt d j := by
      intro j hj
      unfold keyAt
      rw [hpres2 j hj]
    have hnew_rest : ∀ kv2 ∈ rest, ∀ j, j < d2.data_count → keyAt d2 j ≠ kv2.1 := by
      intro kv2 hkv2 j hj
      rw [hcnt2] at hj
      rcases Nat.lt_or_ge j d.data_count with hlt | hge
      · rw [hkeyAt_old j hlt]
        exact hnew kv2 (by simp [hkv2]) j hlt
      · have hje : j = d.data_count := by omega
        rw [hje, hkeyAt_new]
        exact (List.pairwise_cons.mp hpw).1 kv2 hkv2
    obtain ⟨dF, hrun, hDF, hcntF, hpresF, hgetF⟩ := ih d2 hD2
      (List.pairwise_cons.mp hpw).2 hnew_rest (by rw [hcnt2]; omega)
    refine ⟨dF, ?_, hDF, ?_, ?_, ?_⟩
    · rw [runSets, hok]
      show runSets d2 rest = some dF
      exact hrun
    · rw [hcntF, hcnt2, List.length_cons]
      omega
    · intro j hj
      rw [hpresF j (by rw [hcnt2]; omega), hpres2 j hj]
    · intro i hi
      rcases i with _ | i2
      · rw [Nat.add_zero, hpresF d.data_count (by rw [hcnt2]; omega), hnew2]
        simp
      · have hi2 : i2 < rest.length := by
          rw [List.length_cons] at hi
          omega
        have harith : d.data_count + (i2 + 1) = d2.data_count + i2 := by
          rw [hcnt2]
          omega
        rw [harith, hgetF i2 hi2, List.getElem?_cons_succ]

theorem get_has_at {d : KH_Dict} (hD : DInv d) {j : Nat} (hj : j < d.data_count) :
    KH_DictGet d (keyAt d j) = some (valAt d j) ∧
    KH_DictHas d (keyAt d j) = true := by
  have hlf := lookup_found hD hj
  obtain ⟨kv, hkv⟩ := Option.isSome_iff_exists.mp (hD.dense j hj)
  constructor
  · rw [KH_DictGet, hlf]
    show (d.pairs.getD j none).map Prod.snd = some (valAt d j)
    rw [hkv, valAt_eq_of_getD hkv]
    rfl
  · rw [KH_DictHas, hlf]
    rfl

/-! ## The claims

One theorem per claim of the specification; witnesses instantiate every
hypothesis at a concrete input, counterexamples settle the corrected claims. -/

/-- The dictionary after Set [0] ↦ [1] on a fresh dictionary. -/
def d1w : KH_Dict :=
  ⟨[4294967295, 4294967295, 4294967295, 4294967295, 4294967295, 0, 4294967295, 4294967295],
   [some (⟨[0]⟩, ⟨[1]⟩), none, none, none, none, none, none, none], 1, 8⟩

/-- The dictionary after Set [0] ↦ [1] then Set [1] ↦ [2]. -/
def d2w : KH_Dict :=
  ⟨[4294967295, 4294967295, 4294967295, 4294967295, 1, 0, 4294967295, 4294967295],
   [some (⟨[0]⟩, ⟨[1]⟩), some (⟨[1]⟩, ⟨[2]⟩), none, none, none, none, none, none], 2, 8⟩

/-- The dictionary after setting the five keys [0]…[4] (count 5 = 5/8 of 8). -/
def d5w : KH_Dict :=
  ⟨[4294967295, 4, 4294967295, 4294967295, 1, 0, 3, 2],
   [some (⟨[0]⟩, ⟨[0]⟩), some (⟨[1]⟩, ⟨[1]⟩), some (⟨[2]⟩, ⟨[2]⟩), some (⟨[3]⟩, ⟨[3]⟩),
    some (⟨[4]⟩, ⟨[4]⟩), none, none, none], 5, 8⟩

theorem reach_d1w : ReachableIn 1 d1w :=
  @ReachableIn.set 0 emptyD d1w (KH_CreateBlob [0]) (KH_CreateBlob [1]) true
    ReachableIn.empty (by decide)

theorem reach_d2w : ReachableIn 2 d2w :=
  @ReachableIn.set 1 d1w d2w (KH_CreateBlob [1]) (KH_CreateBlob [2]) true
    reach_d1w (by decide)

theorem DInv_d1w : DInv d1w := reachableIn_DInv reach_d1w (by norm_num)

theorem DInv_d2w : DInv d2w := reachableIn_DInv reach_d2w (by norm_num)

/-- C1: for a run of KH_DictSet operations with pairwise distinct keys from a
fresh dictionary — resizes included — every inserted key is afterwards
retrievable by KH_DictGet with its value and KH_DictHas answers true, PROVIDED
the run has at most 5·2^29 operations (the capacity then stays ≤ 2^32).  The
unbounded claim is refuted by `set_then_get_retrievable_cex`. -/
theorem set_then_get_retrievable (ops : List (KH_Blob × KH_Blob))
    (hdist : ops.Pairwise (fun a b => a.1 ≠ b.1))
    (hlen : ops.length ≤ 5 * 2 ^ 29) :
    ∃ dF, runSets emptyD ops = some dF ∧
      ∀ kv ∈ ops, KH_DictGet dF kv.1 = some kv.2 ∧ KH_DictHas dF kv.1 = true := by
  obtain ⟨dF, hrun, hDF, hcnt, _, hget⟩ := runSets_distinct_from ops emptyD DInv_emptyD
    hdist (by intro kv _ j hj; simp [emptyD] at hj) (by simpa [emptyD] using hlen)
  refine ⟨dF, hrun, ?_⟩
  intro kv hkv
  obtain ⟨i, hi, hkvi⟩ := List.getElem_of_mem hkv
  have hpair : dF.pairs.getD i none = some kv := by
    have h1 := hget i hi
    rw [show emptyD.data_count + i = i by simp [emptyD]] at h1
    rw [h1, List.getElem?_eq_getElem hi, hkvi]
  have hcnt2 : dF.data_count = ops.length := by
    rw [hcnt]
    simp [emptyD]
  have hiF : i < dF.data_count := by omega
  have hkey := keyAt_eq_of_getD hpair
  have hval := valAt_eq_of_getD hpair
  obtain ⟨hg, hh⟩ := get_has_at hDF hiF
  rw [hkey, hval] at hg
  rw [hkey] at hh
  exact ⟨hg, hh⟩

theorem set_then_get_retrievable_witness :
    ∃ dF, runSets emptyD [(KH_CreateBlob [0], KH_CreateBlob [1]),
        (KH_CreateBlob [1], KH_CreateBlob [2])] = some dF ∧
      ∀ kv ∈ [(KH_CreateBlob [0], KH_CreateBlob [1]),
        (KH_CreateBlob [1], KH_CreateBlob [2])],
        KH_DictGet dF kv.1 = some kv.2 ∧ KH_DictHas dF kv.1 = true :=
  set_then_get_retrievable _ (by decide) (by norm_num)

/-- C1, refuted unbounded: after 2^32-1 distinct-key inserts the key whose
pair index is 0xfffffffe = KH_HASH_DELETED is no longer retrievable — the
slot that stores its index reads as a TOMBSTONE. -/
theorem set_then_get_retrievable_cex :
    List.Pairwise (fun a b => a.1 ≠ b.1) (bigOps 4294967295) ∧
    (natKey 4294967294, natKey 4294967294) ∈ bigOps 4294967295 ∧
    ∃ dF, runSets emptyD (bigOps 4294967295) = some dF ∧
      KH_DictHas dF (natKey 4294967294) = false ∧
      KH_DictGet dF (natKey 4294967294) = none := by
  refine ⟨?_, ?_, ?_⟩
  · rw [bigOps, List.pairwise_map]
    refine List.Pairwise.imp_of_mem ?_ (List.pairwise_lt_range 4294967295)
    intro a b ha hb hab he
    rw [List.mem_range] at ha hb
    have := natKey_inj (by omega) (by omega) he
    omega
  · rw [bigOps]
    refine List.mem_map.mpr ⟨4294967294, ?_, rfl⟩
    rw [List.mem_range]
    norm_num
  · obtain ⟨dF, hrun, hB⟩ := bigRun 4294967295 (by norm_num)
    have hlk := bigState_lookup_tomb hB (by norm_num)
    refine ⟨dF, hrun, ?_, ?_⟩
    · rw [KH_DictHas, hlk]
      rfl
    · rw [KH_DictGet, hlk]

/-- C2: two keys with the same home bucket; insert both, delete the first,
the second is still found — lookup skips the TOMBSTONE and continues the
probe chain. -/
theorem tombstone_skip_lookup {d : KH_Dict} (hD : DInv d)
    (hsmall : d.data_count + 1 < 5 * 2 ^ 29)
    {k1 k2 : KH_Blob} (v1 v2 : KH_Blob) (hne : k1 ≠ k2)
    (_hcol : KH_BlobStartingIndexForSize k1.hash d.data_alloced
      = KH_BlobStartingIndexForSize k2.hash d.data_alloced)
    (hfresh1 : ∀ j, j < d.data_count → keyAt d j ≠ k1)
    (hfresh2 : ∀ j, j < d.data_count → keyAt d j ≠ k2) :
    ∃ d1 d2, KH_DictSet d k1 v1 true = .ok d1 ∧ KH_DictSet d1 k2 v2 true = .ok d2 ∧
      (KH_DictDelete d2 k1).1 = true ∧
      KH_DictGet (KH_DictDelete d2 k1).2 k2 = some v2 := by
  have hsmall1 : d.data_count < threshold U32 := by rw [threshold_U32]; omega
  obtain ⟨d1, hok1, hD1, hcnt1, hpres1, hnew1⟩ :=
    KH_DictSet_insert_spec hD k1 v1 hfresh1 hsmall1
  have habs2 : ∀ j, j < d1.data_count → keyAt d1 j ≠ k2 := by
    intro j hj
    rw [hcnt1] at hj
    rcases Nat.lt_or_ge j d.data_count with hlt | hge
    · have h2 : keyAt d1 j = keyAt d j := by
        unfold keyAt
        rw [hpres1 j hlt]
      rw [h2]
      exact hfresh2 j hlt
    · have hje : j = d.data_count := by omega
      rw [hje, keyAt_eq_of_getD hnew1]
      exact hne
  obtain ⟨d2, hok2, hD2, hcnt2, hpres2, hnew2⟩ :=
    KH_DictSet_insert_spec hD1 k2 v2 habs2 (by rw [hcnt1, threshold_U32]; omega)
  have hjd : d.data_count < d2.data_count := by
    rw [hcnt2, hcnt1]
    omega
  have hkey1 : keyAt d2 d.data_count = k1 := by
    have h2 : d2.pairs.getD d.data_count none = some (k1, v1) := by
      rw [hpres2 d.data_count (by rw [hcnt1]; omega)]
      exact hnew1
    exact keyAt_eq_of_getD h2
  have hdel : KH_DictDelete d2 k1 = (true, KH_DictRemove d2 d.data_count) := by
    rw [← hkey1]
    exact KH_DictDelete_found hD2 hjd
  obtain ⟨hD3, hp_lt3, hp_shift3⟩ := KH_DictRemove_spec hD2 hjd
  have hpair3 : (KH_DictRemove d2 d.data_count).pairs.getD d.data_count none
      = some (k2, v2) := by
    rw [hp_shift3 d.data_count (le_refl _) (by rw [hcnt2, hcnt1]; omega)]
    rw [← hcnt1]
    exact hnew2
  have hkey3 := keyAt_eq_of_getD hpair3
  have hval3 := valAt_eq_of_getD hpair3
  have hj3 : d.data_count < (KH_DictRemove d2 d.data_count).data_count := by
    show d.data_count < d2.data_count - 1
    rw [hcnt2, hcnt1]
    omega
  obtain ⟨hg, _⟩ := get_has_at hD3 hj3
  rw [hkey3, hval3] at hg
  refine ⟨d1, d2, hok1, hok2, ?_, ?_⟩
  · rw [hdel]
  · rw [hdel]
    exact hg

theorem tombstone_skip_lookup_witness :
    KH_BlobStartingIndexForSize (KH_CreateBlob [8]).hash d1w.data_alloced
      = KH_BlobStartingIndexForSize (KH_CreateBlob [16]).hash d1w.data_alloced ∧
    ∃ d1 d2,
      KH_DictSet d1w (KH_CreateBlob [8]) (KH_CreateBlob [1]) true = .ok d1 ∧
      KH_DictSet d1 (KH_CreateBlob [16]) (KH_CreateBlob [2]) true = .ok d2 ∧
      (KH_DictDelete d2 (KH_CreateBlob [8])).1 = true ∧
      KH_DictGet (KH_DictDelete d2 (KH_CreateBlob [8])).2 (KH_CreateBlob [16])
        = some (KH_CreateBlob [2]) :=
  ⟨by decide,
    tombstone_skip_lookup DInv_d1w (by decide) (KH_CreateBlob [1]) (KH_CreateBlob [2])
      (by decide) (by decide) (by decide) (by decide)⟩

/-- C3: deleting a present key (bounded regime): the delete succeeds, the key
is gone, the length drops by exactly one, every other key keeps its value, and
the iteration order closes the gap (entries before `j` keep their positions,
entries after `j` shift down one).  The unbounded claim is refuted by
`delete_postconditions_cex`. -/
theorem delete_postconditions {d : KH_Dict} (hD : DInv d) {j : Nat}
    (hj : j < d.data_count) :
    (KH_DictDelete d (keyAt d j)).1 = true ∧
    KH_DictHas (KH_DictDelete d (keyAt d j)).2 (keyAt d j) = false ∧
    KH_DictLen (KH_DictDelete d (keyAt d j)).2 = KH_DictLen d - 1 ∧
    (∀ i, i < d.data_count → i ≠ j →
      KH_DictGet (KH_DictDelete d (keyAt d j)).2 (keyAt d i) = some (valAt d i)) ∧
    (∀ i, i < j →
      KH_DictKeyIter (KH_DictDelete d (keyAt d j)).2 i = KH_DictKeyIter d i ∧
      KH_DictValueIter (KH_DictDelete d (keyAt d j)).2 i = KH_DictValueIter d i) ∧
    (∀ i, j ≤ i → i + 1 < d.data_count →
      KH_DictKeyIter (KH_DictDelete d (keyAt d j)).2 i = KH_DictKeyIter d (i + 1) ∧
      KH_DictValueIter (KH_DictDelete d (keyAt d j)).2 i
        = KH_DictValueIter d (i + 1)) := by
  have hdel := KH_DictDelete_found hD hj
  rw [hdel]
  obtain ⟨hD3, hp_lt, hp_shift⟩ := KH_DictRemove_spec hD hj
  have hcnt3 : (KH_DictRemove d j).data_count = d.data_count - 1 := rfl
  have hkeyAt_lt : ∀ i, i < j → keyAt (KH_DictRemove d j) i = keyAt d i := by
    intro i hi
    unfold keyAt
    rw [hp_lt i hi]
  have hkeyAt_shift : ∀ i, j ≤ i → i + 1 < d.data_count →
      keyAt (KH_DictRemove d j) i = keyAt d (i + 1) := by
    intro i h1 h2
    unfold keyAt
    rw [hp_shift i h1 h2]
  have hvalAt_lt : ∀ i, i < j → valAt (KH_DictRemove d j) i = valAt d i := by
    intro i hi
    unfold valAt
    rw [hp_lt i hi]
  have hvalAt_shift : ∀ i, j ≤ i → i + 1 < d.data_count →
      valAt (KH_DictRemove d j) i = valAt d (i + 1) := by
    intro i h1 h2
    unfold valAt
    rw [hp_shift i h1 h2]
  have habs : ∀ i, i < (KH_DictRemove d j).data_count →
      keyAt (KH_DictRemove d j) i ≠ keyAt d j := by
    intro i hi
    rw [hcnt3] at hi
    rcases Nat.lt_or_ge i j with hlt | hge
    · rw [hkeyAt_lt i hlt]
      exact hD.distinct i (by omega) j hj (by omega)
    · rw [hkeyAt_shift i hge (by omega)]
      exact hD.distinct (i + 1) (by omega) j hj (by omega)
  have hlk3 := lookup_none_of_absent hD3.toUInv habs
  refine ⟨rfl, ?_, rfl, ?_, ?_, ?_⟩
  · rw [KH_DictHas, hlk3]
    rfl
  · intro i hi hij
    rcases Nat.lt_or_ge i j with hlt | hge
    · have hi3 : i < (KH_DictRemove d j).data_count := by rw [hcnt3]; omega
      obtain ⟨hg, _⟩ := get_has_at hD3 hi3
      rw [hkeyAt_lt i hlt, hvalAt_lt i hlt] at hg
      exact hg
    · have hgt : j < i := by omega
      have hi3 : i - 1 < (KH_DictRemove d j).data_count := by rw [hcnt3]; omega
      obtain ⟨hg, _⟩ := get_has_at hD3 hi3
      rw [hkeyAt_shift (i - 1) (by omega) (by omega),
        hvalAt_shift (i - 1) (by omega) (by omega),
        show i - 1 + 1 = i by omega] at hg
      exact hg
  · intro i hi
    have hij : i < d.data_count := by omega
    have hi3 : i < (KH_DictRemove d j).data_count := by
      rw [hcnt3]
      omega
    constructor
    · rw [KH_DictKeyIter, KH_DictKeyIter, if_pos hi3, if_pos hij, hp_lt i hi]
    · rw [KH_DictValueIter, KH_DictValueIter, if_pos hi3, if_pos hij, hp_lt i hi]
  · intro i h1 h2
    have hi3 : i < (KH_DictRemove d j).data_count := by
      rw [hcnt3]
      omega
    constructor
    · rw [KH_DictKeyIter, KH_DictKeyIter, if_pos hi3, if_pos h2, hp_shift i h1 h2]
    · rw [KH_DictValueIter, KH_DictValueIter, if_pos hi3, if_pos h2, hp_shift i h1 h2]

theorem delete_postconditions_witness :
    (KH_DictDelete d2w (keyAt d2w 0)).1 = true ∧
    KH_DictHas (KH_DictDelete d2w (keyAt d2w 0)).2 (keyAt d2w 0) = false ∧
    KH_DictLen (KH_DictDelete d2w (keyAt d2w 0)).2 = KH_DictLen d2w - 1 ∧
    (∀ i, i < d2w.data_count → i ≠ 0 →
      KH_DictGet (KH_DictDelete d2w (keyAt d2w 0)).2 (keyAt d2w i)
        = some (valAt d2w i)) ∧
    (∀ i, i < 0 →
      KH_DictKeyIter (KH_DictDelete d2w (keyAt d2w 0)).2 i = KH_DictKeyIter d2w i ∧
      KH_DictValueIter (KH_DictDelete d2w (keyAt d2w 0)).2 i
        = KH_DictValueIter d2w i) ∧
    (∀ i, 0 ≤ i → i + 1 < d2w.data_count →
      KH_DictKeyIter (KH_DictDelete d2w (keyAt d2w 0)).2 i
        = KH_DictKeyIter d2w (i + 1) ∧
      KH_DictValueIter (KH_DictDelete d2w (keyAt d2w 0)).2 i
        = KH_DictValueIter d2w (i + 1)) :=
  delete_postconditions DInv_d2w (by decide)

/-- C3, refuted unbounded: in the 2^32-1-key state, deleting the first key
succeeds but afterwards another previously inserted key (the one whose pair
index collided with the TOMBSTONE sentinel) maps to nothing. -/
theorem delete_postconditions_cex :
    ∃ dF, runSets emptyD (bigOps 4294967295) = some dF ∧
      (natKey 4294967294, natKey 4294967294) ∈ bigOps 4294967295 ∧
      natKey 4294967294 ≠ natKey 0 ∧
      (KH_DictDelete dF (natKey 0)).1 = true ∧
      KH_DictGet (KH_DictDelete dF (natKey 0)).2 (natKey 4294967294) = none := by
  obtain ⟨dF, hrun, hB⟩ := bigRun 4294967295 (by norm_num)
  have hdel := bigState_delete_zero hB (by norm_num)
  refine ⟨dF, hrun, ?_, by decide, ?_, ?_⟩
  · rw [bigOps]
    refine List.mem_map.mpr ⟨4294967294, ?_, rfl⟩
    rw [List.mem_range]
    norm_num
  · rw [hdel]
  · rw [hdel]
    exact big_delete_get_none hB

/-- C4: in every reachable state, count ≤ capacity, and 8·count ≤ 5·capacity
(count never exceeds the 5/8 trigger point).  The claim's strict version —
occupancy always strictly below 5/8 when the capacity is nonzero — is refuted
by `occupancy_strict_cex`: equality is reached at count 5, capacity 8. -/
theorem occupancy_invariant {n : Nat} {d : KH_Dict} (h : ReachableIn n d) :
    d.data_count ≤ d.data_alloced ∧ 8 * d.data_count ≤ 5 * d.data_alloced := by
  obtain ⟨hU, _⟩ := reachableIn_UInv h
  have hcle := hU.count_le
  rcases hU.cap_pow with h0 | ⟨k, hk3, hcap⟩
  · rw [h0, threshold_zero] at hcle
    rw [h0]
    omega
  · rw [hcap] at hcle ⊢
    rw [threshold_two_pow hk3] at hcle
    have h1 : (2:Nat) ^ k = 2 ^ (k - 3) * 8 := by
      rw [show k = (k - 3) + 3 by omega, pow_add]
      norm_num
    have h2 := threshold_lt_cap hk3
    rw [threshold_two_pow hk3] at h2
    omega

theorem occupancy_invariant_witness :
    d1w.data_count ≤ d1w.data_alloced ∧ 8 * d1w.data_count ≤ 5 * d1w.data_alloced :=
  occupancy_invariant reach_d1w

/-- C4, strict version refuted: after five inserts the table holds count 5 at
capacity 8, occupancy exactly 5/8, not strictly below it. -/
theorem occupancy_strict_cex :
    runSets emptyD ([[0], [1], [2], [3], [4]].map
      (fun b => (KH_CreateBlob b, KH_CreateBlob b))) = some d5w ∧
    d5w.data_alloced ≠ 0 ∧ ¬(8 * d5w.data_count < 5 * d5w.data_alloced) :=
  ⟨by decide, by decide, by decide⟩

/-- C5: KH_CreateDict returns the empty dictionary (count = capacity = 0, no
backing arrays) when the allocation succeeds; when malloc fails it does NOT
return NULL as documented — it memsets the NULL pointer (undefined
behaviour, modelled as `.nullDeref`). -/
theorem createDict_behaviour :
    KH_CreateDict true = .ok emptyD ∧ KH_CreateDict false = .nullDeref :=
  ⟨rfl, rfl⟩

/-- C6: when the allocator fails during a resize, the resize reports failure,
and the enclosing KH_DictSet fails without mutating the dictionary: every
`.fail` result carries the dictionary unchanged. -/
theorem resize_failure_atomic (d : KH_Dict) (k v : KH_Blob)
    (htrig : threshold d.data_alloced ≤ d.data_count)
    (hnew : KH_DictLookupIndex d k = none) :
    KH_ResizeDict d false = .fail ∧
    KH_DictSet d k v false = .fail d ∧
    (∀ d2, KH_DictSet d k v false = .fail d2 → d2 = d) := by
  refine ⟨rfl, ?_, fun d2 h => KH_DictSet_fail_eq h⟩
  rw [KH_DictSet, hnew]
  show KH_DictInsert d k v false = .fail d
  rw [KH_DictInsert, if_pos htrig, show KH_ResizeDict d false = .fail from rfl]

theorem resize_failure_atomic_witness :
    KH_ResizeDict emptyD false = .fail ∧
    KH_DictSet emptyD (KH_CreateBlob [0]) (KH_CreateBlob [1]) false = .fail emptyD ∧
    (∀ d2, KH_DictSet emptyD (KH_CreateBlob [0]) (KH_CreateBlob [1]) false = .fail d2 →
      d2 = emptyD) :=
  resize_failure_atomic emptyD (KH_CreateBlob [0]) (KH_CreateBlob [1])
    (by decide) (by decide)

/-- C7: once capacity is secured (bounded regime: fewer than 5·2^29 pairs),
the insert probe loop always finds a free slot, so KH_DictInsert returns
`.ok` and never hangs.  The unbounded claim is refuted by
`insert_probe_terminates_cex`. -/
theorem insert_probe_terminates {d : KH_Dict} (hD : DInv d)
    (hsmall : d.data_count < 5 * 2 ^ 29) (k v : KH_Blob)
    (hfresh : ∀ j, j < d.data_count → keyAt d j ≠ k) :
    ∃ d2, KH_DictInsert d k v true = .ok d2 := by
  obtain ⟨d2, hok, _⟩ := KH_DictInsert_spec hD k v hfresh (by rw [threshold_U32]; omega)
  exact ⟨d2, hok⟩

theorem insert_probe_terminates_witness :
    ∃ d2, KH_DictInsert d1w (KH_CreateBlob [1]) (KH_CreateBlob [2]) true = .ok d2 :=
  insert_probe_terminates DInv_d1w (by decide) (KH_CreateBlob [1]) (KH_CreateBlob [2])
    (by decide)

/-- C7, refuted unbounded: after 2^32+2 inserts the capacity is 2^33 and no
resize is pending (count is far below 5/8 of capacity — capacity is secured),
yet the next insert's probe loop spins forever: its uint32 cursor reaches only
the first 2^32 slots and every one of them is non-free. -/
theorem insert_probe_terminates_cex :
    ∃ dF, runSets emptyD (bigOps 4294967298) = some dF ∧
      dF.data_count < threshold dF.data_alloced ∧
      KH_DictSet dF (natKey 4294967298) (natKey 4294967298) true = SetRes.hang := by
  obtain ⟨dF, hrun, hB⟩ := bigRun 4294967298 (by norm_num)
  refine ⟨dF, hrun, ?_, big_final_hang hB⟩
  have hcap : dF.data_alloced = 2 ^ 33 := by
    rcases hB.capk with h0 | ⟨k, hk3, hk33, hcap⟩
    · have := hB.uinv.count_zero_of_cap_zero h0
      rw [hB.count] at this
      omega
    · have hcle := hB.uinv.count_le
      rw [hB.count, hcap] at hcle
      have hk : k = 33 := by
        by_contra hne
        rw [threshold_two_pow hk3] at hcle
        have h1 : (2:Nat) ^ (k - 3) ≤ 2 ^ 29 :=
          Nat.pow_le_pow_right (by norm_num) (by omega)
        have h2 : (2:Nat) ^ 29 = 536870912 := by norm_num
        omega
      rw [hcap, hk]
  rw [hcap, hB.count, threshold_two_pow (by norm_num)]
  norm_num

/-- C8: deleting a key that is not in the dictionary returns failure and
returns the dictionary itself — length, every mapping and the iteration order
are exactly as before the call.  This holds for every structurally
well-formed state, with no bound on the history. -/
theorem delete_absent_frame {d : KH_Dict} (hU : UInv d) {k : KH_Blob}
    (habs : ∀ j, j < d.data_count → keyAt d j ≠ k) :
    KH_DictDelete d k = (false, d) := by
  rw [KH_DictDelete, lookup_none_of_absent hU habs]

theorem delete_absent_frame_witness :
    KH_DictDelete d1w (KH_CreateBlob [7]) = (false, d1w) :=
  delete_absent_frame DInv_d1w.toUInv (by decide)

/-- C9: setting a key that is already present (bounded regime) replaces only
that key's value: the length, every key's iteration position, and every other
entry's value are unchanged.  The unbounded claim is refuted by
`update_in_place_cex`. -/
theorem update_in_place {d : KH_Dict} (hD : DInv d) {j : Nat} (hj : j < d.data_count)
    (v : KH_Blob) (ao : Bool) :
    ∃ d2, KH_DictSet d (keyAt d j) v ao = .ok d2 ∧
      KH_DictLen d2 = KH_DictLen d ∧
      (∀ i, i < d.data_count → KH_DictKeyIter d2 i = KH_DictKeyIter d i) ∧
      KH_DictValueIter d2 j = some v ∧
      (∀ i, i ≠ j → KH_DictValueIter d2 i = KH_DictValueIter d i) ∧
      KH_DictGet d2 (keyAt d j) = some v := by
  obtain ⟨d2, hok, hD2, hcnt, hcap2, hslots, hgetj, hget_ne⟩ :=
    KH_DictSet_update_spec hD hj v ao
  obtain ⟨kv, hkv⟩ := Option.isSome_iff_exists.mp (hD.dense j hj)
  refine ⟨d2, hok, hcnt, ?_, ?_, ?_, ?_⟩
  · intro i hi
    rw [KH_DictKeyIter, KH_DictKeyIter, hcnt, if_pos hi, if_pos hi]
    by_cases hij : i = j
    · subst hij
      rw [hgetj, hkv]
      have h3 : kv.1 = keyAt d i := (keyAt_eq_of_getD hkv).symm
      simp [h3]
    · rw [hget_ne i hij]
  · rw [KH_DictValueIter, hcnt, if_pos hj, hgetj]
    rfl
  · intro i hij
    rw [KH_DictValueIter, KH_DictValueIter, hcnt]
    by_cases hi : i < d.data_count
    · rw [if_pos hi, if_pos hi, hget_ne i hij]
    · rw [if_neg hi, if_neg hi]
  · have hkeyAt2 : keyAt d2 j = keyAt d j := by
      rw [keyAt_eq_of_getD hgetj]
    have hvalAt2 : valAt d2 j = v := by
      rw [valAt_eq_of_getD hgetj]
    obtain ⟨hg, _⟩ := get_has_at hD2 (by rw [hcnt]; exact hj)
    rw [hkeyAt2, hvalAt2] at hg
    exact hg

theorem update_in_place_witness :
    ∃ d2, KH_DictSet d1w (keyAt d1w 0) (KH_CreateBlob [3]) true = .ok d2 ∧
      KH_DictLen d2 = KH_DictLen d1w ∧
      (∀ i, i < d1w.data_count → KH_DictKeyIter d2 i = KH_DictKeyIter d1w i) ∧
      KH_DictValueIter d2 0 = some (KH_CreateBlob [3]) ∧
      (∀ i, i ≠ 0 → KH_DictValueIter d2 i = KH_DictValueIter d1w i) ∧
      KH_DictGet d2 (keyAt d1w 0) = some (KH_CreateBlob [3]) :=
  update_in_place DInv_d1w (by decide) (KH_CreateBlob [3]) true

/-- C9, refuted unbounded: in the 2^32-1-key state, re-setting the key whose
pair index collided with the TOMBSTONE does not update in place — the lookup
misses, a duplicate entry is appended, and the length grows by one. -/
theorem update_in_place_cex :
    ∃ dF d2, runSets emptyD (bigOps 4294967295) = some dF ∧
      (natKey 4294967294, natKey 4294967294) ∈ bigOps 4294967295 ∧
      KH_DictSet dF (natKey 4294967294) (natKey 4294967294) true = .ok d2 ∧
      KH_DictLen d2 = KH_DictLen dF + 1 := by
  obtain ⟨dF, hrun, hB⟩ := bigRun 4294967295 (by norm_num)
  have hlk := bigState_lookup_tomb hB (by norm_num)
  obtain ⟨d2, hok, hc1, _⟩ := big_insert hB (by norm_num) (natKey 4294967294)
    (natKey 4294967294) (natKey_hash_lt _) hlk
  refine ⟨dF, d2, hrun, ?_, hok, ?_⟩
  · rw [bigOps]
    refine List.mem_map.mpr ⟨4294967294, ?_, rfl⟩
    rw [List.mem_range]
    norm_num
  · show d2.data_count = dF.data_count + 1
    rw [hc1, hB.count]

/-- C10: the implicit slot-table invariant in the bounded regime: every
non-sentinel slot value is a live pair index (< count), every live pair index
is held by exactly one slot and that slot does not read as free, the pair
prefix is dense, and a triggered resize preserves the count.  The unbounded
claim is refuted by `slot_table_invariant_cex`. -/
theorem slot_table_invariant {n : Nat} {d : KH_Dict} (h : ReachableIn n d)
    (hn : n ≤ 5 * 2 ^ 29) :
    (∀ s ∈ d.slots, s = KH_HASH_EMPTY ∨ s = KH_HASH_DELETED ∨ s < d.data_count) ∧
    (∀ j, j < d.data_count → ∃ p, p < d.data_alloced ∧ d.slots.getD p 0 = j ∧
      isFreeSlot (d.slots.getD p 0) = false ∧
      (∀ q, q < d.data_alloced → d.slots.getD q 0 = j → q = p)) ∧
    (∀ i, i < d.data_count → (d.pairs.getD i none).isSome = true) ∧
    (threshold d.data_alloced ≤ d.data_count →
      ∀ d2, KH_ResizeDict d true = .ok d2 → d2.data_count = d.data_count) := by
  have hD := reachableIn_DInv h hn
  refine ⟨hD.slot_range, ?_, hD.dense, ?_⟩
  · intro j hj
    obtain ⟨p, hp, hval, huniq⟩ := hD.uniq j hj
    refine ⟨p, hp, hval, ?_, huniq⟩
    rw [hval]
    apply isFreeSlot_false_of
    · have h1 := hD.count_lt_tomb
      have h2 := tomb_lt_empty
      omega
    · have h1 := hD.count_lt_tomb
      omega
  · intro htrig d2 hres
    rcases KH_ResizeDict_UInv hD.toUInv htrig with hh | ⟨d2x, hok, _, hcnt, _⟩
    · rw [hres] at hh
      exact absurd hh (by simp)
    · rw [hres] at hok
      obtain rfl := RszRes.ok.inj hok
      exact hcnt

theorem slot_table_invariant_witness :
    (∀ s ∈ d1w.slots, s = KH_HASH_EMPTY ∨ s = KH_HASH_DELETED ∨ s < d1w.data_count) ∧
    (∀ j, j < d1w.data_count → ∃ p, p < d1w.data_alloced ∧ d1w.slots.getD p 0 = j ∧
      isFreeSlot (d1w.slots.getD p 0) = false ∧
      (∀ q, q < d1w.data_alloced → d1w.slots.getD q 0 = j → q = p)) ∧
    (∀ i, i < d1w.data_count → (d1w.pairs.getD i none).isSome = true) ∧
    (threshold d1w.data_alloced ≤ d1w.data_count →
      ∀ d2, KH_ResizeDict d1w true = .ok d2 → d2.data_count = d1w.data_count) :=
  slot_table_invariant reach_d1w (by norm_num)

/-- C10, refuted unbounded: after 2^32-1 inserts, pair index 0xfffffffe is
live (below count, its pair present) yet no slot usable by lookup holds it:
the only slot storing those bits is read as the TOMBSTONE sentinel. -/
theorem slot_table_invariant_cex :
    ∃ dF, runSets emptyD (bigOps 4294967295) = some dF ∧
      4294967294 < dF.data_count ∧
      (dF.pairs.getD 4294967294 none).isSome = true ∧
      ¬ ∃ p, p < dF.data_alloced ∧ dF.slots.getD p 0 = 4294967294 ∧
        isFreeSlot (dF.slots.getD p 0) = false := by
  obtain ⟨dF, hrun, hB⟩ := bigRun 4294967295 (by norm_num)
  refine ⟨dF, hrun, by rw [hB.count]; norm_num, ?_, ?_⟩
  · rw [hB.pairs 4294967294 (by norm_num)]
    rfl
  · rintro ⟨p, hp, hval, hfree⟩
    rw [hval] at hfree
    exact absurd hfree (by decide)

end KHT
